import Mathlib

/-!
# classy: class-signature extraction and ranking

A shallow embedding of `extract/extract.go` of `carlmjohnson/classy`.

Go strings handled by the program are attribute values produced by the HTML
parser, i.e. valid UTF-8.  They are modelled as lists of Unicode code points
(`List Char`).  The byte-wise order Go uses for `<` on strings coincides, on
valid UTF-8, with the lexicographic order of the code points, which is the
order `List Char` carries here.  The marker strings `{{` and `}}` are ASCII, so
searching for them in the code points is the same as searching the bytes.

The library routines the program calls (`strings.Cut`, `strings.Fields`,
`strings.Join`, `strings.Count`, `slices.Sort`, `slices.Compact`,
`slices.SortFunc`) are embedded next to the functions of the repository.
-/

namespace Classy

/-- A Go string, as the list of its code points. -/
abbrev Str := List Char

/-! ## Package `strings` -/

namespace strings

/-- The predicate `unicode.IsSpace`: the Latin-1 spaces `\t \n \v \f \r`, space,
U+0085, U+00A0, and the other code points with the White_Space property. -/
def isSpace (c : Char) : Bool :=
  let n := c.toNat
  (0x09 ≤ n && n ≤ 0x0D) || n = 0x20 || n = 0x85 || n = 0xA0 || n = 0x1680 ||
  (0x2000 ≤ n && n ≤ 0x200A) || n = 0x2028 || n = 0x2029 || n = 0x202F ||
  n = 0x205F || n = 0x3000

/-- The test `strings.HasPrefix s p`. -/
def HasPrefix : Str → Str → Bool
  | _, [] => true
  | [], _ :: _ => false
  | c :: s, d :: p => c = d && HasPrefix s p

/-- The search `strings.Index s substr`: the index of the first occurrence of
`substr` in `s`; `none` stands for Go's `-1`. -/
def Index : Str → Str → Option Nat
  | [], substr => if substr = [] then some 0 else none
  | c :: s, substr =>
    if HasPrefix (c :: s) substr then some 0
    else (Index s substr).map (· + 1)

/-- The function `strings.Cut s sep`: slices `s` around the first instance of `sep`:
`(s[:i], s[i+len(sep):], true)` when `sep` occurs first at `i`, `(s, "", false)`
when it does not occur. -/
def Cut (s sep : Str) : Str × Str × Bool :=
  match Index s sep with
  | some i => (s.take i, s.drop (i + sep.length), true)
  | none => (s, [], false)

/-- The scanning loop of `strings.Fields`: `cur` is the field being read. -/
def fieldsFrom : Str → Str → List Str
  | [], cur => if cur = [] then [] else [cur]
  | c :: s, cur =>
    if isSpace c then
      if cur = [] then fieldsFrom s [] else cur :: fieldsFrom s []
    else fieldsFrom s (cur ++ [c])

/-- The function `strings.Fields s`: the maximal runs of non-space characters of `s`. -/
def Fields (s : Str) : List Str := fieldsFrom s []

/-- The function `strings.Join elems sep`. -/
def Join : List Str → Str → Str
  | [], _ => []
  | [a], _ => a
  | a :: b :: rest, sep => a ++ sep ++ Join (b :: rest) sep

/-- The function `strings.Count s " "` for a one-character separator `c`: the number
of occurrences of `c` in `s`. -/
def Count : Str → Char → Nat
  | [], _ => 0
  | d :: s, c => (if d = c then 1 else 0) + Count s c

end strings

/-! ## Package `slices` -/

namespace slices

/-- Insertion of `a` in a sorted list, before the first element not below it. -/
def insertSorted (a : Str) : List Str → List Str
  | [] => [a]
  | b :: l => if a ≤ b then a :: b :: l else b :: insertSorted a l

/-- The function `slices.Sort` at strings: the elements in ascending order.  The order
on strings is total and equal strings are indistinguishable, so the result does
not depend on the sorting algorithm; insertion sort computes it. -/
def SortStrings : List Str → List Str
  | [] => []
  | a :: l => insertSorted a (SortStrings l)

/-- The function `slices.Compact`: each run of consecutive equal elements is replaced by
a single copy. -/
def Compact : List Str → List Str
  | [] => []
  | [a] => [a]
  | a :: b :: l => if a = b then Compact (b :: l) else a :: Compact (b :: l)

/-! ### `slices.SortFunc`

The sorting routine of `golang.org/x/exp/slices` in the version whose `SortFunc` takes a
`less` function (file `zsortfunc.go`): pattern-defeating quicksort.  Slices are lists; the
routines return the slice they have rearranged. -/

/-- The element `data[i]` of a slice; the empty string stands for an index out of range,
which the sorting routines never read. -/
def get (data : List Str) (i : Nat) : Str := data.getD i []

/-- The exchange `data[i], data[j] = data[j], data[i]`. -/
def swap (data : List Str) (i j : Nat) : List Str :=
  (data.set i (get data j)).set j (get data i)

/-- The inner loop of `insertionSortLessFunc`:
`for j := i; j > a && less(data[j], data[j-1]); j-- { swap j, j-1 }`. -/
def insertionSortLessFunc.inner (less : Str → Str → Bool) (a : Nat) :
    Nat → List Str → List Str
  | 0, data => data
  | j + 1, data =>
    if j + 1 > a && less (get data (j + 1)) (get data j) then
      insertionSortLessFunc.inner less a j (swap data (j + 1) j)
    else data

/-- The outer loop of `insertionSortLessFunc`, `for i := a + 1; i < b; i++`, with `n` the
number of passes left, `b - i`. -/
def insertionSortLessFunc.outer (less : Str → Str → Bool) (a : Nat) :
    Nat → Nat → List Str → List Str
  | 0, _, data => data
  | n + 1, i, data =>
    insertionSortLessFunc.outer less a n (i + 1) (insertionSortLessFunc.inner less a i data)

/-- The routine `insertionSortLessFunc`: sorts `data[a:b]` using insertion sort. -/
def insertionSortLessFunc (data : List Str) (a b : Nat) (less : Str → Str → Bool) : List Str :=
  insertionSortLessFunc.outer less a (b - (a + 1)) (a + 1) data

/-- The loop of `siftDownLessFunc`; `none` when `fuel` passes did not reach a `return`. -/
def siftDownLessFunc.loop (less : Str → Str → Bool) (hi first : Nat) :
    Nat → Nat → List Str → Option (List Str)
  | 0, _, _ => none
  | fuel + 1, root, data =>
    let child := 2 * root + 1
    if child ≥ hi then some data
    else
      let child :=
        if child + 1 < hi && less (get data (first + child)) (get data (first + child + 1))
        then child + 1 else child
      if !less (get data (first + root)) (get data (first + child)) then some data
      else siftDownLessFunc.loop less hi first fuel child (swap data (first + root) (first + child))

/-- The routine `siftDownLessFunc`: implements the heap property on `data[lo:hi]`.  The root
index grows on every pass and stays below `hi`, so `hi + 1` passes are enough. -/
def siftDownLessFunc (data : List Str) (lo hi first : Nat) (less : Str → Str → Bool) :
    Option (List Str) :=
  siftDownLessFunc.loop less hi first (hi + 1) lo data

/-- The first loop of `heapSortLessFunc`: `for i := (hi - 1) / 2; i >= 0; i--`. -/
def heapSortLessFunc.build (less : Str → Str → Bool) (hi first : Nat) :
    Nat → List Str → Option (List Str)
  | 0, data => siftDownLessFunc data 0 hi first less
  | i + 1, data => do
    let data ← siftDownLessFunc data (i + 1) hi first less
    heapSortLessFunc.build less hi first i data

/-- The second loop of `heapSortLessFunc`: `for i := hi - 1; i >= 0; i--`, the argument
being `i + 1`. -/
def heapSortLessFunc.pop (less : Str → Str → Bool) (lo first : Nat) :
    Nat → List Str → Option (List Str)
  | 0, data => some data
  | i + 1, data => do
    let data ← siftDownLessFunc (swap data first (first + i)) lo i first less
    heapSortLessFunc.pop less lo first i data

/-- The routine `heapSortLessFunc`. -/
def heapSortLessFunc (data : List Str) (a b : Nat) (less : Str → Str → Bool) :
    Option (List Str) := do
  let first := a
  let lo := 0
  let hi := b - a
  let data ← heapSortLessFunc.build less hi first ((hi - 1) / 2) data
  heapSortLessFunc.pop less lo first hi data

/-- The scan `for i <= j && less(data[i], data[a]) { i++ }` of `partitionLessFunc`, with
`n` bounding the passes by `j + 1 - i`. -/
def partitionLessFunc.up (less : Str → Str → Bool) (data : List Str) (a j : Nat) :
    Nat → Nat → Nat
  | 0, i => i
  | n + 1, i =>
    if i ≤ j && less (get data i) (get data a) then partitionLessFunc.up less data a j n (i + 1)
    else i

/-- The scan `for i <= j && !less(data[j], data[a]) { j-- }` of `partitionLessFunc`, with
`n` bounding the passes by `j + 1 - i`. -/
def partitionLessFunc.down (less : Str → Str → Bool) (data : List Str) (a i : Nat) :
    Nat → Nat → Nat
  | 0, j => j
  | n + 1, j =>
    if i ≤ j && !less (get data j) (get data a) then
      partitionLessFunc.down less data a i n (j - 1)
    else j

/-- The `for` loop of `partitionLessFunc`; the result is `data` and `j` at the `break`. -/
def partitionLessFunc.loop (less : Str → Str → Bool) (a : Nat) :
    Nat → List Str → Nat → Nat → Option (List Str × Nat)
  | 0, _, _, _ => none
  | fuel + 1, data, i, j =>
    let i := partitionLessFunc.up less data a j (j + 1 - i) i
    let j := partitionLessFunc.down less data a i (j + 1 - i) j
    if i > j then some (data, j)
    else partitionLessFunc.loop less a fuel (swap data i j) (i + 1) (j - 1)

/-- The routine `partitionLessFunc`: one quicksort partition of `data[a:b]` around
`data[pivot]`; the result is the slice, the new index of the pivot, and whether the
slice was already partitioned. -/
def partitionLessFunc (data : List Str) (a b pivot : Nat) (less : Str → Str → Bool) :
    Option (List Str × Nat × Bool) :=
  let data := swap data a pivot
  let i := a + 1
  let j := b - 1
  let i := partitionLessFunc.up less data a j (j + 1 - i) i
  let j := partitionLessFunc.down less data a i (j + 1 - i) j
  if i > j then some (swap data j a, j, true)
  else
    let data := swap data i j
    let i := i + 1
    let j := j - 1
    match partitionLessFunc.loop less a (b - a + 1) data i j with
    | none => none
    | some (data, j) => some (swap data j a, j, false)

/-- The scan `for i <= j && !less(data[a], data[i]) { i++ }` of `partitionEqualLessFunc`. -/
def partitionEqualLessFunc.up (less : Str → Str → Bool) (data : List Str) (a j : Nat) :
    Nat → Nat → Nat
  | 0, i => i
  | n + 1, i =>
    if i ≤ j && !less (get data a) (get data i) then
      partitionEqualLessFunc.up less data a j n (i + 1)
    else i

/-- The scan `for i <= j && less(data[a], data[j]) { j-- }` of `partitionEqualLessFunc`. -/
def partitionEqualLessFunc.down (less : Str → Str → Bool) (data : List Str) (a i : Nat) :
    Nat → Nat → Nat
  | 0, j => j
  | n + 1, j =>
    if i ≤ j && less (get data a) (get data j) then
      partitionEqualLessFunc.down less data a i n (j - 1)
    else j

/-- The `for` loop of `partitionEqualLessFunc`; the result is `data` and `i` at the `break`. -/
def partitionEqualLessFunc.loop (less : Str → Str → Bool) (a : Nat) :
    Nat → List Str → Nat → Nat → Option (List Str × Nat)
  | 0, _, _, _ => none
  | fuel + 1, data, i, j =>
    let i := partitionEqualLessFunc.up less data a j (j + 1 - i) i
    let j := partitionEqualLessFunc.down less data a i (j + 1 - i) j
    if i > j then some (data, i)
    else partitionEqualLessFunc.loop less a fuel (swap data i j) (i + 1) (j - 1)

/-- The routine `partitionEqualLessFunc`: partitions `data[a:b]` into the elements equal to
`data[pivot]` followed by the elements greater than it. -/
def partitionEqualLessFunc (data : List Str) (a b pivot : Nat) (less : Str → Str → Bool) :
    Option (List Str × Nat) :=
  let data := swap data a pivot
  partitionEqualLessFunc.loop less a (b - a + 1) data (a + 1) (b - 1)

/-- The scan `for i < b && !less(data[i], data[i-1]) { i++ }` of
`partialInsertionSortLessFunc`, with `n` bounding the passes by `b - i`. -/
def partialInsertionSortLessFunc.scan (less : Str → Str → Bool) (data : List Str) (b : Nat) :
    Nat → Nat → Nat
  | 0, i => i
  | n + 1, i =>
    if i < b && !less (get data i) (get data (i - 1)) then
      partialInsertionSortLessFunc.scan less data b n (i + 1)
    else i

/-- The loop `for j := i - 1; j >= 1; j--` of `partialInsertionSortLessFunc`, which shifts
the smaller element to the left. -/
def partialInsertionSortLessFunc.left (less : Str → Str → Bool) : Nat → List Str → List Str
  | 0, data => data
  | j + 1, data =>
    if !less (get data (j + 1)) (get data j) then data
    else partialInsertionSortLessFunc.left less j (swap data (j + 1) j)

/-- The loop `for j := i + 1; j < b; j++` of `partialInsertionSortLessFunc`, which shifts
the greater element to the right, with `n` the number of passes left, `b - j`. -/
def partialInsertionSortLessFunc.right (less : Str → Str → Bool) :
    Nat → Nat → List Str → List Str
  | 0, _, data => data
  | n + 1, j, data =>
    if !less (get data j) (get data (j - 1)) then data
    else partialInsertionSortLessFunc.right less n (j + 1) (swap data j (j - 1))

/-- The loop `for j := 0; j < maxSteps; j++` of `partialInsertionSortLessFunc`, with `n` the
number of passes left. -/
def partialInsertionSortLessFunc.steps (less : Str → Str → Bool) (a b : Nat) :
    Nat → Nat → List Str → List Str × Bool
  | 0, _, data => (data, false)
  | n + 1, i, data =>
    let i := partialInsertionSortLessFunc.scan less data b (b - i) i
    if i = b then (data, true)
    else if b - a < 50 then (data, false)
    else
      let data := swap data i (i - 1)
      let data :=
        if i - a ≥ 2 then partialInsertionSortLessFunc.left less (i - 1) data else data
      let data :=
        if b - i ≥ 2 then partialInsertionSortLessFunc.right less (b - (i + 1)) (i + 1) data
        else data
      partialInsertionSortLessFunc.steps less a b n i data

/-- The routine `partialInsertionSortLessFunc`: partially sorts `data[a:b]`; the boolean
tells whether the slice is sorted at the end. -/
def partialInsertionSortLessFunc (data : List Str) (a b : Nat) (less : Str → Str → Bool) :
    List Str × Bool :=
  partialInsertionSortLessFunc.steps less a b 5 (a + 1) data

/-- The function `bits.Len`: the number of bits needed to write `n`. -/
def bitsLen (n : Nat) : Nat := if n = 0 then 0 else Nat.log2 n + 1

/-- One step `Next` of the generator `xorshift`, on 64-bit words.  The shifts are those
of the first versions of the routine; nothing proved below depends on them. -/
def xorshiftNext (r : Nat) : Nat :=
  let r := r ^^^ ((r <<< 13) % 2 ^ 64)
  let r := r ^^^ (r >>> 17)
  r ^^^ ((r <<< 5) % 2 ^ 64)

/-- The function `nextPowerOfTwo`. -/
def nextPowerOfTwo (length : Nat) : Nat := (1 <<< bitsLen length) % 2 ^ 64

/-- The loop `for i := 0; i < 3; i++` of `breakPatternsLessFunc`, with `n` the number of
passes left. -/
def breakPatternsLessFunc.loop (a length modulus idx : Nat) :
    Nat → Nat → Nat → List Str → List Str
  | 0, _, _, data => data
  | n + 1, i, random, data =>
    let random := xorshiftNext random
    let other := random &&& (modulus - 1)
    let other := if other ≥ length then other - length else other
    breakPatternsLessFunc.loop a length modulus idx n (i + 1) random
      (swap data (idx - 1 + i) (a + other))

/-- The routine `breakPatternsLessFunc`: scatters some elements around. -/
def breakPatternsLessFunc (data : List Str) (a b : Nat) : List Str :=
  let length := b - a
  if length ≥ 8 then
    let random := length
    let modulus := nextPowerOfTwo length
    let idx := a + (length / 4) * 2 - 1
    breakPatternsLessFunc.loop a length modulus idx 3 0 random data
  else data

/-- The type `sortedHint`. -/
inductive sortedHint where
  | unknownHint
  | increasingHint
  | decreasingHint
  deriving DecidableEq, Repr

/-- The function `order2LessFunc`, the counter `swaps` being passed along. -/
def order2LessFunc (data : List Str) (a b swaps : Nat) (less : Str → Str → Bool) :
    Nat × Nat × Nat :=
  if less (get data b) (get data a) then (b, a, swaps + 1) else (a, b, swaps)

/-- The function `medianLessFunc`: the index of the median of `data[a]`, `data[b]`, `data[c]`. -/
def medianLessFunc (data : List Str) (a b c swaps : Nat) (less : Str → Str → Bool) :
    Nat × Nat :=
  let (a, b, swaps) := order2LessFunc data a b swaps less
  let (b, _, swaps) := order2LessFunc data b c swaps less
  let (_, b, swaps) := order2LessFunc data a b swaps less
  (b, swaps)

/-- The function `medianAdjacentLessFunc`. -/
def medianAdjacentLessFunc (data : List Str) (a swaps : Nat) (less : Str → Str → Bool) :
    Nat × Nat :=
  medianLessFunc data (a - 1) a (a + 1) swaps less

/-- The routine `choosePivotLessFunc`: a pivot in `data[a:b]` and a hint on its order. -/
def choosePivotLessFunc (data : List Str) (a b : Nat) (less : Str → Str → Bool) :
    Nat × sortedHint :=
  let l := b - a
  let swaps := 0
  let i := a + l / 4 * 1
  let j := a + l / 4 * 2
  let k := a + l / 4 * 3
  let (j, swaps) :=
    if l ≥ 8 then
      if l ≥ 50 then
        let (i, swaps) := medianAdjacentLessFunc data i swaps less
        let (j, swaps) := medianAdjacentLessFunc data j swaps less
        let (k, swaps) := medianAdjacentLessFunc data k swaps less
        medianLessFunc data i j k swaps less
      else medianLessFunc data i j k swaps less
    else (j, swaps)
  if swaps = 0 then (j, sortedHint.increasingHint)
  else if swaps = 12 then (j, sortedHint.decreasingHint)
  else (j, sortedHint.unknownHint)

/-- The loop of `reverseRangeLessFunc`, with `n` bounding the passes. -/
def reverseRangeLessFunc.loop : Nat → Nat → Nat → List Str → List Str
  | 0, _, _, data => data
  | n + 1, i, j, data =>
    if i < j then reverseRangeLessFunc.loop n (i + 1) (j - 1) (swap data i j) else data

/-- The routine `reverseRangeLessFunc`. -/
def reverseRangeLessFunc (data : List Str) (a b : Nat) : List Str :=
  reverseRangeLessFunc.loop (b - a) a (b - 1) data

/-- The routine `pdqsortLessFunc`: sorts `data[a:b]`.  The loop of the routine and its
recursive call are one recursion here, the variables of the loop being arguments; each
pass or call works on a shorter range, and `none` is returned when `fuel` of them did
not reach a `return`. -/
def pdqsortLessFunc (less : Str → Str → Bool) :
    Nat → List Str → Nat → Nat → Nat → Bool → Bool → Option (List Str)
  | 0, _, _, _, _, _, _ => none
  | fuel + 1, data, a, b, limit, wasBalanced, wasPartitioned =>
    let length := b - a
    if length ≤ 12 then some (insertionSortLessFunc data a b less)
    else if limit = 0 then heapSortLessFunc data a b less
    else
      let data := if !wasBalanced then breakPatternsLessFunc data a b else data
      let limit := if !wasBalanced then limit - 1 else limit
      let (pivot, hint) := choosePivotLessFunc data a b less
      let data :=
        if hint = sortedHint.decreasingHint then reverseRangeLessFunc data a b else data
      let pivot := if hint = sortedHint.decreasingHint then (b - 1) - (pivot - a) else pivot
      let hint :=
        if hint = sortedHint.decreasingHint then sortedHint.increasingHint else hint
      let tryPartial := wasBalanced && wasPartitioned && hint = sortedHint.increasingHint
      let tried := partialInsertionSortLessFunc data a b less
      if tryPartial && tried.2 then some tried.1
      else
        let data := if tryPartial then tried.1 else data
        if a > 0 && !less (get data (a - 1)) (get data pivot) then
          match partitionEqualLessFunc data a b pivot less with
          | none => none
          | some (data, mid) =>
            pdqsortLessFunc less fuel data mid b limit wasBalanced wasPartitioned
        else
          match partitionLessFunc data a b pivot less with
          | none => none
          | some (data, mid, alreadyPartitioned) =>
            let wasPartitioned := alreadyPartitioned
            let leftLen := mid - a
            let rightLen := b - mid
            let balanceThreshold := length / 8
            if leftLen < rightLen then
              let wasBalanced := decide (leftLen ≥ balanceThreshold)
              match pdqsortLessFunc less fuel data a mid limit true true with
              | none => none
              | some data =>
                pdqsortLessFunc less fuel data (mid + 1) b limit wasBalanced wasPartitioned
            else
              let wasBalanced := decide (rightLen ≥ balanceThreshold)
              match pdqsortLessFunc less fuel data (mid + 1) b limit true true with
              | none => none
              | some data =>
                pdqsortLessFunc less fuel data a mid limit wasBalanced wasPartitioned

/-- The function `slices.SortFunc`: `pdqsortLessFunc(x, 0, n, bits.Len(uint(n)), less)`. -/
def SortFunc (x : List Str) (less : Str → Str → Bool) : Option (List Str) :=
  let n := x.length
  pdqsortLessFunc less (n + 1) x 0 n (bitsLen n) true true

end slices

/-! ## `classSet` -/

/-- The opening and closing markers of a template action. -/
def openMarker : Str := ['{', '{']

/-- The closing marker of a template action. -/
def closeMarker : Str := ['}', '}']

/-- One pass of the body of the `for` loop of `classSet` (lines 160-166): `none` is the
`break` taken when no `{{` is found, `some c` is the new value of `class`. -/
def classSetStep (cls : Str) : Option Str :=
  match strings.Cut cls openMarker with
  | (pfx, interior, true) =>
    let suffix := (strings.Cut interior closeMarker).2.1
    some (pfx ++ [' '] ++ suffix)
  | (_, _, false) => none

/-- A prefix of `s` is no longer than `s`. -/
theorem strings.HasPrefix_length : ∀ (s p : Str), strings.HasPrefix s p = true → p.length ≤ s.length
  | _, [], _ => by simp
  | [], _ :: _, h => by simp [strings.HasPrefix] at h
  | _ :: s, _ :: p, h => by
    simp only [strings.HasPrefix, Bool.and_eq_true] at h
    have := strings.HasPrefix_length s p h.2
    simp only [List.length_cons]; omega

/-- An occurrence found by `Index` lies within the string. -/
theorem strings.Index_add_le : ∀ (s sep : Str) (i : Nat),
    strings.Index s sep = some i → i + sep.length ≤ s.length
  | [], sep, i, h => by
    by_cases hs : sep = []
    · simp [strings.Index, hs] at h; subst h; simp [hs]
    · simp [strings.Index, hs] at h
  | c :: s, sep, i, h => by
    by_cases hp : strings.HasPrefix (c :: s) sep = true
    · simp only [strings.Index, hp, if_true, Option.some.injEq] at h
      subst h
      simpa using strings.HasPrefix_length _ _ hp
    · simp only [strings.Index, hp, Bool.false_eq_true, if_false, Option.map_eq_some'] at h
      obtain ⟨j, hj, rfl⟩ := h
      have := strings.Index_add_le s sep j hj
      simp only [List.length_cons]; omega

/-- The part `Cut` returns after the separator is no longer than the string. -/
theorem strings.Cut_after_length (s sep : Str) : (strings.Cut s sep).2.1.length ≤ s.length := by
  unfold strings.Cut
  cases h : strings.Index s sep with
  | none => simp
  | some i => simp

/-- When `Cut` finds the separator, the two parts and the separator make up the string. -/
theorem strings.Cut_found_length (s sep p r : Str) (h : strings.Cut s sep = (p, r, true)) :
    p.length + sep.length + r.length = s.length := by
  unfold strings.Cut at h
  cases hi : strings.Index s sep with
  | none => simp [hi] at h
  | some i =>
    have h1 := strings.Index_add_le s sep i hi
    simp only [hi, Prod.mk.injEq, and_true] at h
    obtain ⟨rfl, rfl⟩ := h
    simp only [List.length_take, List.length_drop]
    omega

/-- Every pass of the loop of `classSet` that does not break makes `class` strictly
shorter: the two characters of `{{` give way to one space. -/
theorem classSetStep_length_lt (cls c : Str) (h : classSetStep cls = some c) :
    c.length < cls.length := by
  unfold classSetStep at h
  rcases hc : strings.Cut cls openMarker with ⟨p, r, b⟩
  rw [hc] at h
  cases b with
  | false => simp at h
  | true =>
    simp only [Option.some.injEq] at h
    subst h
    have h1 := strings.Cut_found_length cls openMarker p r hc
    have h2 := strings.Cut_after_length r closeMarker
    simp only [openMarker, List.length_cons, List.length_nil] at h1
    simp only [List.length_append, List.length_cons, List.length_nil]
    omega

/-- The `for` loop of `classSet` (lines 159-167): template actions are cut out, first
one first, until no `{{` is left. -/
def removeActions (cls : Str) : Str :=
  match h : classSetStep cls with
  | some c =>
    have : c.length < cls.length := classSetStep_length_lt cls c h
    removeActions c
  | none => cls
termination_by cls.length

/-- The function `classSet` (lines 158-172). -/
def classSet (cls : Str) : Str :=
  let items := strings.Fields (removeActions cls)
  let items := slices.SortStrings items
  let items := slices.Compact items
  strings.Join items [' ']

/-- The loop of `classSet` run for at most `fuel` passes; `none` when the passes are used
up before the loop breaks.  Used to evaluate `removeActions` on given strings. -/
def removeActionsFuel : Nat → Str → Option Str
  | 0, _ => none
  | fuel + 1, cls =>
    match classSetStep cls with
    | some c => removeActionsFuel fuel c
    | none => some cls

/-- The function `classSet` with its loop run for at most `fuel` passes. -/
def classSetFuel (fuel : Nat) (cls : Str) : Option Str :=
  (removeActionsFuel fuel cls).map fun c =>
    strings.Join (slices.Compact (slices.SortStrings (strings.Fields c))) [' ']

/-! ## `Exec` -/

/-- The type of `slices.SortFunc` at strings: the slice and the function `less` give the
rearranged slice; `none` when the model of the routine runs out of passes. -/
abbrev SortFuncType := List Str → (Str → Str → Bool) → Option (List Str)

/-- A line of the report, `fmt.Printf("%2d\t%q\n", count, class)`: the count and the
signature it shows. -/
abbrev Line := Int × Str

/-- The counting loop of `Exec` (lines 82-84): `counts[class]++` for every element of
`allClasses`.  A Go map read at a key it does not hold gives `0`, so the map is a function.
A slice is far shorter than `2^63`, so the counts do not overflow `int`. -/
def Exec.count : List Str → (Str → Int) → (Str → Int)
  | [], counts => counts
  | cls :: rest, counts => Exec.count rest (Function.update counts cls (counts cls + 1))

/-- The printing loop of `Exec` (lines 90-100), with the lines it prints. -/
def Exec.print (names threshold : Int) (counts : Str → Int) : List Str → List Line
  | [] => []
  | cls :: rest =>
    let spaces : Int := strings.Count cls ' '
    if spaces < names then Exec.print names threshold counts rest
    else
      let count := counts cls
      if count < threshold then Exec.print names threshold counts rest
      else (count, cls) :: Exec.print names threshold counts rest

/-- The ranking stage of `Exec` (lines 81-100): from the signatures of all files to the
lines of the report.  `sortFunc` is the routine `slices.SortFunc`. -/
def Exec.rank (sortFunc : SortFuncType) (names threshold : Int) (allClasses : List Str) :
    Option (List Line) :=
  let counts := Exec.count allClasses (fun _ => 0)
  let allClasses := slices.SortStrings allClasses
  let allClasses := slices.Compact allClasses
  match sortFunc allClasses (fun a b => decide (counts a < counts b)) with
  | none => none
  | some allClasses => some (Exec.print names threshold counts allClasses)

/-- What a run of `Exec` did: the files it handed to `classesInFile`, in order, the lines
it printed, and the error it returned (`none` for `nil`). -/
structure Run (ε : Type) where
  /-- The files handed to `classesInFile`, in order. -/
  scanned : List Str
  /-- The lines printed on standard output. -/
  printed : List Line
  /-- The error returned. -/
  err : Option ε

/-- The scanning loop of `Exec` (lines 74-80): the files scanned and either the error
that ended the loop or the signatures gathered. -/
def Exec.scan {ε : Type} (classesInFile : Str → Except ε (List Str)) :
    List Str → List Str → List Str → List Str × Except ε (List Str)
  | [], allClasses, scanned => (scanned, Except.ok allClasses)
  | file :: rest, allClasses, scanned =>
    match classesInFile file with
    | Except.error err => (scanned ++ [file], Except.error err)
    | Except.ok classes =>
      Exec.scan classesInFile rest (allClasses ++ classes) (scanned ++ [file])

/-- The method `Exec` (lines 68-102).  `getFiles` is the result of `app.getFiles()`,
`classesInFile` the method of that name, `names` and `threshold` the fields of `app`. -/
def Exec {ε : Type} (sortFunc : SortFuncType) (getFiles : Except ε (List Str))
    (classesInFile : Str → Except ε (List Str)) (names threshold : Int) : Option (Run ε) :=
  match getFiles with
  | Except.error err => some ⟨[], [], some err⟩
  | Except.ok files =>
    match Exec.scan classesInFile files [] [] with
    | (scanned, Except.error err) => some ⟨scanned, [], some err⟩
    | (scanned, Except.ok allClasses) =>
      match Exec.rank sortFunc names threshold allClasses with
      | none => none
      | some lines => some ⟨scanned, lines, none⟩

/-- The test a signature passes to be printed. -/
def Exec.kept (names threshold : Int) (counts : Str → Int) (cls : Str) : Bool :=
  decide (¬ ((strings.Count cls ' ' : Int) < names) ∧ ¬ (counts cls < threshold))

/-! ## `classSets` -/

/-- The type `html.NodeType`. -/
inductive NodeType where
  | ErrorNode
  | TextNode
  | DocumentNode
  | ElementNode
  | CommentNode
  | DoctypeNode
  | RawNode
  deriving DecidableEq

/-- The type `html.Attribute`. -/
structure Attribute where
  /-- The field `Namespace`. -/
  Namespace : Str
  /-- The field `Key`. -/
  Key : Str
  /-- The field `Val`. -/
  Val : Str
  deriving DecidableEq

/-- The type `html.Node`, with the fields `classSets` reads: `Type`, `Attr`, and the
children, that is `FirstChild` followed along `NextSibling`. -/
inductive Node where
  | mk (type : NodeType) (attr : List Attribute) (children : List Node) : Node

/-- The field `Type` of a node. -/
def Node.type : Node → NodeType
  | Node.mk type _ _ => type

/-- The field `Attr` of a node. -/
def Node.attr : Node → List Attribute
  | Node.mk _ attr _ => attr

/-- The children of a node, first to last. -/
def Node.children : Node → List Node
  | Node.mk _ _ children => children

/-- The key `"class"`. -/
def classKey : Str := ['c', 'l', 'a', 's', 's']

/-- The loop over `n.Attr` in `classSets` (lines 142-147): the first attribute with the
key `class` appends its signature to `sets` and ends the loop. -/
def classSets.attrs : List Attribute → List Str → List Str
  | [], sets => sets
  | a :: rest, sets =>
    if a.Key = classKey then sets ++ [classSet a.Val] else classSets.attrs rest sets

mutual
/-- The closure `f` of `classSets` (lines 140-152), the slice `sets` it appends to being
passed along. -/
def classSets.f : Node → List Str → List Str
  | Node.mk type attr children, sets =>
    let sets := if type = NodeType.ElementNode then classSets.attrs attr sets else sets
    classSets.siblings children sets
/-- The loop `for c := n.FirstChild; c != nil; c = c.NextSibling { f(c) }`. -/
def classSets.siblings : List Node → List Str → List Str
  | [], sets => sets
  | c :: rest, sets => classSets.siblings rest (classSets.f c sets)
end

/-- The method `classSets` (lines 138-156); the error it returns is always `nil`. -/
def classSets (doc : Node) : List Str := classSets.f doc []

/-- The method `classesInFile` (lines 123-136); `parse` stands for `os.Open` followed by
`html.Parse`. -/
def classesInFile {ε : Type} (parse : Str → Except ε Node) (name : Str) :
    Except ε (List Str) :=
  match parse name with
  | Except.error err => Except.error err
  | Except.ok n => Except.ok (classSets n)

/-! ## Predicates used in the statements -/

/-- Two neighbouring characters do not form the marker `{{`. -/
def NotOpen (a b : Char) : Prop := ¬(a = '{' ∧ b = '{')

/-- A token: not empty and without white space. -/
def IsToken (t : Str) : Prop := t ≠ [] ∧ ∀ c ∈ t, strings.isSpace c = false

/-- The contract of `slices.SortFunc` for a comparison of integer keys: the routine
returns, its result is a rearrangement of the slice, and no element of the result is
below, in the sense of `less`, an element before it. -/
def SortFuncSpec (sortFunc : SortFuncType) : Prop :=
  ∀ (x : List Str) (key : Str → Int),
    ∃ out, sortFunc x (fun a b => decide (key a < key b)) = some out ∧
      out.Perm x ∧ out.Pairwise (fun a b => ¬ key b < key a)

/-- Insertion of `x` after the sorted part of a slice, the sorted part being given last
element first: `x` moves left past every element it is below. -/
def insertLeft (less : Str → Str → Bool) (x : Str) : List Str → List Str
  | [] => [x]
  | y :: r => if less x y then y :: insertLeft less x r else x :: y :: r

/-- Insertion sort as a function on lists: the elements of `rest` are inserted one by one
in the sorted part `r`, given last element first. -/
def insertAll (less : Str → Str → Bool) : List Str → List Str → List Str
  | [], r => r
  | x :: rest, r => insertAll less rest (insertLeft less x r)

/-- A sorting routine that meets the contract of `slices.SortFunc`: insertion sort of the
whole slice, which is what `slices.SortFunc` runs on slices of at most 12 elements. -/
def insertionSortFunc : SortFuncType :=
  fun x less => some (slices.insertionSortLessFunc x 0 x.length less)

/-- The order of the report when ties are kept in the order of the signatures: by key,
and by signature among equal keys. -/
def KeyThenStr (key : Str → Int) (a b : Str) : Prop :=
  key a < key b ∨ (key a = key b ∧ a < b)

/-- Thirteen signatures `a` to `m`, the first one emitted twice. -/
def thirteen : List Str :=
  [['a'], ['a'], ['b'], ['c'], ['d'], ['e'], ['f'], ['g'], ['h'], ['i'], ['j'], ['k'], ['l'],
    ['m']]

mutual
/-- The nodes of the tree rooted at a node, in document order: the node, then the trees
of its children. -/
def Node.nodes : Node → List Node
  | Node.mk type attr children => Node.mk type attr children :: Node.nodesOfList children
/-- The nodes of the trees rooted at the nodes of a list, in document order. -/
def Node.nodesOfList : List Node → List Node
  | [] => []
  | c :: rest => Node.nodes c ++ Node.nodesOfList rest
end

/-- The first attribute of a list whose key is exactly `class`. -/
def firstClass (attr : List Attribute) : Option Attribute :=
  attr.find? (fun a => decide (a.Key = classKey))

/-- The signature a node is to contribute: for an element node with an attribute `class`,
`classSet` of the value of the first such attribute; nothing for other nodes. -/
def Node.signature (n : Node) : Option Str :=
  if n.type = NodeType.ElementNode then (firstClass n.attr).map (fun a => classSet a.Val)
  else none

/-- An element node that carries an attribute whose key is exactly `class`. -/
def Node.hasClass (n : Node) : Bool :=
  decide (n.type = NodeType.ElementNode) && n.attr.any (fun a => decide (a.Key = classKey))

/-- A function `classesInFile` for three files, the second of which does not parse. -/
def threeFiles (file : Str) : Except Str (List Str) :=
  if file = ['2'] then Except.error ['b', 'a', 'd']
  else if file = ['1'] then Except.ok [['a'], ['a']]
  else Except.ok [['b']]

/-- The comparison of signatures by an integer key, as `Exec` passes it to
`slices.SortFunc` with the counts as keys. -/
def lessBy (key : Str → Int) : Str → Str → Bool := fun a b => decide (key a < key b)

/-- The slice `out` is a rearrangement of `data` within the range `[a, b)`: the lengths
agree, the elements outside the range are in place, and the elements are the same. -/
def RangePerm (a b : Nat) (data out : List Str) : Prop :=
  out.length = data.length ∧ (∀ k, k < a ∨ b ≤ k → slices.get out k = slices.get data k) ∧
    out.Perm data

/-- The slice is in ascending order of key on the range `[a, b)`. -/
def SortedOn (key : Str → Int) (data : List Str) (a b : Nat) : Prop :=
  ∀ i j, a ≤ i → i < j → j < b → key (slices.get data i) ≤ key (slices.get data j)

/-- The part `data[a:b]` of a slice. -/
def slices.part (data : List Str) (a b : Nat) : List Str := (data.drop a).take (b - a)

/-- The element before the range `[a, b)`, when there is one, has a key not above the
keys of the range. -/
def LowerBound (key : Str → Int) (data : List Str) (a b : Nat) : Prop :=
  0 < a → ∀ k, a ≤ k → k < b → key (slices.get data (a - 1)) ≤ key (slices.get data k)

/-- The heap property of `data[first : first + hi]` at the nodes from `lo` on: no child
has a key above the key of its parent. -/
def HeapFrom (key : Str → Int) (data : List Str) (first lo hi : Nat) : Prop :=
  ∀ r c, lo ≤ r → c < hi → (c = 2 * r + 1 ∨ c = 2 * r + 2) →
    key (slices.get data (first + c)) ≤ key (slices.get data (first + r))

/-! ## `getFiles` -/

/-- An entry of the directory tree that `filepath.WalkDir` walks: its name and, for a
directory, its entries in the order `os.ReadDir` gives them.  An entry that is not a
directory has no entries. -/
inductive DirEntry where
  | file (name : Str) : DirEntry
  | dir (name : Str) (entries : List DirEntry) : DirEntry

/-- The method `Name` of an entry. -/
def DirEntry.Name : DirEntry → Str
  | DirEntry.file name => name
  | DirEntry.dir name _ => name

/-- The method `IsDir` of an entry. -/
def DirEntry.IsDir : DirEntry → Bool
  | DirEntry.file _ => false
  | DirEntry.dir _ _ => true

/-- The loop of `filepath.Ext`, from the last character backwards: `acc` is the part of
the name already passed. -/
def filepath.Ext.scan : Str → Str → Str
  | [], _ => []
  | c :: rest, acc =>
    if c = '/' then []
    else if c = '.' then '.' :: acc
    else filepath.Ext.scan rest (c :: acc)

/-- The function `filepath.Ext`: the suffix beginning at the final dot in the final
element of the path; empty if there is no dot. -/
def filepath.Ext (path : Str) : Str := filepath.Ext.scan path.reverse []

/-- The extensions `getFiles` keeps. -/
def isMarkup (name : Str) : Bool :=
  decide (filepath.Ext name = ['.', 'h', 't', 'm', 'l']) ||
    decide (filepath.Ext name = ['.', 'h', 't', 'm'])

mutual
/-- The routine `walkDir` of `filepath.WalkDir` with the function of `getFiles` (lines
105-119) as its callback: `files` is the slice the callback appends to.  A directory
whose name begins with `.` answers `fs.SkipDir` and is not read.  `join` is
`filepath.Join`.  Entries are read without error. -/
def getFiles.walkDir (join : Str → Str → Str) : Str → DirEntry → List Str → List Str
  | path, DirEntry.file name, files =>
    if isMarkup name then files ++ [path] else files
  | path, DirEntry.dir name entries, files =>
    if strings.HasPrefix name ['.'] then files
    else getFiles.walkEntries join path entries files
/-- The loop `for _, d1 := range dirs` of `walkDir`. -/
def getFiles.walkEntries (join : Str → Str → Str) : Str → List DirEntry → List Str → List Str
  | _, [], files => files
  | path, d1 :: rest, files =>
    getFiles.walkEntries join path rest
      (getFiles.walkDir join (join path (DirEntry.Name d1)) d1 files)
end

/-- The method `getFiles` (lines 104-121): `filepath.WalkDir(app.srcDir, ...)` on the tree
`root` found at `srcDir`. -/
def getFiles (join : Str → Str → Str) (srcDir : Str) (root : DirEntry) : List Str :=
  getFiles.walkDir join srcDir root []

mutual
/-- The entries of a tree that are not directories, in the order of the walk, each with
its path, its name, and whether it lies inside a directory whose name begins with `.`;
`hidden` tells whether the entry itself lies inside one. -/
def DirEntry.leaves (join : Str → Str → Str) : Str → Bool → DirEntry → List (Str × Str × Bool)
  | path, hidden, DirEntry.file name => [(path, name, hidden)]
  | path, hidden, DirEntry.dir name entries =>
    DirEntry.leavesOfList join path (hidden || strings.HasPrefix name ['.']) entries
/-- The entries that are not directories in the trees of a list of entries. -/
def DirEntry.leavesOfList (join : Str → Str → Str) :
    Str → Bool → List DirEntry → List (Str × Str × Bool)
  | _, _, [] => []
  | path, hidden, d1 :: rest =>
    DirEntry.leaves join (join path (DirEntry.Name d1)) hidden d1 ++
      DirEntry.leavesOfList join path hidden rest
end

/-- The value of the attribute `class` an element node carries, the first one if there are
several; nothing for other nodes. -/
def Node.classValue (n : Node) : Option Str :=
  if n.type = NodeType.ElementNode then (firstClass n.attr).map (fun a => a.Val) else none

/-- The values of the attributes `class` of the element nodes of a tree, in document
order. -/
def Node.classValues (doc : Node) : List Str := (Node.nodes doc).filterMap Node.classValue

/-- The counts of the example of the specification: `a` 5 times, `b b` 5 times, `c`
twice, and no other signature. -/
def exampleCounts (t : Str) : Int :=
  if t = ['a'] then 5 else if t = ['b', ' ', 'b'] then 5 else if t = ['c'] then 2 else 0

/-- The first document of the end-to-end example: one element with `class="foo bar"`. -/
def exampleDoc1 : Node :=
  Node.mk NodeType.DocumentNode []
    [Node.mk NodeType.ElementNode []
      [Node.mk NodeType.ElementNode [⟨[], classKey, "foo bar".toList⟩] []]]

/-- The second document of the end-to-end example: an element with `class="bar foo"` and,
inside it, after a text node, an element with `class="foo bar baz"`. -/
def exampleDoc2 : Node :=
  Node.mk NodeType.DocumentNode []
    [Node.mk NodeType.ElementNode [⟨[], classKey, "bar foo".toList⟩]
      [Node.mk NodeType.TextNode [] [],
        Node.mk NodeType.ElementNode
          [⟨[], ['i', 'd'], ['x']⟩, ⟨[], classKey, "foo bar baz".toList⟩] []]]

/-- The parser of the end-to-end example: the files `1` and `2` hold the two documents,
no other file can be opened. -/
def exampleParse (name : Str) : Except Str Node :=
  if name = ['1'] then Except.ok exampleDoc1
  else if name = ['2'] then Except.ok exampleDoc2
  else Except.error "no such file".toList


/-- The function `filepath.Join` on two clean relative elements: a separator between
them. -/
def exampleJoin (dir name : Str) : Str := dir ++ '/' :: name

/-- A directory tree `site` for the example of `getFiles`: two pages, a text file, a
directory `.git` with a page in it, and a directory `sub` with a page and a directory
`.cache` that holds a page inside a further directory. -/
def exampleTree : DirEntry :=
  DirEntry.dir "site".toList
    [DirEntry.dir ".git".toList [DirEntry.file "x.html".toList],
      DirEntry.file "a.htm".toList,
      DirEntry.file "b.txt".toList,
      DirEntry.file "index.html".toList,
      DirEntry.dir "sub".toList
        [DirEntry.dir ".cache".toList
            [DirEntry.dir "d".toList [DirEntry.file "y.html".toList]],
          DirEntry.file "c.html".toList,
          DirEntry.file "html".toList]]

/-! # Lemmas -/

/-! ## Facts about sorting and compacting -/

theorem slices.insertSorted_eq (a : Str) (l : List Str) :
    slices.insertSorted a l = l.orderedInsert (· ≤ ·) a := by
  induction l with
  | nil => rfl
  | cons b l ih => simp only [slices.insertSorted, List.orderedInsert, ih]

theorem slices.SortStrings_eq (l : List Str) :
    slices.SortStrings l = l.insertionSort (· ≤ ·) := by
  induction l with
  | nil => rfl
  | cons a l ih => simp only [slices.SortStrings, List.insertionSort, ih, slices.insertSorted_eq]

theorem slices.SortStrings_sorted (l : List Str) : (slices.SortStrings l).Sorted (· ≤ ·) := by
  rw [slices.SortStrings_eq]; exact List.sorted_insertionSort _ l

theorem slices.SortStrings_perm (l : List Str) : (slices.SortStrings l).Perm l := by
  rw [slices.SortStrings_eq]; exact List.perm_insertionSort _ l

theorem slices.mem_SortStrings (l : List Str) (t : Str) : t ∈ slices.SortStrings l ↔ t ∈ l :=
  (slices.SortStrings_perm l).mem_iff

theorem slices.SortStrings_of_sorted (l : List Str) (h : l.Sorted (· ≤ ·)) :
    slices.SortStrings l = l := by
  rw [slices.SortStrings_eq]; exact h.insertionSort_eq

theorem slices.mem_Compact : ∀ (l : List Str) (t : Str), t ∈ slices.Compact l ↔ t ∈ l
  | [], t => by simp [slices.Compact]
  | [a], t => by simp [slices.Compact]
  | a :: b :: l, t => by
    have ih := slices.mem_Compact (b :: l) t
    by_cases hab : a = b
    · simp only [slices.Compact, hab, if_true, ih, List.mem_cons]; tauto
    · simp only [slices.Compact, hab, if_false, List.mem_cons, ih]

theorem slices.Compact_sorted : ∀ (l : List Str), l.Sorted (· ≤ ·) →
    (slices.Compact l).Sorted (· < ·)
  | [], _ => by simp [slices.Compact]
  | [a], _ => by simp [slices.Compact]
  | a :: b :: l, h => by
    have ih := slices.Compact_sorted (b :: l) h.of_cons
    by_cases hab : a = b
    · simpa only [slices.Compact, hab, if_true] using ih
    · simp only [slices.Compact, hab, if_false]
      refine List.sorted_cons.2 ⟨fun c hc => ?_, ih⟩
      rw [slices.mem_Compact] at hc
      have hle : a ≤ b := List.rel_of_sorted_cons h b (List.mem_cons_self _ _)
      have hlt : a < b := lt_of_le_of_ne hle hab
      rcases List.mem_cons.1 hc with rfl | hc
      · exact hlt
      · exact lt_of_lt_of_le hlt (List.rel_of_sorted_cons h.of_cons c hc)

theorem slices.Compact_of_sorted : ∀ (l : List Str), l.Sorted (· < ·) → slices.Compact l = l
  | [], _ => rfl
  | [a], _ => rfl
  | a :: b :: l, h => by
    have hab : a ≠ b := ne_of_lt (List.rel_of_sorted_cons h b (List.mem_cons_self _ _))
    simp only [slices.Compact, hab, if_false, slices.Compact_of_sorted (b :: l) h.of_cons]

/-- The token list `classSet` joins is strictly increasing. -/
theorem sortCompact_sorted (l : List Str) :
    (slices.Compact (slices.SortStrings l)).Sorted (· < ·) :=
  slices.Compact_sorted _ (slices.SortStrings_sorted l)

/-- Sorting and compacting keeps exactly the members of the list. -/
theorem mem_sortCompact (l : List Str) (t : Str) :
    t ∈ slices.Compact (slices.SortStrings l) ↔ t ∈ l := by
  rw [slices.mem_Compact, slices.mem_SortStrings]

/-- A strictly increasing list is left as it is by sorting and compacting. -/
theorem sortCompact_of_sorted (l : List Str) (h : l.Sorted (· < ·)) :
    slices.Compact (slices.SortStrings l) = l := by
  rw [slices.SortStrings_of_sorted l h.le_of_lt, slices.Compact_of_sorted l h]

/-- Lists with the same members have the same sorted and compacted form. -/
theorem sortCompact_congr (l₁ l₂ : List Str) (h : ∀ t, t ∈ l₁ ↔ t ∈ l₂) :
    slices.Compact (slices.SortStrings l₁) = slices.Compact (slices.SortStrings l₂) := by
  have s₁ := sortCompact_sorted l₁
  have s₂ := sortCompact_sorted l₂
  refine List.eq_of_perm_of_sorted ?_ s₁ s₂
  refine (List.perm_ext_iff_of_nodup s₁.nodup s₂.nodup).2 fun t => ?_
  rw [mem_sortCompact, mem_sortCompact, h]

/-! ## Facts about the marker search and the loop -/

theorem strings.Index_open_none_iff : ∀ (s : Str),
    strings.Index s openMarker = none ↔ s.Chain' NotOpen
  | [] => by simp [strings.Index, openMarker]
  | [c] => by
    simp [strings.Index, strings.HasPrefix, openMarker]
  | c :: d :: s => by
    have ih := strings.Index_open_none_iff (d :: s)
    rw [List.chain'_cons, ← ih]
    by_cases h : c = '{' ∧ d = '{'
    · simp [strings.Index, strings.HasPrefix, openMarker, h.1, h.2, NotOpen]
    · have hp : strings.HasPrefix (c :: d :: s) openMarker = false := by
        simp only [strings.HasPrefix, openMarker, Bool.and_true]
        simpa using h
      have hi : strings.Index (c :: d :: s) openMarker =
          (strings.Index (d :: s) openMarker).map (· + 1) := by
        rw [strings.Index]; simp [hp]
      rw [hi]
      simp [NotOpen, h]

theorem classSetStep_eq_none_iff (cls : Str) :
    classSetStep cls = none ↔ strings.Index cls openMarker = none := by
  unfold classSetStep strings.Cut
  cases strings.Index cls openMarker <;> simp

theorem removeActions_eq (cls : Str) :
    removeActions cls = match classSetStep cls with
      | some c => removeActions c
      | none => cls := by
  rw [removeActions]
  split <;> simp_all

/-- When the loop of `classSet` ends, no `{{` is left. -/
theorem removeActions_noOpen (cls : Str) :
    strings.Index (removeActions cls) openMarker = none := by
  rw [removeActions_eq]
  cases hs : classSetStep cls with
  | none => exact (classSetStep_eq_none_iff cls).1 hs
  | some c => exact removeActions_noOpen c
termination_by cls.length
decreasing_by exact classSetStep_length_lt cls c hs

/-- A string without `{{` goes through the loop of `classSet` unchanged. -/
theorem removeActions_of_noOpen (cls : Str) (h : strings.Index cls openMarker = none) :
    removeActions cls = cls := by
  rw [removeActions_eq, (classSetStep_eq_none_iff cls).2 h]

/-- A run of the loop that ends within the given number of passes gives the result of
the loop. -/
theorem removeActions_of_fuel : ∀ (fuel : Nat) (cls r : Str),
    removeActionsFuel fuel cls = some r → removeActions cls = r
  | 0, _, _, h => by simp [removeActionsFuel] at h
  | fuel + 1, cls, r, h => by
    rw [removeActions_eq]
    rw [removeActionsFuel] at h
    cases hs : classSetStep cls with
    | none => simpa [hs] using h
    | some c =>
      rw [hs] at h
      exact removeActions_of_fuel fuel c r h

/-- As many passes as `class` has characters, and one more, are enough for the loop. -/
theorem removeActionsFuel_enough : ∀ (fuel : Nat) (cls : Str), cls.length < fuel →
    removeActionsFuel fuel cls = some (removeActions cls)
  | 0, _, h => by omega
  | fuel + 1, cls, h => by
    rw [removeActions_eq, removeActionsFuel]
    cases hs : classSetStep cls with
    | none => rfl
    | some c =>
      have := classSetStep_length_lt cls c hs
      exact removeActionsFuel_enough fuel c (by omega)

/-! ## Facts about `Fields` and `Join` -/

theorem strings.fieldsFrom_piece : ∀ (s cur t : Str),
    t ∈ strings.fieldsFrom s cur → t <:+: cur ++ s
  | [], cur, t, h => by
    by_cases hc : cur = []
    · simp [strings.fieldsFrom, hc] at h
    · simp only [strings.fieldsFrom, hc, if_false, List.mem_singleton] at h
      subst h; simp
  | c :: s, cur, t, h => by
    by_cases hsp : strings.isSpace c = true
    · by_cases hc : cur = []
      · simp only [strings.fieldsFrom, hsp, hc, if_true] at h
        have := strings.fieldsFrom_piece s [] t h
        rw [hc]
        exact this.trans (List.suffix_cons c s).isInfix
      · simp only [strings.fieldsFrom, hsp, hc, if_true, if_false, List.mem_cons] at h
        rcases h with rfl | h
        · exact (List.prefix_append _ _).isInfix
        · have := strings.fieldsFrom_piece s [] t h
          exact this.trans ((List.suffix_cons c s).trans (List.suffix_append cur _)).isInfix
    · simp only [strings.fieldsFrom, hsp, Bool.false_eq_true, if_false] at h
      have := strings.fieldsFrom_piece s (cur ++ [c]) t h
      simpa using this

theorem strings.fieldsFrom_isToken : ∀ (s cur t : Str),
    (∀ c ∈ cur, strings.isSpace c = false) → t ∈ strings.fieldsFrom s cur → IsToken t
  | [], cur, t, hcur, h => by
    by_cases hc : cur = []
    · simp [strings.fieldsFrom, hc] at h
    · simp only [strings.fieldsFrom, hc, if_false, List.mem_singleton] at h
      subst h; exact ⟨hc, hcur⟩
  | c :: s, cur, t, hcur, h => by
    by_cases hsp : strings.isSpace c = true
    · by_cases hc : cur = []
      · simp only [strings.fieldsFrom, hsp, hc, if_true] at h
        exact strings.fieldsFrom_isToken s [] t (by simp) h
      · simp only [strings.fieldsFrom, hsp, hc, if_true, if_false, List.mem_cons] at h
        rcases h with rfl | h
        · exact ⟨hc, hcur⟩
        · exact strings.fieldsFrom_isToken s [] t (by simp) h
    · simp only [strings.fieldsFrom, hsp, Bool.false_eq_true, if_false] at h
      refine strings.fieldsFrom_isToken s (cur ++ [c]) t ?_ h
      intro d hd
      rcases List.mem_append.1 hd with hd | hd
      · exact hcur d hd
      · simp only [List.mem_singleton] at hd
        subst hd; simpa using hsp

/-- Every field is a piece of the string. -/
theorem strings.Fields_piece (s t : Str) (h : t ∈ strings.Fields s) : t <:+: s := by
  simpa using strings.fieldsFrom_piece s [] t h

/-- Every field is a token. -/
theorem strings.Fields_isToken (s t : Str) (h : t ∈ strings.Fields s) : IsToken t :=
  strings.fieldsFrom_isToken s [] t (by simp) h

theorem strings.fieldsFrom_append : ∀ (t s cur : Str), (∀ c ∈ t, strings.isSpace c = false) →
    strings.fieldsFrom (t ++ s) cur = strings.fieldsFrom s (cur ++ t)
  | [], s, cur, _ => by simp
  | c :: t, s, cur, h => by
    have hc : strings.isSpace c = false := h c (List.mem_cons_self _ _)
    have ih := strings.fieldsFrom_append t s (cur ++ [c])
      (fun d hd => h d (List.mem_cons_of_mem _ hd))
    show strings.fieldsFrom (c :: (t ++ s)) cur = _
    rw [strings.fieldsFrom]
    simp only [hc, Bool.false_eq_true, if_false, ih, List.append_assoc, List.singleton_append]

/-- The fields of the join of tokens by one space are the tokens. -/
theorem strings.Fields_Join : ∀ (toks : List Str), (∀ t ∈ toks, IsToken t) →
    strings.Fields (strings.Join toks [' ']) = toks
  | [], _ => by simp [strings.Join, strings.Fields, strings.fieldsFrom]
  | [a], h => by
    have ha := h a (List.mem_singleton_self a)
    have := strings.fieldsFrom_append a [] [] ha.2
    simp only [List.append_nil, List.nil_append] at this
    simp [strings.Join, strings.Fields, this, strings.fieldsFrom, ha.1]
  | a :: b :: rest, h => by
    have ha := h a (List.mem_cons_self _ _)
    have ih := strings.Fields_Join (b :: rest) (fun t ht => h t (List.mem_cons_of_mem _ ht))
    have := strings.fieldsFrom_append a ([' '] ++ strings.Join (b :: rest) [' ']) [] ha.2
    simp only [List.nil_append] at this
    have hsp : strings.isSpace ' ' = true := by decide
    unfold strings.Fields at ih ⊢
    rw [strings.Join, List.append_assoc, this]
    show strings.fieldsFrom (' ' :: strings.Join (b :: rest) [' ']) a = _
    rw [strings.fieldsFrom]
    simp only [hsp, if_true, ha.1, if_false, ih]

/-- Joining by one space strings without `{{` gives a string without `{{`. -/
theorem strings.Join_chain : ∀ (toks : List Str), (∀ t ∈ toks, t.Chain' NotOpen) →
    (strings.Join toks [' ']).Chain' NotOpen
  | [], _ => by simp [strings.Join]
  | [a], h => by simpa [strings.Join] using h a (List.mem_singleton_self a)
  | a :: b :: rest, h => by
    have ha := h a (List.mem_cons_self _ _)
    have ih := strings.Join_chain (b :: rest) (fun t ht => h t (List.mem_cons_of_mem _ ht))
    simp only [strings.Join, List.append_assoc, List.singleton_append]
    refine List.chain'_append.2 ⟨ha, ?_, ?_⟩
    · refine List.chain'_cons'.2 ⟨fun y _ hy => ?_, ih⟩
      exact absurd hy.1 (by decide)
    · intro x _ y hy hxy
      simp only [List.head?_cons, Option.mem_def, Option.some.injEq] at hy
      subst hy
      exact absurd hxy.2 (by decide)

/-- A value computed by `classSetFuel` is the value of `classSet`. -/
theorem classSet_of_fuel (fuel : Nat) (cls r : Str) (h : classSetFuel fuel cls = some r) :
    classSet cls = r := by
  unfold classSetFuel at h
  cases hf : removeActionsFuel fuel cls with
  | none => simp [hf] at h
  | some c =>
    rw [hf] at h
    simp only [Option.map_some', Option.some.injEq] at h
    rw [← h, classSet, removeActions_of_fuel fuel cls c hf]

/-- With more passes than `class` has characters, `classSetFuel` gives the value of
`classSet`. -/
theorem classSetFuel_enough (fuel : Nat) (cls : Str) (h : cls.length < fuel) :
    classSetFuel fuel cls = some (classSet cls) := by
  rw [classSetFuel, removeActionsFuel_enough fuel cls h]
  rfl

/-! ## Facts about insertion sort and `slices.SortFunc` -/

theorem slices.get_append_length (pre : List Str) (x : Str) (post : List Str) :
    slices.get (pre ++ x :: post) pre.length = x := by
  unfold slices.get
  rw [List.getD_eq_getElem?_getD, List.getElem?_append_right (le_refl _)]
  simp

theorem slices.get_append_length_succ (pre : List Str) (y x : Str) (post : List Str) :
    slices.get (pre ++ y :: x :: post) (pre.length + 1) = x := by
  have := slices.get_append_length (pre ++ [y]) x post
  simpa using this

theorem slices.swap_adjacent (pre : List Str) (y x : Str) (post : List Str) :
    slices.swap (pre ++ y :: x :: post) (pre.length + 1) pre.length = pre ++ x :: y :: post := by
  unfold slices.swap
  rw [slices.get_append_length, slices.get_append_length_succ]
  simp [List.set_append]

theorem insertLeft_perm (less : Str → Str → Bool) (x : Str) :
    ∀ r : List Str, (insertLeft less x r).Perm (x :: r)
  | [] => List.Perm.refl _
  | y :: r => by
    by_cases hl : less x y = true
    · simp only [insertLeft, hl, if_true]
      exact ((insertLeft_perm less x r).cons y).trans (List.Perm.swap x y r)
    · simp only [insertLeft, hl, Bool.false_eq_true, if_false]
      exact List.Perm.refl _

theorem insertAll_perm (less : Str → Str → Bool) :
    ∀ rest r : List Str, (insertAll less rest r).Perm (rest ++ r)
  | [], r => by simp [insertAll]
  | x :: rest, r => by
    simp only [insertAll]
    refine (insertAll_perm less rest (insertLeft less x r)).trans ?_
    refine ((insertLeft_perm less x r).append_left rest).trans ?_
    simp [List.perm_middle]

theorem slices.inner_eq (less : Str → Str → Bool) (pre : List Str) :
    ∀ (x : Str) (post : List Str),
      slices.insertionSortLessFunc.inner less 0 pre.length (pre ++ x :: post)
        = (insertLeft less x pre.reverse).reverse ++ post := by
  induction pre using List.reverseRecOn with
  | nil => intro x post; simp [slices.insertionSortLessFunc.inner, insertLeft]
  | append_singleton pre y ih =>
    intro x post
    have hlen : (pre ++ [y]).length = pre.length + 1 := by simp
    have hdata : pre ++ [y] ++ x :: post = pre ++ y :: x :: post := by simp
    rw [hlen, hdata, slices.insertionSortLessFunc.inner, slices.get_append_length_succ,
      slices.get_append_length]
    by_cases hl : less x y = true
    · simp only [hl, Nat.succ_pos, gt_iff_lt, decide_True, Bool.and_self, if_true,
        slices.swap_adjacent, ih, List.reverse_append, List.reverse_cons, List.reverse_nil,
        List.nil_append, List.singleton_append, insertLeft, List.append_assoc]
    · simp only [hl, Bool.and_false, Bool.false_eq_true, if_false, List.reverse_append,
        List.reverse_cons, List.reverse_nil, List.nil_append, List.singleton_append, insertLeft,
        List.reverse_reverse, List.append_assoc, List.cons_append]

theorem slices.outer_eq (less : Str → Str → Bool) :
    ∀ (rest pre : List Str),
      slices.insertionSortLessFunc.outer less 0 rest.length pre.length (pre ++ rest)
        = (insertAll less rest pre.reverse).reverse
  | [], pre => by simp [slices.insertionSortLessFunc.outer, insertAll]
  | x :: rest, pre => by
    have ih := slices.outer_eq less rest ((insertLeft less x pre.reverse).reverse)
    have hlen : ((insertLeft less x pre.reverse).reverse).length = pre.length + 1 := by
      rw [List.length_reverse, (insertLeft_perm less x pre.reverse).length_eq]
      simp
    rw [hlen] at ih
    simp only [List.length_cons, slices.insertionSortLessFunc.outer, slices.inner_eq, ih,
      List.reverse_reverse, insertAll]

theorem slices.insertionSortLessFunc_eq (less : Str → Str → Bool) (x : List Str) :
    slices.insertionSortLessFunc x 0 x.length less = (insertAll less x []).reverse := by
  cases x with
  | nil => rfl
  | cons a rest =>
    have := slices.outer_eq less rest [a]
    simpa [slices.insertionSortLessFunc, insertAll, insertLeft] using this

/-- The step of insertion sort keeps the sorted part in a given order `T`, when `less`
agrees with `T` at the element inserted. -/
theorem insertLeft_pairwise (less : Str → Str → Bool) (T : Str → Str → Prop) (x : Str) :
    ∀ r : List Str, r.Pairwise (fun a b => T b a) →
      (∀ y ∈ r, less x y = true → T x y) →
      (∀ y ∈ r, less x y = false → T y x) →
      (∀ y ∈ r, ∀ z ∈ r, less x y = false → T z y → T z x) →
      (insertLeft less x r).Pairwise (fun a b => T b a)
  | [], _, _, _, _ => by simp [insertLeft]
  | y :: r, hr, h1, h2, h3 => by
    rw [List.pairwise_cons] at hr
    by_cases hl : less x y = true
    · simp only [insertLeft, hl, if_true]
      refine List.pairwise_cons.2 ⟨fun w hw => ?_, ?_⟩
      · rcases List.mem_cons.1 ((insertLeft_perm less x r).mem_iff.1 hw) with rfl | hw
        · exact h1 y (List.mem_cons_self _ _) hl
        · exact hr.1 w hw
      · exact insertLeft_pairwise less T x r hr.2
          (fun y hy => h1 y (List.mem_cons_of_mem _ hy))
          (fun y hy => h2 y (List.mem_cons_of_mem _ hy))
          (fun y hy z hz => h3 y (List.mem_cons_of_mem _ hy) z (List.mem_cons_of_mem _ hz))
    · have hf : less x y = false := by simpa using hl
      simp only [insertLeft, hf, Bool.false_eq_true, if_false]
      refine List.pairwise_cons.2 ⟨fun w hw => ?_, List.pairwise_cons.2 hr⟩
      rcases List.mem_cons.1 hw with rfl | hw
      · exact h2 w (List.mem_cons_self _ _) hf
      · exact h3 y (List.mem_cons_self _ _) w (List.mem_cons_of_mem _ hw) hf (hr.1 w hw)

/-- Insertion sort by an integer key puts the keys in ascending order. -/
theorem insertAll_sorted (key : Str → Int) :
    ∀ rest r : List Str, r.Pairwise (fun a b => key b ≤ key a) →
      (insertAll (fun a b => decide (key a < key b)) rest r).Pairwise
        (fun a b => key b ≤ key a)
  | [], r, hr => by simpa [insertAll] using hr
  | x :: rest, r, hr => by
    simp only [insertAll]
    refine insertAll_sorted key rest _ ?_
    refine insertLeft_pairwise _ (fun a b => key a ≤ key b) x r hr ?_ ?_ ?_
    · intro y _ h
      exact le_of_lt (by simpa using h)
    · intro y _ h
      simpa using h
    · intro y _ z _ h hzy
      exact le_trans hzy (by simpa using h)

/-- Insertion sort by an integer key is stable: run on signatures in ascending order,
it leaves signatures with equal keys in ascending order. -/
theorem insertAll_stable (key : Str → Int) :
    ∀ rest r : List Str, rest.Sorted (· < ·) → (∀ z ∈ r, ∀ w ∈ rest, z < w) →
      r.Pairwise (fun a b => KeyThenStr key b a) →
      (insertAll (fun a b => decide (key a < key b)) rest r).Pairwise
        (fun a b => KeyThenStr key b a)
  | [], r, _, _, hr => by simpa [insertAll] using hr
  | x :: rest, r, hs, hlt, hr => by
    simp only [insertAll]
    have hx : ∀ z ∈ r, z < x := fun z hz => hlt z hz x (List.mem_cons_self _ _)
    refine insertAll_stable key rest _ hs.of_cons ?_ ?_
    · intro z hz w hw
      rcases List.mem_cons.1 ((insertLeft_perm _ x r).mem_iff.1 hz) with rfl | hz
      · exact List.rel_of_sorted_cons hs w hw
      · exact hlt z hz w (List.mem_cons_of_mem _ hw)
    · refine insertLeft_pairwise _ (KeyThenStr key) x r hr ?_ ?_ ?_
      · intro y _ h
        exact Or.inl (by simpa using h)
      · intro y hy h
        have hle : key y ≤ key x := by simpa using h
        rcases lt_or_eq_of_le hle with h' | h'
        · exact Or.inl h'
        · exact Or.inr ⟨h', hx y hy⟩
      · intro y _ z hz h hzy
        have hle : key y ≤ key x := by simpa using h
        have hzle : key z ≤ key y := by
          rcases hzy with h' | h'
          · exact le_of_lt h'
          · exact le_of_eq h'.1
        rcases lt_or_eq_of_le (le_trans hzle hle) with h' | h'
        · exact Or.inl h'
        · exact Or.inr ⟨h', hx z hz⟩

/-- Insertion sort of the whole slice meets the contract of `slices.SortFunc`. -/
theorem insertionSortFunc_spec : SortFuncSpec insertionSortFunc := by
  intro x key
  refine ⟨_, rfl, ?_, ?_⟩
  · rw [slices.insertionSortLessFunc_eq]
    exact (List.reverse_perm _).trans (by simpa using insertAll_perm _ x [])
  · rw [slices.insertionSortLessFunc_eq, List.pairwise_reverse]
    exact (insertAll_sorted key x [] List.Pairwise.nil).imp (fun h => not_lt.2 h)

/-- On a slice of at most 12 elements `slices.SortFunc` is insertion sort. -/
theorem slices.SortFunc_short (x : List Str) (less : Str → Str → Bool) (h : x.length ≤ 12) :
    slices.SortFunc x less = insertionSortFunc x less := by
  simp only [slices.SortFunc, slices.pdqsortLessFunc, Nat.sub_zero, h, if_true, insertionSortFunc]

/-! ## The contract of `slices.SortFunc`

The routine of the library, as embedded above, returns on every slice, rearranges it,
and leaves it in ascending order of key. -/

/-! ## Slices as lists: elements, exchanges, rearrangements -/

theorem slices.length_swap (data : List Str) (i j : Nat) :
    (slices.swap data i j).length = data.length := by
  simp [slices.swap]

theorem slices.get_swap (data : List Str) (i j k : Nat) (hi : i < data.length)
    (hj : j < data.length) :
    slices.get (slices.swap data i j) k
      = if k = j then slices.get data i else if k = i then slices.get data j
        else slices.get data k := by
  unfold slices.swap slices.get
  simp only [List.getD_eq_getElem?_getD, List.getElem?_set]
  by_cases hkj : k = j
  · subst hkj; simp [hj]
  · have hjk : ¬ j = k := fun e => hkj e.symm
    by_cases hki : k = i
    · subst hki; simp [hjk, hkj, hi]
    · have hik : ¬ i = k := fun e => hki e.symm
      simp [hjk, hkj, hik, hki]

theorem slices.set_perm_cons : ∀ (t : List Str) (j : Nat) (x : Str), j < t.length →
    (slices.get t j :: t.set j x).Perm (x :: t)
  | [], j, x, h => by simp at h
  | y :: t, 0, x, _ => by
    simpa [slices.get] using List.Perm.swap x y t
  | y :: t, j + 1, x, h => by
    have ih := slices.set_perm_cons t j x (by simpa using h)
    have hg : slices.get (y :: t) (j + 1) = slices.get t j := by simp [slices.get]
    rw [hg, List.set_cons_succ]
    exact (List.Perm.swap y (slices.get t j) (t.set j x)).trans
      ((ih.cons y).trans (List.Perm.swap x y t))

theorem slices.swap_perm : ∀ (data : List Str) (i j : Nat), i < data.length →
    j < data.length → (slices.swap data i j).Perm data
  | [], i, j, hi, _ => by simp at hi
  | x :: t, 0, 0, _, _ => by simp [slices.swap, slices.get]
  | x :: t, 0, j + 1, _, hj => by
    have := slices.set_perm_cons t j x (by simpa using hj)
    simpa [slices.swap, slices.get] using this
  | x :: t, i + 1, 0, hi, _ => by
    have := slices.set_perm_cons t i x (by simpa using hi)
    simpa [slices.swap, slices.get] using this
  | x :: t, i + 1, j + 1, hi, hj => by
    have ih := slices.swap_perm t i j (by simpa using hi) (by simpa using hj)
    have : slices.swap (x :: t) (i + 1) (j + 1) = x :: slices.swap t i j := by
      simp [slices.swap, slices.get]
    rw [this]
    exact ih.cons x

theorem RangePerm.refl (a b : Nat) (data : List Str) : RangePerm a b data data :=
  ⟨rfl, fun _ _ => rfl, List.Perm.refl _⟩

theorem RangePerm.trans {a b : Nat} {d₁ d₂ d₃ : List Str} (h₁ : RangePerm a b d₁ d₂)
    (h₂ : RangePerm a b d₂ d₃) : RangePerm a b d₁ d₃ :=
  ⟨h₂.1.trans h₁.1, fun k hk => (h₂.2.1 k hk).trans (h₁.2.1 k hk), h₂.2.2.trans h₁.2.2⟩

theorem RangePerm.mono {a b a' b' : Nat} {d₁ d₂ : List Str} (h : RangePerm a b d₁ d₂)
    (ha : a' ≤ a) (hb : b ≤ b') : RangePerm a' b' d₁ d₂ :=
  ⟨h.1, fun k hk => h.2.1 k (by omega), h.2.2⟩

theorem RangePerm.swap {a b : Nat} (data : List Str) (i j : Nat) (hb : b ≤ data.length)
    (hai : a ≤ i) (hib : i < b) (haj : a ≤ j) (hjb : j < b) :
    RangePerm a b data (slices.swap data i j) := by
  refine ⟨slices.length_swap data i j, fun k hk => ?_, slices.swap_perm data i j (by omega)
    (by omega)⟩
  rw [slices.get_swap data i j k (by omega) (by omega)]
  have h1 : ¬ k = j := by omega
  have h2 : ¬ k = i := by omega
  simp [h1, h2]

theorem slices.get_eq_getElem (data : List Str) (k : Nat) (h : k < data.length) :
    slices.get data k = data[k] := by
  simp [slices.get, List.getD_eq_getElem?_getD, List.getElem?_eq_getElem h]

theorem slices.split3 (data : List Str) (a b : Nat) (hab : a ≤ b) :
    data = data.take a ++ (slices.part data a b ++ data.drop b) := by
  have h1 : data.drop b = (data.drop a).drop (b - a) := by
    rw [List.drop_drop]; congr 1; omega
  rw [slices.part, h1, List.take_append_drop, List.take_append_drop]

theorem slices.take_eq_of_get (d d' : List Str) (a : Nat) (hlen : d'.length = d.length)
    (h : ∀ k, k < a → slices.get d' k = slices.get d k) : d'.take a = d.take a := by
  apply List.ext_getElem
  · simp [hlen]
  · intro k h1 h2
    rw [List.length_take] at h1 h2
    rw [List.getElem_take, List.getElem_take, ← slices.get_eq_getElem,
      ← slices.get_eq_getElem]
    exact h k (by omega)

theorem slices.drop_eq_of_get (d d' : List Str) (b : Nat) (hlen : d'.length = d.length)
    (h : ∀ k, b ≤ k → slices.get d' k = slices.get d k) : d'.drop b = d.drop b := by
  apply List.ext_getElem
  · simp [hlen]
  · intro k h1 h2
    rw [List.length_drop] at h1 h2
    rw [List.getElem_drop, List.getElem_drop, ← slices.get_eq_getElem,
      ← slices.get_eq_getElem]
    exact h (b + k) (by omega)

theorem slices.mem_part (data : List Str) (a b : Nat) (hb : b ≤ data.length) (x : Str) :
    x ∈ slices.part data a b ↔ ∃ k, a ≤ k ∧ k < b ∧ slices.get data k = x := by
  unfold slices.part
  rw [List.mem_iff_getElem]
  constructor
  · rintro ⟨n, hn, rfl⟩
    rw [List.length_take, List.length_drop] at hn
    refine ⟨a + n, by omega, by omega, ?_⟩
    rw [slices.get_eq_getElem data (a + n) (by omega), List.getElem_take, List.getElem_drop]
  · rintro ⟨k, hak, hkb, rfl⟩
    refine ⟨k - a, ?_, ?_⟩
    · rw [List.length_take, List.length_drop]; omega
    · rw [slices.get_eq_getElem data k (by omega), List.getElem_take, List.getElem_drop]
      congr 1; omega

/-- A rearrangement within a range keeps the elements of the range. -/
theorem RangePerm.part_perm {a b : Nat} {d d' : List Str} (h : RangePerm a b d d')
    (hab : a ≤ b) : (slices.part d' a b).Perm (slices.part d a b) := by
  have h1 := slices.take_eq_of_get d d' a h.1 (fun k hk => h.2.1 k (Or.inl hk))
  have h2 := slices.drop_eq_of_get d d' b h.1 (fun k hk => h.2.1 k (Or.inr hk))
  have hp := h.2.2
  rw [slices.split3 d a b hab, slices.split3 d' a b hab, h1, h2] at hp
  exact (List.perm_append_right_iff _).1 ((List.perm_append_left_iff _).1 hp)

/-- A rearrangement within a range keeps what holds of every element of the range. -/
theorem RangePerm.forall_range {a b : Nat} {d d' : List Str} (h : RangePerm a b d d')
    (hb : b ≤ d.length) (P : Str → Prop)
    (hP : ∀ k, a ≤ k → k < b → P (slices.get d k)) :
    ∀ k, a ≤ k → k < b → P (slices.get d' k) := by
  intro k hak hkb
  have hmem : slices.get d' k ∈ slices.part d' a b :=
    (slices.mem_part d' a b (by rw [h.1]; exact hb) _).2 ⟨k, hak, hkb, rfl⟩
  have hmem' := (h.part_perm (by omega)).mem_iff.1 hmem
  obtain ⟨m, ham, hmb, hm⟩ := (slices.mem_part d a b hb _).1 hmem'
  rw [← hm]
  exact hP m ham hmb

/-! ## `insertionSortLessFunc` on a range -/

@[simp] theorem lessBy_eq_true (key : Str → Int) (x y : Str) :
    lessBy key x y = true ↔ key x < key y := by
  simp [lessBy]

@[simp] theorem lessBy_eq_false (key : Str → Int) (x y : Str) :
    lessBy key x y = false ↔ key y ≤ key x := by
  simp [lessBy]

theorem slices.inner_spec (key : Str → Int) (a hi : Nat) :
    ∀ (m : Nat) (d : List Str), a ≤ m → m < hi → hi ≤ d.length →
      (∀ i j, a ≤ i → i < j → j < hi → i ≠ m → j ≠ m →
        key (slices.get d i) ≤ key (slices.get d j)) →
      (∀ j, m < j → j < hi → key (slices.get d m) < key (slices.get d j)) →
      RangePerm a hi d (slices.insertionSortLessFunc.inner (lessBy key) a m d) ∧
        SortedOn key (slices.insertionSortLessFunc.inner (lessBy key) a m d) a hi
  | 0, d, _, _, _, h1, h2 => by
    refine ⟨RangePerm.refl _ _ _, ?_⟩
    intro i j hai hij hj
    by_cases hi0 : i = 0
    · subst hi0; exact le_of_lt (h2 j hij hj)
    · exact h1 i j hai hij hj hi0 (by omega)
  | m + 1, d, ham, hmhi, hlen, h1, h2 => by
    rw [slices.insertionSortLessFunc.inner]
    by_cases hc : (decide (m + 1 > a) && lessBy key (slices.get d (m + 1)) (slices.get d m)) = true
    · rw [if_pos hc]
      simp only [gt_iff_lt, Bool.and_eq_true, decide_eq_true_eq, lessBy_eq_true] at hc
      have hg := fun k => slices.get_swap d (m + 1) m k (by omega) (by omega)
      have ih := slices.inner_spec key a hi m (slices.swap d (m + 1) m) (by omega) (by omega)
        (by rw [slices.length_swap]; exact hlen) ?_ ?_
      · exact ⟨(RangePerm.swap d (m + 1) m hlen (by omega) (by omega) (by omega)
          (by omega)).trans ih.1, ih.2⟩
      · intro i j hai hij hj hi' hj'
        rw [hg i, hg j]
        simp only [hi', hj', if_false]
        by_cases hi1 : i = m + 1
        · subst hi1
          have hjm : ¬ j = m + 1 := by omega
          simp only [if_true, hjm, if_false]
          exact h1 m j (by omega) (by omega) hj (by omega) (by omega)
        · by_cases hj1 : j = m + 1
          · subst hj1
            simp only [hi1, if_true, if_false]
            exact h1 i m hai (by omega) (by omega) hi1 (by omega)
          · simp only [hi1, hj1, if_false]
            exact h1 i j hai hij hj hi1 hj1
      · intro j hmj hj
        rw [hg m, hg j]
        have hjm : ¬ j = m := by omega
        simp only [if_true, hjm, if_false]
        by_cases hj1 : j = m + 1
        · subst hj1
          simpa using hc.2
        · simp only [hj1, if_false]
          exact h2 j (by omega) hj
    · rw [if_neg hc]
      refine ⟨RangePerm.refl _ _ _, ?_⟩
      simp only [gt_iff_lt, Bool.and_eq_true, decide_eq_true_eq, lessBy_eq_true, not_and,
        not_lt] at hc
      intro i j hai hij hj
      by_cases hi1 : i = m + 1
      · subst hi1; exact le_of_lt (h2 j hij hj)
      · by_cases hj1 : j = m + 1
        · subst hj1
          have hle := hc (by omega)
          by_cases him : i = m
          · subst him; exact hle
          · exact le_trans (h1 i m hai (by omega) (by omega) hi1 (by omega)) hle
        · exact h1 i j hai hij hj hi1 hj1

theorem slices.outer_spec (key : Str → Int) (a : Nat) :
    ∀ (n i : Nat) (d : List Str), a < i → i + n ≤ d.length → SortedOn key d a i →
      RangePerm a (i + n) d (slices.insertionSortLessFunc.outer (lessBy key) a n i d) ∧
        SortedOn key (slices.insertionSortLessFunc.outer (lessBy key) a n i d) a (i + n)
  | 0, i, d, _, _, hs => ⟨RangePerm.refl _ _ _, hs⟩
  | n + 1, i, d, hai, hlen, hs => by
    rw [slices.insertionSortLessFunc.outer]
    have h1 := slices.inner_spec key a (i + 1) i d (by omega) (by omega) (by omega)
      (fun i' j' h1 h2 h3 _ h5 => hs i' j' h1 h2 (by omega)) (fun j h1 h2 => by omega)
    have h2 := slices.outer_spec key a n (i + 1) _ (by omega)
      (by rw [h1.1.1]; omega) h1.2
    have e : i + 1 + n = i + (n + 1) := by omega
    rw [e] at h2
    exact ⟨(h1.1.mono (le_refl _) (by omega)).trans h2.1, h2.2⟩

/-- Insertion sort puts the range `[a, b)` in ascending order of key and rearranges
nothing else. -/
theorem slices.insertionSortLessFunc_spec (key : Str → Int) (d : List Str) (a b : Nat)
    (hb : b ≤ d.length) :
    RangePerm a b d (slices.insertionSortLessFunc d a b (lessBy key)) ∧
      SortedOn key (slices.insertionSortLessFunc d a b (lessBy key)) a b := by
  unfold slices.insertionSortLessFunc
  by_cases hab : a < b
  · have h := slices.outer_spec key a (b - (a + 1)) (a + 1) d (by omega) (by omega)
      (fun i j h1 h2 h3 => by omega)
    have e : a + 1 + (b - (a + 1)) = b := by omega
    rw [e] at h
    exact h
  · have e : b - (a + 1) = 0 := by omega
    rw [e]
    exact ⟨RangePerm.refl _ _ _, fun i j h1 h2 h3 => by omega⟩

/-! ## `partitionLessFunc` -/

theorem slices.get_swap_left (d : List Str) (i j : Nat) (hi : i < d.length)
    (hj : j < d.length) : slices.get (slices.swap d i j) i = slices.get d j := by
  rw [slices.get_swap d i j i hi hj]
  by_cases h : i = j
  · subst h; simp
  · simp [h]

theorem slices.get_swap_right (d : List Str) (i j : Nat) (hi : i < d.length)
    (hj : j < d.length) : slices.get (slices.swap d i j) j = slices.get d i := by
  rw [slices.get_swap d i j j hi hj]; simp

theorem slices.get_swap_other (d : List Str) (i j k : Nat) (hi : i < d.length)
    (hj : j < d.length) (hki : k ≠ i) (hkj : k ≠ j) :
    slices.get (slices.swap d i j) k = slices.get d k := by
  rw [slices.get_swap d i j k hi hj]; simp [hki, hkj]

theorem slices.partition_up_spec (key : Str → Int) (d : List Str) (a j : Nat) :
    ∀ (n i : Nat), i ≤ j + 1 → j + 1 - i ≤ n →
      i ≤ slices.partitionLessFunc.up (lessBy key) d a j n i ∧
      slices.partitionLessFunc.up (lessBy key) d a j n i ≤ j + 1 ∧
      (∀ k, i ≤ k → k < slices.partitionLessFunc.up (lessBy key) d a j n i →
        key (slices.get d k) < key (slices.get d a)) ∧
      (slices.partitionLessFunc.up (lessBy key) d a j n i ≤ j →
        key (slices.get d a) ≤
          key (slices.get d (slices.partitionLessFunc.up (lessBy key) d a j n i)))
  | 0, i, h1, h2 => by
    simp only [slices.partitionLessFunc.up]
    exact ⟨le_refl _, h1, fun k _ _ => by omega, fun _ => by omega⟩
  | n + 1, i, h1, h2 => by
    rw [slices.partitionLessFunc.up]
    by_cases hc : (decide (i ≤ j) && lessBy key (slices.get d i) (slices.get d a)) = true
    · rw [if_pos hc]
      simp only [Bool.and_eq_true, decide_eq_true_eq, lessBy_eq_true] at hc
      obtain ⟨ih1, ih2, ih3, ih4⟩ := slices.partition_up_spec key d a j n (i + 1) (by omega)
        (by omega)
      refine ⟨by omega, ih2, fun k hk1 hk2 => ?_, ih4⟩
      by_cases hki : k = i
      · subst hki; exact hc.2
      · exact ih3 k (by omega) hk2
    · rw [if_neg hc]
      simp only [Bool.and_eq_true, decide_eq_true_eq, lessBy_eq_true, not_and, not_lt] at hc
      exact ⟨le_refl _, h1, fun k _ _ => by omega, fun h => hc h⟩

theorem slices.partition_down_spec (key : Str → Int) (d : List Str) (a i : Nat) (hi : 1 ≤ i) :
    ∀ (n j : Nat), i ≤ j + 1 → j + 1 - i ≤ n →
      slices.partitionLessFunc.down (lessBy key) d a i n j ≤ j ∧
      i ≤ slices.partitionLessFunc.down (lessBy key) d a i n j + 1 ∧
      (∀ k, slices.partitionLessFunc.down (lessBy key) d a i n j < k → k ≤ j →
        key (slices.get d a) ≤ key (slices.get d k)) ∧
      (i ≤ slices.partitionLessFunc.down (lessBy key) d a i n j →
        key (slices.get d (slices.partitionLessFunc.down (lessBy key) d a i n j)) <
          key (slices.get d a))
  | 0, j, h1, h2 => by
    simp only [slices.partitionLessFunc.down]
    exact ⟨le_refl _, h1, fun k _ _ => by omega, fun _ => by omega⟩
  | n + 1, j, h1, h2 => by
    rw [slices.partitionLessFunc.down]
    by_cases hc : (decide (i ≤ j) && !lessBy key (slices.get d j) (slices.get d a)) = true
    · rw [if_pos hc]
      simp only [Bool.and_eq_true, decide_eq_true_eq, Bool.not_eq_true', lessBy_eq_false] at hc
      obtain ⟨ih1, ih2, ih3, ih4⟩ := slices.partition_down_spec key d a i hi n (j - 1)
        (by omega) (by omega)
      refine ⟨by omega, ih2, fun k hk1 hk2 => ?_, ih4⟩
      by_cases hkj : k = j
      · subst hkj; exact hc.2
      · exact ih3 k hk1 (by omega)
    · rw [if_neg hc]
      simp only [Bool.and_eq_true, decide_eq_true_eq, Bool.not_eq_true', lessBy_eq_false,
        not_and, not_le] at hc
      exact ⟨le_refl _, h1, fun k _ _ => by omega, fun h => hc h⟩

theorem slices.partition_loop_spec (key : Str → Int) (a b : Nat) :
    ∀ (fuel : Nat) (d : List Str) (i j : Nat), a < i → i ≤ j + 1 → j < b → b ≤ d.length →
      j + 2 - i ≤ fuel →
      (∀ k, a < k → k < i → key (slices.get d k) < key (slices.get d a)) →
      (∀ k, j < k → k < b → key (slices.get d a) ≤ key (slices.get d k)) →
      ∃ out j', slices.partitionLessFunc.loop (lessBy key) a fuel d i j = some (out, j') ∧
        RangePerm (a + 1) b d out ∧ a ≤ j' ∧ j' < b ∧
        (∀ k, a < k → k ≤ j' → key (slices.get out k) < key (slices.get d a)) ∧
        (∀ k, j' < k → k < b → key (slices.get d a) ≤ key (slices.get out k))
  | 0, d, i, j, _, h2, _, _, h5, _, _ => by omega
  | fuel + 1, d, i, j, h1, h2, h3, h4, h5, h6, h7 => by
    rw [slices.partitionLessFunc.loop]
    obtain ⟨u1, u2, u3, u4⟩ := slices.partition_up_spec key d a j (j + 1 - i) i h2 (le_refl _)
    generalize slices.partitionLessFunc.up (lessBy key) d a j (j + 1 - i) i = i' at u1 u2 u3 u4 ⊢
    obtain ⟨d1, d2, d3, d4⟩ := slices.partition_down_spec key d a i' (by omega) (j + 1 - i') j
      (by omega) (le_refl _)
    generalize slices.partitionLessFunc.down (lessBy key) d a i' (j + 1 - i') j = j'
      at d1 d2 d3 d4 ⊢
    by_cases hc : i' > j'
    · rw [if_pos hc]
      refine ⟨d, j', rfl, RangePerm.refl _ _ _, by omega, by omega, fun k hk1 hk2 => ?_,
        fun k hk1 hk2 => ?_⟩
      · by_cases hki : k < i
        · exact h6 k hk1 hki
        · exact u3 k (by omega) (by omega)
      · by_cases hkj : k ≤ j
        · exact d3 k hk1 hkj
        · exact h7 k (by omega) hk2
    · rw [if_neg hc]
      have hlt1 := u4 (by omega)
      have hlt2 := d4 (by omega)
      have hne : i' ≠ j' := by
        intro e; subst e; omega
      have hi'len : i' < d.length := by omega
      have hj'len : j' < d.length := by omega
      have hga : slices.get (slices.swap d i' j') a = slices.get d a :=
        slices.get_swap_other d i' j' a hi'len hj'len (by omega) (by omega)
      obtain ⟨out, m, hout, hperm, hm1, hm2, hm3, hm4⟩ :=
        slices.partition_loop_spec key a b fuel (slices.swap d i' j') (i' + 1) (j' - 1)
          (by omega) (by omega) (by omega) (by rw [slices.length_swap]; exact h4) (by omega)
          (fun k hk1 hk2 => by
            rw [hga]
            by_cases hki : k = i'
            · subst hki
              rw [slices.get_swap_left d k j' hi'len hj'len]; exact hlt2
            · rw [slices.get_swap_other d i' j' k hi'len hj'len hki (by omega)]
              by_cases hki2 : k < i
              · exact h6 k hk1 hki2
              · exact u3 k (by omega) (by omega))
          (fun k hk1 hk2 => by
            rw [hga]
            by_cases hkj : k = j'
            · subst hkj
              rw [slices.get_swap_right d i' k hi'len hj'len]; exact hlt1
            · rw [slices.get_swap_other d i' j' k hi'len hj'len (by omega) hkj]
              by_cases hkj2 : k ≤ j
              · exact d3 k (by omega) hkj2
              · exact h7 k (by omega) hk2)
      rw [hga] at hm3 hm4
      exact ⟨out, m, hout, (RangePerm.swap d i' j' h4 (by omega) (by omega) (by omega)
        (by omega)).trans hperm, hm1, hm2, hm3, hm4⟩

/-- One partition: the routine returns, rearranges the range `[a, b)` only, and leaves
the pivot at `mid` with the smaller keys before it and no smaller key after it. -/
theorem slices.partitionLessFunc_spec (key : Str → Int) (d : List Str) (a b pivot : Nat)
    (ha : a ≤ pivot) (hp : pivot < b) (hb : b ≤ d.length) :
    ∃ out mid flag, slices.partitionLessFunc d a b pivot (lessBy key) = some (out, mid, flag) ∧
      RangePerm a b d out ∧ a ≤ mid ∧ mid < b ∧
      (∀ k, a ≤ k → k < mid → key (slices.get out k) < key (slices.get out mid)) ∧
      (∀ k, mid < k → k < b → key (slices.get out mid) ≤ key (slices.get out k)) := by
  have hperm1 : RangePerm a b d (slices.swap d a pivot) :=
    RangePerm.swap d a pivot hb (le_refl _) (by omega) ha hp
  have hlen1 : (slices.swap d a pivot).length = d.length := slices.length_swap _ _ _
  simp only [slices.partitionLessFunc]
  generalize slices.swap d a pivot = d1 at hperm1 hlen1 ⊢
  have hb1 : b ≤ d1.length := by omega
  obtain ⟨u1, u2, u3, u4⟩ := slices.partition_up_spec key d1 a (b - 1) (b - 1 + 1 - (a + 1))
    (a + 1) (by omega) (le_refl _)
  generalize slices.partitionLessFunc.up (lessBy key) d1 a (b - 1) (b - 1 + 1 - (a + 1)) (a + 1)
    = i at u1 u2 u3 u4 ⊢
  obtain ⟨e1, e2, e3, e4⟩ := slices.partition_down_spec key d1 a i (by omega)
    (b - 1 + 1 - i) (b - 1) (by omega) (by omega)
  generalize slices.partitionLessFunc.down (lessBy key) d1 a i (b - 1 + 1 - i) (b - 1)
    = j at e1 e2 e3 e4 ⊢
  -- the last exchange, of the pivot at `a` with the element at `m`
  have hfinal : ∀ (out : List Str) (m : Nat), RangePerm (a + 1) b d1 out → a ≤ m → m < b →
      (∀ k, a < k → k ≤ m → key (slices.get out k) < key (slices.get d1 a)) →
      (∀ k, m < k → k < b → key (slices.get d1 a) ≤ key (slices.get out k)) →
      RangePerm a b d (slices.swap out m a) ∧
      (∀ k, a ≤ k → k < m →
        key (slices.get (slices.swap out m a) k) < key (slices.get (slices.swap out m a) m)) ∧
      (∀ k, m < k → k < b →
        key (slices.get (slices.swap out m a) m) ≤ key (slices.get (slices.swap out m a) k)) := by
    intro out m hperm hm1 hm2 hlo hhi
    have hlen : out.length = d1.length := hperm.1
    have hm : m < out.length := by omega
    have hal : a < out.length := by omega
    have hoa : slices.get out a = slices.get d1 a := hperm.2.1 a (Or.inl (by omega))
    have hmid : slices.get (slices.swap out m a) m = slices.get d1 a := by
      rw [slices.get_swap_left out m a hm hal, hoa]
    refine ⟨hperm1.trans ((hperm.mono (by omega) (le_refl _)).trans
      (RangePerm.swap out m a (by omega) hm1 hm2 (le_refl _) (by omega))), ?_, ?_⟩
    · intro k hk1 hk2
      rw [hmid]
      by_cases hka : k = a
      · subst hka
        rw [slices.get_swap_right out m k hm hal]
        exact hlo m (by omega) (le_refl _)
      · rw [slices.get_swap_other out m a k hm hal (by omega) hka]
        exact hlo k (by omega) (by omega)
    · intro k hk1 hk2
      rw [hmid, slices.get_swap_other out m a k hm hal (by omega) (by omega)]
      exact hhi k hk1 hk2
  by_cases hc : i > j
  · rw [if_pos hc]
    obtain ⟨h1, h2, h3⟩ := hfinal d1 j (RangePerm.refl _ _ _) (by omega) (by omega)
      (fun k hk1 hk2 => u3 k (by omega) (by omega))
      (fun k hk1 hk2 => e3 k hk1 (by omega))
    exact ⟨_, j, true, rfl, h1, by omega, by omega, h2, h3⟩
  · rw [if_neg hc]
    have hlt1 := u4 (by omega)
    have hlt2 := e4 (by omega)
    have hne : i ≠ j := by
      intro e; subst e; omega
    have hil : i < d1.length := by omega
    have hjl : j < d1.length := by omega
    have hga : slices.get (slices.swap d1 i j) a = slices.get d1 a :=
      slices.get_swap_other d1 i j a hil hjl (by omega) (by omega)
    obtain ⟨out, m, hout, hperm, hm1, hm2, hm3, hm4⟩ :=
      slices.partition_loop_spec key a b (b - a + 1) (slices.swap d1 i j) (i + 1) (j - 1)
        (by omega) (by omega) (by omega) (by rw [slices.length_swap]; exact hb1) (by omega)
        (fun k hk1 hk2 => by
          rw [hga]
          by_cases hki : k = i
          · subst hki
            rw [slices.get_swap_left d1 k j hil hjl]; exact hlt2
          · rw [slices.get_swap_other d1 i j k hil hjl hki (by omega)]
            exact u3 k (by omega) (by omega))
        (fun k hk1 hk2 => by
          rw [hga]
          by_cases hkj : k = j
          · subst hkj
            rw [slices.get_swap_right d1 i k hil hjl]; exact hlt1
          · rw [slices.get_swap_other d1 i j k hil hjl (by omega) hkj]
            exact e3 k (by omega) (by omega))
    rw [hga] at hm3 hm4
    rw [hout]
    obtain ⟨h1, h2, h3⟩ := hfinal out m ((RangePerm.swap d1 i j hb1 (by omega) (by omega)
      (by omega) (by omega)).trans hperm) hm1 hm2 hm3 hm4
    exact ⟨_, m, false, rfl, h1, hm1, hm2, h2, h3⟩

/-! ## `partitionEqualLessFunc` -/

theorem slices.partitionEqual_up_spec (key : Str → Int) (d : List Str) (a j : Nat) :
    ∀ (n i : Nat), i ≤ j + 1 → j + 1 - i ≤ n →
      i ≤ slices.partitionEqualLessFunc.up (lessBy key) d a j n i ∧
      slices.partitionEqualLessFunc.up (lessBy key) d a j n i ≤ j + 1 ∧
      (∀ k, i ≤ k → k < slices.partitionEqualLessFunc.up (lessBy key) d a j n i →
        key (slices.get d k) ≤ key (slices.get d a)) ∧
      (slices.partitionEqualLessFunc.up (lessBy key) d a j n i ≤ j →
        key (slices.get d a) <
          key (slices.get d (slices.partitionEqualLessFunc.up (lessBy key) d a j n i)))
  | 0, i, h1, h2 => by
    simp only [slices.partitionEqualLessFunc.up]
    exact ⟨le_refl _, h1, fun k _ _ => by omega, fun _ => by omega⟩
  | n + 1, i, h1, h2 => by
    rw [slices.partitionEqualLessFunc.up]
    by_cases hc : (decide (i ≤ j) && !lessBy key (slices.get d a) (slices.get d i)) = true
    · rw [if_pos hc]
      simp only [Bool.and_eq_true, decide_eq_true_eq, Bool.not_eq_true', lessBy_eq_false] at hc
      obtain ⟨ih1, ih2, ih3, ih4⟩ := slices.partitionEqual_up_spec key d a j n (i + 1)
        (by omega) (by omega)
      refine ⟨by omega, ih2, fun k hk1 hk2 => ?_, ih4⟩
      by_cases hki : k = i
      · subst hki; exact hc.2
      · exact ih3 k (by omega) hk2
    · rw [if_neg hc]
      simp only [Bool.and_eq_true, decide_eq_true_eq, Bool.not_eq_true', lessBy_eq_false,
        not_and, not_le] at hc
      exact ⟨le_refl _, h1, fun k _ _ => by omega, fun h => hc h⟩

theorem slices.partitionEqual_down_spec (key : Str → Int) (d : List Str) (a i : Nat)
    (hi : 1 ≤ i) :
    ∀ (n j : Nat), i ≤ j + 1 → j + 1 - i ≤ n →
      slices.partitionEqualLessFunc.down (lessBy key) d a i n j ≤ j ∧
      i ≤ slices.partitionEqualLessFunc.down (lessBy key) d a i n j + 1 ∧
      (∀ k, slices.partitionEqualLessFunc.down (lessBy key) d a i n j < k → k ≤ j →
        key (slices.get d a) < key (slices.get d k)) ∧
      (i ≤ slices.partitionEqualLessFunc.down (lessBy key) d a i n j →
        key (slices.get d (slices.partitionEqualLessFunc.down (lessBy key) d a i n j)) ≤
          key (slices.get d a))
  | 0, j, h1, h2 => by
    simp only [slices.partitionEqualLessFunc.down]
    exact ⟨le_refl _, h1, fun k _ _ => by omega, fun _ => by omega⟩
  | n + 1, j, h1, h2 => by
    rw [slices.partitionEqualLessFunc.down]
    by_cases hc : (decide (i ≤ j) && lessBy key (slices.get d a) (slices.get d j)) = true
    · rw [if_pos hc]
      simp only [Bool.and_eq_true, decide_eq_true_eq, lessBy_eq_true] at hc
      obtain ⟨ih1, ih2, ih3, ih4⟩ := slices.partitionEqual_down_spec key d a i hi n (j - 1)
        (by omega) (by omega)
      refine ⟨by omega, ih2, fun k hk1 hk2 => ?_, ih4⟩
      by_cases hkj : k = j
      · subst hkj; exact hc.2
      · exact ih3 k hk1 (by omega)
    · rw [if_neg hc]
      simp only [Bool.and_eq_true, decide_eq_true_eq, lessBy_eq_true, not_and, not_lt] at hc
      exact ⟨le_refl _, h1, fun k _ _ => by omega, fun h => hc h⟩

theorem slices.partitionEqual_loop_spec (key : Str → Int) (a b : Nat) :
    ∀ (fuel : Nat) (d : List Str) (i j : Nat), a < i → i ≤ j + 1 → j < b → b ≤ d.length →
      j + 2 - i ≤ fuel →
      (∀ k, a < k → k < i → key (slices.get d k) ≤ key (slices.get d a)) →
      (∀ k, j < k → k < b → key (slices.get d a) < key (slices.get d k)) →
      ∃ out i', slices.partitionEqualLessFunc.loop (lessBy key) a fuel d i j = some (out, i') ∧
        RangePerm (a + 1) b d out ∧ a < i' ∧ i' ≤ b ∧
        (∀ k, a < k → k < i' → key (slices.get out k) ≤ key (slices.get d a)) ∧
        (∀ k, i' ≤ k → k < b → key (slices.get d a) < key (slices.get out k))
  | 0, d, i, j, _, h2, _, _, h5, _, _ => by omega
  | fuel + 1, d, i, j, h1, h2, h3, h4, h5, h6, h7 => by
    rw [slices.partitionEqualLessFunc.loop]
    obtain ⟨u1, u2, u3, u4⟩ := slices.partitionEqual_up_spec key d a j (j + 1 - i) i h2
      (le_refl _)
    generalize slices.partitionEqualLessFunc.up (lessBy key) d a j (j + 1 - i) i = i'
      at u1 u2 u3 u4 ⊢
    obtain ⟨d1, d2, d3, d4⟩ := slices.partitionEqual_down_spec key d a i' (by omega)
      (j + 1 - i') j (by omega) (le_refl _)
    generalize slices.partitionEqualLessFunc.down (lessBy key) d a i' (j + 1 - i') j = j'
      at d1 d2 d3 d4 ⊢
    by_cases hc : i' > j'
    · rw [if_pos hc]
      refine ⟨d, i', rfl, RangePerm.refl _ _ _, by omega, by omega, fun k hk1 hk2 => ?_,
        fun k hk1 hk2 => ?_⟩
      · by_cases hki : k < i
        · exact h6 k hk1 hki
        · exact u3 k (by omega) (by omega)
      · by_cases hkj : k ≤ j
        · exact d3 k (by omega) hkj
        · exact h7 k (by omega) hk2
    · rw [if_neg hc]
      have hlt1 := u4 (by omega)
      have hlt2 := d4 (by omega)
      have hne : i' ≠ j' := by
        intro e; subst e; omega
      have hi'len : i' < d.length := by omega
      have hj'len : j' < d.length := by omega
      have hga : slices.get (slices.swap d i' j') a = slices.get d a :=
        slices.get_swap_other d i' j' a hi'len hj'len (by omega) (by omega)
      obtain ⟨out, m, hout, hperm, hm1, hm2, hm3, hm4⟩ :=
        slices.partitionEqual_loop_spec key a b fuel (slices.swap d i' j') (i' + 1) (j' - 1)
          (by omega) (by omega) (by omega) (by rw [slices.length_swap]; exact h4) (by omega)
          (fun k hk1 hk2 => by
            rw [hga]
            by_cases hki : k = i'
            · subst hki
              rw [slices.get_swap_left d k j' hi'len hj'len]; exact hlt2
            · rw [slices.get_swap_other d i' j' k hi'len hj'len hki (by omega)]
              by_cases hki2 : k < i
              · exact h6 k hk1 hki2
              · exact u3 k (by omega) (by omega))
          (fun k hk1 hk2 => by
            rw [hga]
            by_cases hkj : k = j'
            · subst hkj
              rw [slices.get_swap_right d i' k hi'len hj'len]; exact hlt1
            · rw [slices.get_swap_other d i' j' k hi'len hj'len (by omega) hkj]
              by_cases hkj2 : k ≤ j
              · exact d3 k (by omega) hkj2
              · exact h7 k (by omega) hk2)
      rw [hga] at hm3 hm4
      exact ⟨out, m, hout, (RangePerm.swap d i' j' h4 (by omega) (by omega) (by omega)
        (by omega)).trans hperm, hm1, hm2, hm3, hm4⟩

/-- The partition around equal elements: the routine returns, rearranges the range
`[a, b)` only, and leaves before `mid` the keys not above the key of the pivot and
from `mid` on the keys above it. -/
theorem slices.partitionEqualLessFunc_spec (key : Str → Int) (d : List Str) (a b pivot : Nat)
    (ha : a ≤ pivot) (hp : pivot < b) (hb : b ≤ d.length) :
    ∃ out mid, slices.partitionEqualLessFunc d a b pivot (lessBy key) = some (out, mid) ∧
      RangePerm a b d out ∧ a < mid ∧ mid ≤ b ∧
      (∀ k, a ≤ k → k < mid → key (slices.get out k) ≤ key (slices.get d pivot)) ∧
      (∀ k, mid ≤ k → k < b → key (slices.get d pivot) < key (slices.get out k)) := by
  have hperm1 : RangePerm a b d (slices.swap d a pivot) :=
    RangePerm.swap d a pivot hb (le_refl _) (by omega) ha hp
  have hlen1 : (slices.swap d a pivot).length = d.length := slices.length_swap _ _ _
  have hpa : slices.get (slices.swap d a pivot) a = slices.get d pivot :=
    slices.get_swap_left d a pivot (by omega) (by omega)
  simp only [slices.partitionEqualLessFunc]
  generalize slices.swap d a pivot = d1 at hperm1 hlen1 hpa ⊢
  obtain ⟨out, m, hout, hperm, hm1, hm2, hm3, hm4⟩ :=
    slices.partitionEqual_loop_spec key a b (b - a + 1) d1 (a + 1) (b - 1)
      (by omega) (by omega) (by omega) (by omega) (by omega)
      (fun k hk1 hk2 => by omega) (fun k hk1 hk2 => by omega)
  rw [hpa] at hm3 hm4
  refine ⟨out, m, hout, hperm1.trans (hperm.mono (by omega) (le_refl _)), hm1, hm2, ?_, hm4⟩
  intro k hk1 hk2
  by_cases hka : k = a
  · subst hka
    rw [hperm.2.1 k (Or.inl (by omega)), hpa]
  · exact hm3 k (by omega) hk2

/-! ## `reverseRangeLessFunc`, `breakPatternsLessFunc`, `choosePivotLessFunc` -/

theorem slices.reverseRange_loop_spec (a b : Nat) :
    ∀ (n i j : Nat) (d : List Str), a ≤ i → j < b → b ≤ d.length →
      RangePerm a b d (slices.reverseRangeLessFunc.loop n i j d)
  | 0, _, _, d, _, _, _ => RangePerm.refl _ _ _
  | n + 1, i, j, d, h1, h2, h3 => by
    rw [slices.reverseRangeLessFunc.loop]
    by_cases hc : i < j
    · rw [if_pos hc]
      exact (RangePerm.swap d i j h3 h1 (by omega) (by omega) h2).trans
        (slices.reverseRange_loop_spec a b n (i + 1) (j - 1) _ (by omega) (by omega)
          (by rw [slices.length_swap]; exact h3))
    · rw [if_neg hc]; exact RangePerm.refl _ _ _

theorem slices.reverseRangeLessFunc_spec (d : List Str) (a b : Nat) (hab : a < b)
    (hb : b ≤ d.length) : RangePerm a b d (slices.reverseRangeLessFunc d a b) :=
  slices.reverseRange_loop_spec a b (b - a) a (b - 1) d (le_refl _) (by omega) hb

theorem slices.nextPowerOfTwo_le (length : Nat) (h : length ≠ 0) :
    slices.nextPowerOfTwo length ≤ 2 * length := by
  unfold slices.nextPowerOfTwo slices.bitsLen
  rw [if_neg h]
  refine le_trans (Nat.mod_le _ _) ?_
  rw [Nat.shiftLeft_eq, one_mul, pow_succ]
  have := Nat.log2_self_le h
  omega

theorem slices.breakPatterns_loop_spec (a b length modulus idx : Nat) (hlen : a + length = b)
    (hpos : 0 < length) (hmod : modulus ≤ 2 * length)
    (hidx : ∀ t, t < 3 → a ≤ idx - 1 + t ∧ idx - 1 + t < b) :
    ∀ (n i random : Nat) (d : List Str), i + n ≤ 3 → b ≤ d.length →
      RangePerm a b d (slices.breakPatternsLessFunc.loop a length modulus idx n i random d)
  | 0, _, _, d, _, _ => RangePerm.refl _ _ _
  | n + 1, i, random, d, h1, h2 => by
    rw [slices.breakPatternsLessFunc.loop]
    have hand : slices.xorshiftNext random &&& (modulus - 1) ≤ modulus - 1 := Nat.and_le_right
    have hother : (if slices.xorshiftNext random &&& (modulus - 1) ≥ length
        then (slices.xorshiftNext random &&& (modulus - 1)) - length
        else slices.xorshiftNext random &&& (modulus - 1)) < length := by
      split <;> omega
    have hi := hidx i (by omega)
    exact (RangePerm.swap d _ _ h2 hi.1 hi.2 (by omega) (by omega)).trans
      (slices.breakPatterns_loop_spec a b length modulus idx hlen hpos hmod hidx n (i + 1) _ _
        (by omega) (by rw [slices.length_swap]; exact h2))

theorem slices.breakPatternsLessFunc_spec (d : List Str) (a b : Nat) (hab : a ≤ b)
    (hb : b ≤ d.length) : RangePerm a b d (slices.breakPatternsLessFunc d a b) := by
  unfold slices.breakPatternsLessFunc
  by_cases hc : b - a ≥ 8
  · simp only [hc, if_true]
    refine slices.breakPatterns_loop_spec a b (b - a) _ _ (by omega) (by omega)
      (slices.nextPowerOfTwo_le _ (by omega)) ?_ 3 0 _ d (by omega) hb
    intro t ht
    have h1 : (b - a) / 4 * 2 ≤ (b - a) / 2 := by omega
    have h2 : 2 ≤ (b - a) / 4 := by omega
    omega
  · simp only [hc, if_false]
    exact RangePerm.refl _ _ _

theorem slices.order2_mem (d : List Str) (a b swaps : Nat) (less : Str → Str → Bool) :
    ((slices.order2LessFunc d a b swaps less).1 = a ∧
      (slices.order2LessFunc d a b swaps less).2.1 = b) ∨
    ((slices.order2LessFunc d a b swaps less).1 = b ∧
      (slices.order2LessFunc d a b swaps less).2.1 = a) := by
  unfold slices.order2LessFunc
  split <;> simp

theorem slices.median_mem (d : List Str) (a b c swaps : Nat) (less : Str → Str → Bool) :
    (slices.medianLessFunc d a b c swaps less).1 = a ∨
    (slices.medianLessFunc d a b c swaps less).1 = b ∨
    (slices.medianLessFunc d a b c swaps less).1 = c := by
  unfold slices.medianLessFunc
  rcases h1 : slices.order2LessFunc d a b swaps less with ⟨a1, b1, s1⟩
  have m1 := slices.order2_mem d a b swaps less
  rw [h1] at m1
  simp only at m1 ⊢
  rcases h2 : slices.order2LessFunc d b1 c s1 less with ⟨b2, c2, s2⟩
  have m2 := slices.order2_mem d b1 c s1 less
  rw [h2] at m2
  simp only at m2 ⊢
  rcases h3 : slices.order2LessFunc d a1 b2 s2 less with ⟨a3, b3, s3⟩
  have m3 := slices.order2_mem d a1 b2 s2 less
  rw [h3] at m3
  simp only at m3 ⊢
  omega

/-- The pivot chosen lies in the range. -/
theorem slices.choosePivotLessFunc_range (d : List Str) (a b : Nat) (less : Str → Str → Bool)
    (h : 8 ≤ b - a) :
    a ≤ (slices.choosePivotLessFunc d a b less).1 ∧
      (slices.choosePivotLessFunc d a b less).1 < b := by
  unfold slices.choosePivotLessFunc
  simp only [ge_iff_le, h, if_true]
  have key : ∀ p : Nat × Nat, a ≤ p.1 ∧ p.1 < b →
      a ≤ (if p.2 = 0 then (p.1, slices.sortedHint.increasingHint)
        else if p.2 = 12 then (p.1, slices.sortedHint.decreasingHint)
        else (p.1, slices.sortedHint.unknownHint)).1 ∧
      (if p.2 = 0 then (p.1, slices.sortedHint.increasingHint)
        else if p.2 = 12 then (p.1, slices.sortedHint.decreasingHint)
        else (p.1, slices.sortedHint.unknownHint)).1 < b := by
    intro p hp
    split
    · exact hp
    · split <;> exact hp
  by_cases h50 : 50 ≤ b - a
  · simp only [h50, if_true]
    have mi := slices.median_mem d (a + (b - a) / 4 * 1 - 1) (a + (b - a) / 4 * 1)
      (a + (b - a) / 4 * 1 + 1) 0 less
    rcases hi : slices.medianAdjacentLessFunc d (a + (b - a) / 4 * 1) 0 less with ⟨i, s1⟩
    rw [slices.medianAdjacentLessFunc] at hi
    rw [hi] at mi
    have mj := slices.median_mem d (a + (b - a) / 4 * 2 - 1) (a + (b - a) / 4 * 2)
      (a + (b - a) / 4 * 2 + 1) s1 less
    rcases hj : slices.medianAdjacentLessFunc d (a + (b - a) / 4 * 2) s1 less with ⟨j, s2⟩
    rw [slices.medianAdjacentLessFunc] at hj
    rw [hj] at mj
    have mk := slices.median_mem d (a + (b - a) / 4 * 3 - 1) (a + (b - a) / 4 * 3)
      (a + (b - a) / 4 * 3 + 1) s2 less
    rcases hk : slices.medianAdjacentLessFunc d (a + (b - a) / 4 * 3) s2 less with ⟨k, s3⟩
    rw [slices.medianAdjacentLessFunc] at hk
    rw [hk] at mk
    simp only at mi mj mk ⊢
    have mm := slices.median_mem d i j k s3 less
    apply key
    have hq : 12 ≤ (b - a) / 4 := by omega
    have hq2 : (b - a) / 4 * 4 ≤ b - a := Nat.div_mul_le_self _ _
    omega
  · simp only [h50, if_false]
    have mm := slices.median_mem d (a + (b - a) / 4 * 1) (a + (b - a) / 4 * 2)
      (a + (b - a) / 4 * 3) 0 less
    apply key
    have hq : 2 ≤ (b - a) / 4 := by omega
    have hq2 : (b - a) / 4 * 4 ≤ b - a := Nat.div_mul_le_self _ _
    omega

/-! ## `partialInsertionSortLessFunc` -/

theorem RangePerm.lowerBound {key : Str → Int} {a b : Nat} {d d' : List Str}
    (h : RangePerm a b d d') (hb : b ≤ d.length) (hl : LowerBound key d a b) :
    LowerBound key d' a b := by
  intro ha k hk1 hk2
  rw [h.2.1 (a - 1) (Or.inl (by omega))]
  exact h.forall_range hb (fun x => key (slices.get d (a - 1)) ≤ key x) (hl ha) k hk1 hk2

theorem LowerBound.shrink {key : Str → Int} {a b b' : Nat} {d : List Str}
    (hl : LowerBound key d a b) (hb : b' ≤ b) : LowerBound key d a b' :=
  fun ha k hk1 hk2 => hl ha k hk1 (by omega)

theorem SortedOn.extend {key : Str → Int} {d : List Str} {a i i' : Nat}
    (hs : SortedOn key d a i)
    (hadj : ∀ k, i ≤ k → k < i' → key (slices.get d (k - 1)) ≤ key (slices.get d k)) :
    SortedOn key d a i' := by
  intro i0 j0 h1 h2 h3
  induction j0 with
  | zero => omega
  | succ j ih =>
    by_cases hj : j + 1 < i
    · exact hs i0 (j + 1) h1 h2 hj
    · have hstep := hadj (j + 1) (by omega) h3
      simp only [Nat.add_sub_cancel] at hstep
      by_cases hij : i0 = j
      · subst hij; exact hstep
      · exact le_trans (ih (by omega) (by omega)) hstep

theorem SortedOn.of_outside {key : Str → Int} {d d' : List Str} {a i lo hi : Nat}
    (hs : SortedOn key d a i) (h : RangePerm lo hi d d') (hlo : i ≤ lo) :
    SortedOn key d' a i := by
  intro i0 j0 h1 h2 h3
  rw [h.2.1 i0 (Or.inl (by omega)), h.2.1 j0 (Or.inl (by omega))]
  exact hs i0 j0 h1 h2 h3

theorem slices.partial_scan_spec (key : Str → Int) (d : List Str) (b : Nat) :
    ∀ (n i : Nat), i ≤ b → b - i ≤ n →
      i ≤ slices.partialInsertionSortLessFunc.scan (lessBy key) d b n i ∧
      slices.partialInsertionSortLessFunc.scan (lessBy key) d b n i ≤ b ∧
      (∀ k, i ≤ k → k < slices.partialInsertionSortLessFunc.scan (lessBy key) d b n i →
        key (slices.get d (k - 1)) ≤ key (slices.get d k)) ∧
      (slices.partialInsertionSortLessFunc.scan (lessBy key) d b n i < b →
        key (slices.get d (slices.partialInsertionSortLessFunc.scan (lessBy key) d b n i)) <
          key (slices.get d
            (slices.partialInsertionSortLessFunc.scan (lessBy key) d b n i - 1)))
  | 0, i, h1, h2 => by
    simp only [slices.partialInsertionSortLessFunc.scan]
    exact ⟨le_refl _, h1, fun k _ _ => by omega, fun _ => by omega⟩
  | n + 1, i, h1, h2 => by
    rw [slices.partialInsertionSortLessFunc.scan]
    by_cases hc : (decide (i < b) && !lessBy key (slices.get d i) (slices.get d (i - 1))) = true
    · rw [if_pos hc]
      simp only [Bool.and_eq_true, decide_eq_true_eq, Bool.not_eq_true', lessBy_eq_false] at hc
      obtain ⟨ih1, ih2, ih3, ih4⟩ := slices.partial_scan_spec key d b n (i + 1) (by omega)
        (by omega)
      refine ⟨by omega, ih2, fun k hk1 hk2 => ?_, ih4⟩
      by_cases hki : k = i
      · subst hki; exact hc.2
      · exact ih3 k (by omega) hk2
    · rw [if_neg hc]
      simp only [Bool.and_eq_true, decide_eq_true_eq, Bool.not_eq_true', lessBy_eq_false,
        not_and, not_le] at hc
      exact ⟨le_refl _, h1, fun k _ _ => by omega, fun h => hc h⟩

theorem slices.partial_left_spec (key : Str → Int) (a hi : Nat) :
    ∀ (m : Nat) (d : List Str), a ≤ m → m < hi → hi ≤ d.length → LowerBound key d a hi →
      (∀ i j, a ≤ i → i < j → j < hi → i ≠ m → j ≠ m →
        key (slices.get d i) ≤ key (slices.get d j)) →
      (∀ j, m < j → j < hi → key (slices.get d m) < key (slices.get d j)) →
      RangePerm a hi d (slices.partialInsertionSortLessFunc.left (lessBy key) m d) ∧
        SortedOn key (slices.partialInsertionSortLessFunc.left (lessBy key) m d) a hi
  | 0, d, _, _, _, _, h1, h2 => by
    refine ⟨RangePerm.refl _ _ _, ?_⟩
    intro i j hai hij hj
    by_cases hi0 : i = 0
    · subst hi0; exact le_of_lt (h2 j hij hj)
    · exact h1 i j hai hij hj hi0 (by omega)
  | m + 1, d, ham, hmhi, hlen, hlb, h1, h2 => by
    rw [slices.partialInsertionSortLessFunc.left]
    by_cases hc : (!lessBy key (slices.get d (m + 1)) (slices.get d m)) = true
    · rw [if_pos hc]
      refine ⟨RangePerm.refl _ _ _, ?_⟩
      simp only [Bool.not_eq_true', lessBy_eq_false] at hc
      intro i j hai hij hj
      by_cases hi1 : i = m + 1
      · subst hi1; exact le_of_lt (h2 j hij hj)
      · by_cases hj1 : j = m + 1
        · subst hj1
          by_cases him : i = m
          · subst him; exact hc
          · exact le_trans (h1 i m hai (by omega) (by omega) hi1 (by omega)) hc
        · exact h1 i j hai hij hj hi1 hj1
    · rw [if_neg hc]
      simp only [Bool.not_eq_true', lessBy_eq_false, not_le] at hc
      have ham' : a ≤ m := by
        by_contra hcon
        have hma : m + 1 = a := by omega
        have := hlb (by omega) (m + 1) (by omega) hmhi
        rw [← hma] at this
        simp only [Nat.add_sub_cancel] at this
        omega
      have hg := fun k => slices.get_swap d (m + 1) m k (by omega) (by omega)
      have hperm := RangePerm.swap d (m + 1) m hlen (a := a) (by omega) (by omega) ham'
        (by omega)
      have ih := slices.partial_left_spec key a hi m (slices.swap d (m + 1) m) ham' (by omega)
        (by rw [slices.length_swap]; exact hlen) (hperm.lowerBound hlen hlb) ?_ ?_
      · exact ⟨hperm.trans ih.1, ih.2⟩
      · intro i j hai hij hj hi' hj'
        rw [hg i, hg j]
        simp only [hi', hj', if_false]
        by_cases hi1 : i = m + 1
        · subst hi1
          have hjm : ¬ j = m + 1 := by omega
          simp only [if_true, hjm, if_false]
          exact h1 m j (by omega) (by omega) hj (by omega) (by omega)
        · by_cases hj1 : j = m + 1
          · subst hj1
            simp only [hi1, if_true, if_false]
            exact h1 i m hai (by omega) (by omega) hi1 (by omega)
          · simp only [hi1, hj1, if_false]
            exact h1 i j hai hij hj hi1 hj1
      · intro j hmj hj
        rw [hg m, hg j]
        have hjm : ¬ j = m := by omega
        simp only [if_true, hjm, if_false]
        by_cases hj1 : j = m + 1
        · subst hj1
          simpa using hc
        · simp only [hj1, if_false]
          exact h2 j (by omega) hj

theorem slices.partial_right_spec (key : Str → Int) (lo b : Nat) :
    ∀ (n j : Nat) (d : List Str), lo < j → j + n ≤ b → b ≤ d.length →
      RangePerm lo b d (slices.partialInsertionSortLessFunc.right (lessBy key) n j d)
  | 0, _, d, _, _, _ => RangePerm.refl _ _ _
  | n + 1, j, d, h1, h2, h3 => by
    rw [slices.partialInsertionSortLessFunc.right]
    split
    · exact RangePerm.refl _ _ _
    · exact (RangePerm.swap d j (j - 1) h3 (by omega) (by omega) (by omega) (by omega)).trans
        (slices.partial_right_spec key lo b n (j + 1) _ (by omega) (by omega)
          (by rw [slices.length_swap]; exact h3))

theorem slices.partial_steps_spec (key : Str → Int) (a b : Nat) :
    ∀ (n i : Nat) (d : List Str), a < i → i ≤ b → b ≤ d.length → SortedOn key d a i →
      LowerBound key d a b →
      RangePerm a b d (slices.partialInsertionSortLessFunc.steps (lessBy key) a b n i d).1 ∧
      ((slices.partialInsertionSortLessFunc.steps (lessBy key) a b n i d).2 = true →
        SortedOn key (slices.partialInsertionSortLessFunc.steps (lessBy key) a b n i d).1 a b)
  | 0, i, d, _, _, _, _, _ => by
    simp only [slices.partialInsertionSortLessFunc.steps]
    exact ⟨RangePerm.refl _ _ _, fun h => by simp at h⟩
  | n + 1, i, d, hai, hib, hlen, hs, hlb => by
    rw [slices.partialInsertionSortLessFunc.steps]
    obtain ⟨s1, s2, s3, s4⟩ := slices.partial_scan_spec key d b (b - i) i hib (le_refl _)
    generalize slices.partialInsertionSortLessFunc.scan (lessBy key) d b (b - i) i = i'
      at s1 s2 s3 s4 ⊢
    have hs' : SortedOn key d a i' := hs.extend s3
    by_cases hc1 : i' = b
    · simp only [hc1, if_true]
      exact ⟨RangePerm.refl _ _ _, fun _ => hc1 ▸ hs'⟩
    · simp only [hc1, if_false]
      by_cases hc2 : b - a < 50
      · simp only [hc2, if_true]
        exact ⟨RangePerm.refl _ _ _, fun h => by simp at h⟩
      · simp only [hc2, if_false]
        have hi'b : i' < b := by omega
        have hp1 : RangePerm a b d (slices.swap d i' (i' - 1)) :=
          RangePerm.swap d i' (i' - 1) hlen (by omega) hi'b (by omega) (by omega)
        have hl1 : (slices.swap d i' (i' - 1)).length = d.length := slices.length_swap _ _ _
        have hg := fun k => slices.get_swap d i' (i' - 1) k (by omega) (by omega)
        have hlt := s4 hi'b
        generalize slices.swap d i' (i' - 1) = d1 at hp1 hl1 hg ⊢
        have h2 : RangePerm a b d1 (if i' - a ≥ 2 then
            slices.partialInsertionSortLessFunc.left (lessBy key) (i' - 1) d1 else d1) ∧
            SortedOn key (if i' - a ≥ 2 then
              slices.partialInsertionSortLessFunc.left (lessBy key) (i' - 1) d1 else d1) a i' := by
          by_cases hc3 : i' - a ≥ 2
          · simp only [hc3, if_true]
            have := slices.partial_left_spec key a i' (i' - 1) d1 (by omega) (by omega)
              (by omega) ((hp1.lowerBound hlen hlb).shrink (by omega))
              (fun i0 j0 h1 h2 h3 h4 h5 => by
                rw [hg i0, hg j0]
                have e1 : ¬ i0 = i' - 1 := h4
                have e2 : ¬ j0 = i' - 1 := h5
                have e3 : ¬ i0 = i' := by omega
                have e4 : ¬ j0 = i' := by omega
                simp only [e1, e2, e3, e4, if_false]
                exact hs' i0 j0 h1 h2 h3)
              (fun j0 h1 h2 => by omega)
            exact ⟨this.1.mono (le_refl _) (by omega), this.2⟩
          · simp only [hc3, if_false]
            exact ⟨RangePerm.refl _ _ _, fun i0 j0 h1 h2 h3 => by omega⟩
        have hl2 : (if i' - a ≥ 2 then
            slices.partialInsertionSortLessFunc.left (lessBy key) (i' - 1) d1 else d1).length
            = d1.length := h2.1.1
        generalize (if i' - a ≥ 2 then
            slices.partialInsertionSortLessFunc.left (lessBy key) (i' - 1) d1 else d1) = d2
          at h2 hl2 ⊢
        have h3 : RangePerm i' b d2 (if b - i' ≥ 2 then
            slices.partialInsertionSortLessFunc.right (lessBy key) (b - (i' + 1)) (i' + 1) d2
            else d2) := by
          by_cases hc4 : b - i' ≥ 2
          · simp only [hc4, if_true]
            exact slices.partial_right_spec key i' b (b - (i' + 1)) (i' + 1) d2 (by omega)
              (by omega) (by omega)
          · simp only [hc4, if_false]
            exact RangePerm.refl _ _ _
        generalize (if b - i' ≥ 2 then
            slices.partialInsertionSortLessFunc.right (lessBy key) (b - (i' + 1)) (i' + 1) d2
            else d2) = d3 at h3 ⊢
        have hp3 : RangePerm a b d d3 := hp1.trans (h2.1.trans (h3.mono (by omega) (le_refl _)))
        have ih := slices.partial_steps_spec key a b n i' d3 (by omega) (by omega)
          (by rw [hp3.1]; exact hlen) (h2.2.of_outside h3 (le_refl _))
          (hp3.lowerBound hlen hlb)
        exact ⟨hp3.trans ih.1, ih.2⟩

/-- The partial insertion sort rearranges the range `[a, b)` only, and when it answers
`true` the range is in ascending order of key. -/
theorem slices.partialInsertionSortLessFunc_spec (key : Str → Int) (d : List Str) (a b : Nat)
    (hab : a < b) (hb : b ≤ d.length) (hlb : LowerBound key d a b) :
    RangePerm a b d (slices.partialInsertionSortLessFunc d a b (lessBy key)).1 ∧
    ((slices.partialInsertionSortLessFunc d a b (lessBy key)).2 = true →
      SortedOn key (slices.partialInsertionSortLessFunc d a b (lessBy key)).1 a b) :=
  slices.partial_steps_spec key a b 5 (a + 1) d (by omega) (by omega) hb
    (fun i j h1 h2 h3 => by omega) hlb

/-! ## `siftDownLessFunc` and `heapSortLessFunc` -/

theorem slices.siftDown_loop_spec (key : Str → Int) (first lo hi : Nat) :
    ∀ (fuel root : Nat) (d : List Str), lo ≤ root → root ≤ hi → hi + 1 ≤ fuel + root →
      first + hi ≤ d.length →
      (∀ r c, lo ≤ r → r ≠ root → c < hi → (c = 2 * r + 1 ∨ c = 2 * r + 2) →
        key (slices.get d (first + c)) ≤ key (slices.get d (first + r))) →
      (∀ r c, lo ≤ r → (root = 2 * r + 1 ∨ root = 2 * r + 2) → c < hi →
        (c = 2 * root + 1 ∨ c = 2 * root + 2) →
        key (slices.get d (first + c)) ≤ key (slices.get d (first + r))) →
      ∃ out, slices.siftDownLessFunc.loop (lessBy key) hi first fuel root d = some out ∧
        RangePerm (first + lo) (first + hi) d out ∧ HeapFrom key out first lo hi
  | 0, root, d, _, hle, h2, _, _, _ => by omega
  | fuel + 1, root, d, h1, hle, h2, h3, h4, h5 => by
    rw [slices.siftDownLessFunc.loop]
    by_cases hc1 : 2 * root + 1 ≥ hi
    · simp only [hc1, if_true]
      refine ⟨d, rfl, RangePerm.refl _ _ _, ?_⟩
      intro r c hr hc hrc
      by_cases hroot : r = root
      · omega
      · exact h4 r c hr hroot hc hrc
    · simp only [hc1, if_false]
      have hch : ∃ child, (child = 2 * root + 1 ∨ child = 2 * root + 2) ∧ child < hi ∧
          (if (decide (2 * root + 1 + 1 < hi) &&
              lessBy key (slices.get d (first + (2 * root + 1)))
                (slices.get d (first + (2 * root + 1) + 1))) = true
            then 2 * root + 1 + 1 else 2 * root + 1) = child ∧
          (∀ c, c < hi → (c = 2 * root + 1 ∨ c = 2 * root + 2) →
            key (slices.get d (first + c)) ≤ key (slices.get d (first + child))) := by
        by_cases hc2 : (decide (2 * root + 1 + 1 < hi) &&
            lessBy key (slices.get d (first + (2 * root + 1)))
              (slices.get d (first + (2 * root + 1) + 1))) = true
        · refine ⟨2 * root + 2, Or.inr rfl, ?_, by simp only [hc2, if_true], ?_⟩
          · simp only [Bool.and_eq_true, decide_eq_true_eq] at hc2; omega
          · simp only [Bool.and_eq_true, decide_eq_true_eq, lessBy_eq_true] at hc2
            intro c _ hcc
            rcases hcc with rfl | rfl
            · have := hc2.2
              rw [show first + (2 * root + 1) + 1 = first + (2 * root + 2) by omega] at this
              exact le_of_lt this
            · exact le_refl _
        · refine ⟨2 * root + 1, Or.inl rfl, by omega, by simp only [hc2, if_false]; simp, ?_⟩
          simp only [Bool.and_eq_true, decide_eq_true_eq, lessBy_eq_true, not_and, not_lt] at hc2
          intro c hc hcc
          rcases hcc with rfl | rfl
          · exact le_refl _
          · have := hc2 (by omega)
            rw [show first + (2 * root + 1) + 1 = first + (2 * root + 2) by omega] at this
            exact this
      obtain ⟨child, hchild, hchi, hsel, hmax⟩ := hch
      rw [hsel]
      by_cases hc3 : (!lessBy key (slices.get d (first + root)) (slices.get d (first + child)))
          = true
      · simp only [hc3, if_true]
        simp only [Bool.not_eq_true', lessBy_eq_false] at hc3
        refine ⟨d, rfl, RangePerm.refl _ _ _, ?_⟩
        intro r c hr hc hrc
        by_cases hroot : r = root
        · subst hroot
          exact le_trans (hmax c hc hrc) hc3
        · exact h4 r c hr hroot hc hrc
      · simp only [hc3, if_false]
        simp only [Bool.not_eq_true', lessBy_eq_false, not_le] at hc3
        have hrl : first + root < d.length := by omega
        have hcl : first + child < d.length := by omega
        have hg := fun k => slices.get_swap d (first + root) (first + child) k hrl hcl
        obtain ⟨out, hout, hperm, hheap⟩ := slices.siftDown_loop_spec key first lo hi fuel child
          (slices.swap d (first + root) (first + child)) (by omega) (by omega) (by omega)
          (by rw [slices.length_swap]; exact h3)
          (fun r c hr hrc hc hcc => by
            rw [hg (first + c), hg (first + r)]
            have e1 : ¬ first + r = first + child := by omega
            by_cases hroot : r = root
            · subst hroot
              have e2 : ¬ first + c = first + r := by omega
              simp only [e1, if_true, if_false, e2]
              by_cases hcch : c = child
              · subst hcch
                simp only [if_true]
                exact le_of_lt hc3
              · have e3 : ¬ first + c = first + child := by omega
                simp only [e3, if_false]
                exact hmax c hc hcc
            · have e2 : ¬ first + r = first + root := by omega
              have e3 : ¬ first + c = first + child := by omega
              simp only [e1, e2, e3, if_false]
              by_cases hcr : c = root
              · subst hcr
                simp only [if_true]
                exact h5 r child hr hcc hchi hchild
              · have e4 : ¬ first + c = first + root := by omega
                simp only [e4, if_false]
                exact h4 r c hr hroot hc hcc)
          (fun r c hr hrc hc hcc => by
            have hr' : r = root := by omega
            subst hr'
            rw [hg (first + c), hg (first + r)]
            have e1 : ¬ first + r = first + child := by omega
            have e2 : ¬ first + c = first + child := by omega
            have e3 : ¬ first + c = first + r := by omega
            simp only [e1, e2, e3, if_true, if_false]
            exact h4 child c (by omega) (by omega) hc hcc)
        exact ⟨out, hout, (RangePerm.swap d (first + root) (first + child) h3 (by omega)
          (by omega) (by omega) (by omega)).trans hperm, hheap⟩

/-- Sifting down from `lo` restores the heap property at `lo`, when it holds at the
nodes after `lo`. -/
theorem slices.siftDownLessFunc_spec (key : Str → Int) (d : List Str) (lo hi first : Nat)
    (hlo : lo ≤ hi) (hlen : first + hi ≤ d.length) (hheap : HeapFrom key d first (lo + 1) hi) :
    ∃ out, slices.siftDownLessFunc d lo hi first (lessBy key) = some out ∧
      RangePerm (first + lo) (first + hi) d out ∧ HeapFrom key out first lo hi :=
  slices.siftDown_loop_spec key first lo hi (hi + 1) lo d (le_refl _) hlo (by omega) hlen
    (fun r c hr hne hc hcc => hheap r c (by omega) hc hcc)
    (fun r c hr hrc _ _ => by omega)

theorem HeapFrom.root_max {key : Str → Int} {d : List Str} {first hi : Nat}
    (h : HeapFrom key d first 0 hi) :
    ∀ k, k < hi → key (slices.get d (first + k)) ≤ key (slices.get d (first + 0)) := by
  intro k
  induction k using Nat.strong_induction_on with
  | _ k ih =>
    intro hk
    by_cases hk0 : k = 0
    · subst hk0; exact le_refl _
    · have hpar : k = 2 * ((k - 1) / 2) + 1 ∨ k = 2 * ((k - 1) / 2) + 2 := by omega
      exact le_trans (h ((k - 1) / 2) k (Nat.zero_le _) hk hpar)
        (ih ((k - 1) / 2) (by omega) (by omega))

theorem slices.heapSort_build_spec (key : Str → Int) (first hi : Nat) :
    ∀ (i : Nat) (d : List Str), i ≤ hi → first + hi ≤ d.length →
      HeapFrom key d first (i + 1) hi →
      ∃ out, slices.heapSortLessFunc.build (lessBy key) hi first i d = some out ∧
        RangePerm first (first + hi) d out ∧ HeapFrom key out first 0 hi
  | 0, d, h1, h2, h3 => by
    rw [slices.heapSortLessFunc.build]
    obtain ⟨out, hout, hperm, hheap⟩ := slices.siftDownLessFunc_spec key d 0 hi first h1 h2 h3
    exact ⟨out, hout, hperm, hheap⟩
  | i + 1, d, h1, h2, h3 => by
    rw [slices.heapSortLessFunc.build]
    obtain ⟨d1, hd1, hperm1, hheap1⟩ :=
      slices.siftDownLessFunc_spec key d (i + 1) hi first h1 h2 h3
    obtain ⟨out, hout, hperm, hheap⟩ := slices.heapSort_build_spec key first hi i d1 (by omega)
      (by rw [hperm1.1]; exact h2) hheap1
    refine ⟨out, ?_, (hperm1.mono (by omega) (le_refl _)).trans hperm, hheap⟩
    rw [hd1]
    exact hout

theorem slices.heapSort_pop_spec (key : Str → Int) (first hi : Nat) :
    ∀ (c : Nat) (d : List Str), c ≤ hi → first + hi ≤ d.length →
      HeapFrom key d first 0 c → SortedOn key d (first + c) (first + hi) →
      (∀ k m, k < c → c ≤ m → m < hi →
        key (slices.get d (first + k)) ≤ key (slices.get d (first + m))) →
      ∃ out, slices.heapSortLessFunc.pop (lessBy key) 0 first c d = some out ∧
        RangePerm first (first + hi) d out ∧ SortedOn key out first (first + hi)
  | 0, d, _, _, _, hs, _ => ⟨d, rfl, RangePerm.refl _ _ _, hs⟩
  | i + 1, d, h1, h2, hheap, hs, hle => by
    rw [slices.heapSortLessFunc.pop]
    have hmax := hheap.root_max
    have hfl : first < d.length := by omega
    have hil : first + i < d.length := by omega
    have hg := fun k => slices.get_swap d first (first + i) k hfl hil
    have hperm1 : RangePerm first (first + hi) d (slices.swap d first (first + i)) :=
      RangePerm.swap d first (first + i) h2 (le_refl _) (by omega) (by omega) (by omega)
    have hl1 : (slices.swap d first (first + i)).length = d.length := slices.length_swap _ _ _
    -- the values of the slice after the exchange
    have hgi : slices.get (slices.swap d first (first + i)) (first + i) = slices.get d first := by
      rw [hg]; simp
    have hgo : ∀ k, k ≠ first → k ≠ first + i →
        slices.get (slices.swap d first (first + i)) k = slices.get d k := by
      intro k hk1 hk2
      rw [hg]; simp [hk1, hk2]
    have hbelow : ∀ k, k < i → key (slices.get (slices.swap d first (first + i)) (first + k))
        ≤ key (slices.get d first) := by
      intro k hk
      rw [hg]
      have e1 : ¬ first + k = first + i := by omega
      simp only [e1, if_false]
      by_cases hk0 : first + k = first
      · simp only [hk0, if_true]
        exact hmax i (by omega)
      · simp only [hk0, if_false]
        exact hmax k (by omega)
    generalize slices.swap d first (first + i) = d1 at hperm1 hl1 hgi hgo hbelow ⊢
    have hheap1 : HeapFrom key d1 first (0 + 1) i := by
      intro r c hr hc hcc
      rw [hgo (first + c) (by omega) (by omega), hgo (first + r) (by omega) (by omega)]
      exact hheap r c (Nat.zero_le _) (by omega) hcc
    obtain ⟨d2, hd2, hperm2, hheap2⟩ := slices.siftDownLessFunc_spec key d1 0 i first
      (Nat.zero_le _) (by omega) hheap1
    have hperm2' : RangePerm first (first + i) d1 d2 := by simpa using hperm2
    have hbelow2 : ∀ k, first ≤ k → k < first + i →
        key (slices.get d2 k) ≤ key (slices.get d first) :=
      hperm2'.forall_range (by omega) (fun x => key x ≤ key (slices.get d first))
        (fun k hk1 hk2 => by
          have := hbelow (k - first) (by omega)
          rwa [show first + (k - first) = k by omega] at this)
    have hout2 : ∀ k, first + i ≤ k → slices.get d2 k = slices.get d1 k :=
      fun k hk => hperm2'.2.1 k (Or.inr hk)
    obtain ⟨out, hout, hperm, hsorted⟩ := slices.heapSort_pop_spec key first hi i d2 (by omega)
      (by rw [hperm2'.1, hl1]; exact h2) hheap2
      (by
        intro i0 j0 hi0 hij hj0
        rw [hout2 i0 hi0, hout2 j0 (by omega)]
        rw [hgo j0 (by omega) (by omega)]
        by_cases hii : i0 = first + i
        · subst hii
          rw [hgi]
          have := hle 0 (j0 - first) (by omega) (by omega) (by omega)
          rwa [show first + (j0 - first) = j0 by omega] at this
        · rw [hgo i0 (by omega) hii]
          exact hs i0 j0 (by omega) hij hj0)
      (by
        intro k m hk hm1 hm2
        refine le_trans (hbelow2 (first + k) (by omega) (by omega)) ?_
        rw [hout2 (first + m) (by omega)]
        by_cases hmi : m = i
        · subst hmi; rw [hgi]
        · rw [hgo (first + m) (by omega) (by omega)]
          exact hle 0 m (by omega) (by omega) hm2)
    refine ⟨out, ?_, hperm1.trans ((hperm2'.mono (le_refl _) (by omega)).trans hperm), hsorted⟩
    rw [hd2]
    exact hout

/-- Heap sort returns, puts the range `[a, b)` in ascending order of key and rearranges
nothing else. -/
theorem slices.heapSortLessFunc_spec (key : Str → Int) (d : List Str) (a b : Nat) (hab : a ≤ b)
    (hb : b ≤ d.length) :
    ∃ out, slices.heapSortLessFunc d a b (lessBy key) = some out ∧ RangePerm a b d out ∧
      SortedOn key out a b := by
  unfold slices.heapSortLessFunc
  obtain ⟨d1, hd1, hperm1, hheap1⟩ := slices.heapSort_build_spec key a (b - a) ((b - a - 1) / 2) d
    (by omega) (by omega) (fun r c hr hc hcc => by omega)
  obtain ⟨out, hout, hperm, hsorted⟩ := slices.heapSort_pop_spec key a (b - a) (b - a) d1
    (le_refl _) (by rw [hperm1.1]; omega) hheap1 (fun i j h1 h2 h3 => by omega)
    (fun k m h1 h2 h3 => by omega)
  have e : a + (b - a) = b := by omega
  rw [e] at hperm1 hperm hsorted
  refine ⟨out, ?_, hperm1.trans hperm, hsorted⟩
  simp only [hd1, Option.bind_eq_bind, Option.some_bind]
  exact hout

/-! ## `pdqsortLessFunc` -/

theorem SortedOn.of_outside_right {key : Str → Int} {d d' : List Str} {a i lo hi : Nat}
    (hs : SortedOn key d a i) (h : RangePerm lo hi d d') (hhi : hi ≤ a) :
    SortedOn key d' a i := by
  intro i0 j0 h1 h2 h3
  rw [h.2.1 i0 (Or.inr (by omega)), h.2.1 j0 (Or.inr (by omega))]
  exact hs i0 j0 h1 h2 h3

/-- Two sorted parts around a pivot make a sorted range. -/
theorem SortedOn.around {key : Str → Int} {d : List Str} {a mid b : Nat}
    (hL : SortedOn key d a mid) (hR : SortedOn key d (mid + 1) b)
    (hlt : ∀ k, a ≤ k → k < mid → key (slices.get d k) ≤ key (slices.get d mid))
    (hge : ∀ k, mid < k → k < b → key (slices.get d mid) ≤ key (slices.get d k)) :
    SortedOn key d a b := by
  intro i j h1 h2 h3
  by_cases hj : j < mid
  · exact hL i j h1 h2 hj
  · by_cases hi : mid < i
    · exact hR i j (by omega) h2 h3
    · by_cases him : i = mid
      · subst him; exact hge j (by omega) h3
      · by_cases hjm : j = mid
        · subst hjm; exact hlt i h1 (by omega)
        · exact le_trans (hlt i h1 (by omega)) (hge j (by omega) h3)

/-- After a partition at `mid`, sorting the part before `mid` and then the part after it
sorts the range. -/
theorem slices.sorted_left_right (key : Str → Int) (d4 d5 out : List Str) (a mid b : Nat)
    (ham : a ≤ mid) (hmb : mid < b) (hb : b ≤ d4.length)
    (hlt : ∀ k, a ≤ k → k < mid → key (slices.get d4 k) < key (slices.get d4 mid))
    (hge : ∀ k, mid < k → k < b → key (slices.get d4 mid) ≤ key (slices.get d4 k))
    (h1 : RangePerm a mid d4 d5) (s1 : SortedOn key d5 a mid)
    (h2 : RangePerm (mid + 1) b d5 out) (s2 : SortedOn key out (mid + 1) b) :
    RangePerm a b d4 out ∧ SortedOn key out a b := by
  have e5 : slices.get d5 mid = slices.get d4 mid := h1.2.1 mid (Or.inr (le_refl _))
  have eo : slices.get out mid = slices.get d5 mid := h2.2.1 mid (Or.inl (by omega))
  refine ⟨(h1.mono (le_refl _) (by omega)).trans (h2.mono (by omega) (le_refl _)),
    SortedOn.around (s1.of_outside h2 (by omega)) s2 ?_ ?_⟩
  · intro k hk1 hk2
    rw [eo, e5, h2.2.1 k (Or.inl (by omega))]
    exact le_of_lt (h1.forall_range (by omega) (fun x => key x < key (slices.get d4 mid)) hlt
      k hk1 hk2)
  · intro k hk1 hk2
    rw [eo, e5]
    refine h2.forall_range (by rw [h1.1]; exact hb)
      (fun x => key (slices.get d4 mid) ≤ key x) ?_ k (by omega) hk2
    intro k' hk1' hk2'
    rw [h1.2.1 k' (Or.inr (by omega))]
    exact hge k' (by omega) hk2'

/-- After a partition at `mid`, sorting the part after `mid` and then the part before it
sorts the range. -/
theorem slices.sorted_right_left (key : Str → Int) (d4 d5 out : List Str) (a mid b : Nat)
    (ham : a ≤ mid) (hmb : mid < b) (hb : b ≤ d4.length)
    (hlt : ∀ k, a ≤ k → k < mid → key (slices.get d4 k) < key (slices.get d4 mid))
    (hge : ∀ k, mid < k → k < b → key (slices.get d4 mid) ≤ key (slices.get d4 k))
    (h1 : RangePerm (mid + 1) b d4 d5) (s1 : SortedOn key d5 (mid + 1) b)
    (h2 : RangePerm a mid d5 out) (s2 : SortedOn key out a mid) :
    RangePerm a b d4 out ∧ SortedOn key out a b := by
  have e5 : slices.get d5 mid = slices.get d4 mid := h1.2.1 mid (Or.inl (by omega))
  have eo : slices.get out mid = slices.get d5 mid := h2.2.1 mid (Or.inr (le_refl _))
  refine ⟨(h1.mono (by omega) (le_refl _)).trans (h2.mono (le_refl _) (by omega)),
    SortedOn.around s2 (s1.of_outside_right h2 (by omega)) ?_ ?_⟩
  · intro k hk1 hk2
    rw [eo, e5]
    refine le_of_lt (h2.forall_range (by rw [h1.1]; omega)
      (fun x => key x < key (slices.get d4 mid)) ?_ k hk1 hk2)
    intro k' hk1' hk2'
    rw [h1.2.1 k' (Or.inl (by omega))]
    exact hlt k' hk1' hk2'
  · intro k hk1 hk2
    rw [eo, e5, h2.2.1 k (Or.inr (by omega))]
    exact h1.forall_range hb (fun x => key (slices.get d4 mid) ≤ key x)
      (fun k' hk1' hk2' => hge k' (by omega) hk2') k (by omega) hk2

theorem slices.pdqsortLessFunc_spec (key : Str → Int) :
    ∀ (fuel : Nat) (d : List Str) (a b limit : Nat) (wb wp : Bool), a ≤ b → b ≤ d.length →
      b - a < fuel → LowerBound key d a b →
      ∃ out, slices.pdqsortLessFunc (lessBy key) fuel d a b limit wb wp = some out ∧
        RangePerm a b d out ∧ SortedOn key out a b
  | 0, d, a, b, limit, wb, wp, _, _, h3, _ => by omega
  | fuel + 1, d, a, b, limit, wb, wp, hab, hb, hfuel, hlb => by
    rw [slices.pdqsortLessFunc]
    by_cases h12 : b - a ≤ 12
    · simp only [h12, if_true]
      have := slices.insertionSortLessFunc_spec key d a b hb
      exact ⟨_, rfl, this.1, this.2⟩
    · simp only [h12, if_false]
      by_cases hl : limit = 0
      · simp only [hl, if_true]
        exact slices.heapSortLessFunc_spec key d a b hab hb
      · simp only [hl, if_false]
        -- the slice after `breakPatternsLessFunc`
        have hp1 : RangePerm a b d (if (!wb) = true then slices.breakPatternsLessFunc d a b
            else d) := by
          split
          · exact slices.breakPatternsLessFunc_spec d a b hab hb
          · exact RangePerm.refl _ _ _
        generalize (if (!wb) = true then slices.breakPatternsLessFunc d a b else d) = d1
          at hp1 ⊢
        generalize (if (!wb) = true then limit - 1 else limit) = limit1
        have hb1 : b ≤ d1.length := by rw [hp1.1]; exact hb
        -- the pivot
        have hcp := slices.choosePivotLessFunc_range d1 a b (lessBy key) (by omega)
        generalize slices.choosePivotLessFunc d1 a b (lessBy key) = cp at hcp ⊢
        have hp2 : RangePerm a b d1 (if cp.2 = slices.sortedHint.decreasingHint
            then slices.reverseRangeLessFunc d1 a b else d1) := by
          split
          · exact slices.reverseRangeLessFunc_spec d1 a b (by omega) hb1
          · exact RangePerm.refl _ _ _
        generalize (if cp.2 = slices.sortedHint.decreasingHint
            then slices.reverseRangeLessFunc d1 a b else d1) = d2 at hp2 ⊢
        have hb2 : b ≤ d2.length := by rw [hp2.1]; exact hb1
        have hpiv : a ≤ (if cp.2 = slices.sortedHint.decreasingHint
            then b - 1 - (cp.1 - a) else cp.1) ∧
            (if cp.2 = slices.sortedHint.decreasingHint
              then b - 1 - (cp.1 - a) else cp.1) < b := by
          split <;> omega
        generalize (if cp.2 = slices.sortedHint.decreasingHint
            then b - 1 - (cp.1 - a) else cp.1) = pivot at hpiv ⊢
        generalize (wb && wp && decide ((if cp.2 = slices.sortedHint.decreasingHint
            then slices.sortedHint.increasingHint else cp.2)
              = slices.sortedHint.increasingHint)) = tp
        have hlb2 : LowerBound key d2 a b := (hp1.trans hp2).lowerBound hb hlb
        have htr := slices.partialInsertionSortLessFunc_spec key d2 a b (by omega) hb2 hlb2
        generalize slices.partialInsertionSortLessFunc d2 a b (lessBy key) = tried at htr ⊢
        by_cases hq : (tp && tried.2) = true
        · simp only [hq, if_true]
          have ht2 : tried.2 = true := by
            simp only [Bool.and_eq_true] at hq; exact hq.2
          exact ⟨tried.1, rfl, (hp1.trans hp2).trans htr.1, htr.2 ht2⟩
        · simp only [hq, if_false]
          have hp3 : RangePerm a b d2 (if tp = true then tried.1 else d2) := by
            split
            · exact htr.1
            · exact RangePerm.refl _ _ _
          generalize (if tp = true then tried.1 else d2) = d3 at hp3 ⊢
          have hp03 : RangePerm a b d d3 := (hp1.trans hp2).trans hp3
          have hb3 : b ≤ d3.length := by rw [hp03.1]; exact hb
          have hlb3 : LowerBound key d3 a b := hp03.lowerBound hb hlb
          by_cases hpe : (decide (a > 0) &&
              !lessBy key (slices.get d3 (a - 1)) (slices.get d3 pivot)) = true
          · simp only [hpe, if_true]
            obtain ⟨d4, mid, hd4, hp4, hm1, hm2, hle, hgt⟩ :=
              slices.partitionEqualLessFunc_spec key d3 a b pivot hpiv.1 hpiv.2 hb3
            rw [hd4]
            simp only []
            simp only [gt_iff_lt, Bool.and_eq_true, decide_eq_true_eq, Bool.not_eq_true',
              lessBy_eq_false] at hpe
            have hb4 : b ≤ d4.length := by rw [hp4.1]; exact hb3
            have hall4 : ∀ k, a ≤ k → k < b →
                key (slices.get d3 pivot) ≤ key (slices.get d4 k) :=
              hp4.forall_range hb3 (fun x => key (slices.get d3 pivot) ≤ key x)
                (fun k hk1 hk2 => le_trans hpe.2 (hlb3 hpe.1 k hk1 hk2))
            have hlb4 : LowerBound key d4 mid b := fun _ k hk1 hk2 =>
              le_trans (hle (mid - 1) (by omega) (by omega)) (le_of_lt (hgt k hk1 hk2))
            obtain ⟨out, hout, hp5, hs5⟩ := slices.pdqsortLessFunc_spec key fuel d4 mid b limit1
              wb wp hm2 hb4 (by omega) hlb4
            refine ⟨out, hout, hp03.trans (hp4.trans (hp5.mono (by omega) (le_refl _))), ?_⟩
            intro i j hi hij hj
            by_cases hjm : j < mid
            · rw [hp5.2.1 i (Or.inl (by omega)), hp5.2.1 j (Or.inl hjm)]
              exact le_trans (hle i hi (by omega)) (hall4 j (by omega) hj)
            · by_cases him : mid ≤ i
              · exact hs5 i j him hij hj
              · rw [hp5.2.1 i (Or.inl (by omega))]
                have := hp5.forall_range hb4 (fun x => key (slices.get d3 pivot) < key x)
                  (fun k hk1 hk2 => hgt k hk1 hk2) j (by omega) hj
                exact le_trans (hle i hi (by omega)) (le_of_lt this)
          · simp only [hpe, if_false]
            obtain ⟨d4, mid, flag, hd4, hp4, hm1, hm2, hlt, hge⟩ :=
              slices.partitionLessFunc_spec key d3 a b pivot hpiv.1 hpiv.2 hb3
            rw [hd4]
            simp only []
            have hb4 : b ≤ d4.length := by rw [hp4.1]; exact hb3
            have hlb4 : LowerBound key d4 a b := (hp03.trans hp4).lowerBound hb hlb
            by_cases hlr : mid - a < b - mid
            · simp only [hlr, if_true]
              obtain ⟨d5, hd5, hp5, hs5⟩ := slices.pdqsortLessFunc_spec key fuel d4 a mid limit1
                true true hm1 (by omega) (by omega) (hlb4.shrink (by omega))
              rw [hd5]
              simp only []
              have hlb5 : LowerBound key d5 (mid + 1) b := by
                intro _ k hk1 hk2
                simp only [Nat.add_sub_cancel]
                rw [hp5.2.1 mid (Or.inr (le_refl _)), hp5.2.1 k (Or.inr (by omega))]
                exact hge k (by omega) hk2
              obtain ⟨out, hout, hp6, hs6⟩ := slices.pdqsortLessFunc_spec key fuel d5 (mid + 1) b
                limit1 (decide (mid - a ≥ (b - a) / 8)) flag (by omega)
                (by rw [hp5.1]; exact hb4) (by omega) hlb5
              have := slices.sorted_left_right key d4 d5 out a mid b hm1 hm2 hb4 hlt hge hp5 hs5
                hp6 hs6
              exact ⟨out, hout, (hp03.trans hp4).trans this.1, this.2⟩
            · simp only [hlr, if_false]
              have hlb4' : LowerBound key d4 (mid + 1) b := by
                intro _ k hk1 hk2
                simp only [Nat.add_sub_cancel]
                exact hge k (by omega) hk2
              obtain ⟨d5, hd5, hp5, hs5⟩ := slices.pdqsortLessFunc_spec key fuel d4 (mid + 1) b
                limit1 true true (by omega) hb4 (by omega) hlb4'
              rw [hd5]
              simp only []
              have hlb5 : LowerBound key d5 a mid :=
                ((hp5.mono (by omega) (le_refl _)).lowerBound hb4 hlb4).shrink (by omega)
              obtain ⟨out, hout, hp6, hs6⟩ := slices.pdqsortLessFunc_spec key fuel d5 a mid
                limit1 (decide (b - mid ≥ (b - a) / 8)) flag hm1
                (by rw [hp5.1]; omega) (by omega) hlb5
              have := slices.sorted_right_left key d4 d5 out a mid b hm1 hm2 hb4 hlt hge hp5 hs5
                hp6 hs6
              exact ⟨out, hout, (hp03.trans hp4).trans this.1, this.2⟩

theorem SortedOn.pairwise {key : Str → Int} {d : List Str} (h : SortedOn key d 0 d.length) :
    d.Pairwise (fun a b => ¬ key b < key a) := by
  rw [List.pairwise_iff_getElem]
  intro i j hi hj hij
  rw [← slices.get_eq_getElem d i hi, ← slices.get_eq_getElem d j hj]
  exact not_lt.2 (h i j (Nat.zero_le _) hij hj)

/-- The routine `slices.SortFunc`, as embedded here, meets its contract: it returns, its
result is a rearrangement of the slice, and the result is in ascending order of key. -/
theorem slices.SortFunc_spec : SortFuncSpec slices.SortFunc := by
  intro x key
  obtain ⟨out, hout, hperm, hsorted⟩ := slices.pdqsortLessFunc_spec key (x.length + 1) x 0
    x.length (slices.bitsLen x.length) true true (Nat.zero_le _) (le_refl _) (by omega)
    (fun h => absurd h (lt_irrefl 0))
  refine ⟨out, hout, hperm.2.2, ?_⟩
  rw [← hperm.1] at hsorted
  exact hsorted.pairwise

/-! ## Facts about `Exec` -/

/-- The counting loop adds to each count the number of occurrences in the slice. -/
theorem Exec.count_eq : ∀ (l : List Str) (counts : Str → Int) (t : Str),
    Exec.count l counts t = counts t + (l.count t : Int)
  | [], counts, t => by simp [Exec.count]
  | cls :: rest, counts, t => by
    rw [Exec.count, Exec.count_eq rest, List.count_cons]
    by_cases h : cls = t
    · subst h; simp [Function.update_same]; ring
    · have h' : t ≠ cls := fun e => h e.symm
      simp [Function.update_noteq h', h]

/-- The count `counts[sig]` of `Exec` is the number of positions of `allClasses` that
hold `sig`. -/
theorem Exec.count_zero (l : List Str) (t : Str) :
    Exec.count l (fun _ => 0) t = (l.count t : Int) := by
  rw [Exec.count_eq]; simp

/-- The printing loop prints, in order, the signatures that pass both tests. -/
theorem Exec.print_eq (names threshold : Int) (counts : Str → Int) : ∀ l : List Str,
    Exec.print names threshold counts l
      = (l.filter (Exec.kept names threshold counts)).map (fun cls => (counts cls, cls))
  | [] => rfl
  | cls :: rest => by
    have ih := Exec.print_eq names threshold counts rest
    by_cases h1 : (strings.Count cls ' ' : Int) < names
    · simp [Exec.print, Exec.kept, h1, ih]
    · by_cases h2 : counts cls < threshold
      · simp [Exec.print, Exec.kept, h1, h2, ih]
      · simp [Exec.print, Exec.kept, h1, h2, ih]

/-- With a sorting routine that meets its contract the ranking stage prints, filtered,
a rearrangement of the distinct signatures in ascending order of count. -/
theorem Exec.rank_eq (sortFunc : SortFuncType) (hs : SortFuncSpec sortFunc)
    (names threshold : Int) (allClasses : List Str) :
    ∃ sorted : List Str,
      sorted.Perm (slices.Compact (slices.SortStrings allClasses)) ∧
      sorted.Pairwise (fun a b => (allClasses.count a : Int) ≤ (allClasses.count b : Int)) ∧
      Exec.rank sortFunc names threshold allClasses
        = some ((sorted.filter (Exec.kept names threshold
            (fun t => (allClasses.count t : Int)))).map
              (fun cls => ((allClasses.count cls : Int), cls))) := by
  obtain ⟨out, hout, hperm, hsorted⟩ :=
    hs (slices.Compact (slices.SortStrings allClasses)) (Exec.count allClasses (fun _ => 0))
  have hc : Exec.count allClasses (fun _ => 0) = fun t => (allClasses.count t : Int) :=
    funext (Exec.count_zero allClasses)
  rw [hc] at hout hsorted
  refine ⟨out, hperm, hsorted.imp (fun h => not_lt.1 h), ?_⟩
  unfold Exec.rank
  simp only [hc, hout, Exec.print_eq]

/-- The distinct signatures are as many as the sorted and compacted slice is long. -/
theorem sortCompact_length (l : List Str) :
    (slices.Compact (slices.SortStrings l)).length = l.dedup.length := by
  refine List.Perm.length_eq ?_
  refine (List.perm_ext_iff_of_nodup (sortCompact_sorted l).nodup (List.nodup_dedup l)).2 ?_
  intro t
  rw [mem_sortCompact, List.mem_dedup]

/-- With at most 12 distinct signatures the ranking stage, run with `slices.SortFunc`,
prints the signatures that pass the tests in the order of count, then signature. -/
theorem Exec.rank_short (names threshold : Int) (allClasses : List Str)
    (h : allClasses.dedup.length ≤ 12) :
    ∃ sorted : List Str,
      sorted.Pairwise (KeyThenStr (fun t => (allClasses.count t : Int))) ∧
      Exec.rank slices.SortFunc names threshold allClasses
        = some ((sorted.filter (Exec.kept names threshold
            (fun t => (allClasses.count t : Int)))).map
              (fun cls => ((allClasses.count cls : Int), cls))) := by
  have hc : Exec.count allClasses (fun _ => 0) = fun t => (allClasses.count t : Int) :=
    funext (Exec.count_zero allClasses)
  have hlen : (slices.Compact (slices.SortStrings allClasses)).length ≤ 12 := by
    rw [sortCompact_length]; exact h
  refine ⟨(insertAll (fun a b => decide ((allClasses.count a : Int) < (allClasses.count b : Int)))
    (slices.Compact (slices.SortStrings allClasses)) []).reverse, ?_, ?_⟩
  · rw [List.pairwise_reverse]
    exact insertAll_stable _ _ [] (sortCompact_sorted allClasses) (by simp) List.Pairwise.nil
  · unfold Exec.rank
    simp only [hc, slices.SortFunc_short _ _ hlen, insertionSortFunc,
      slices.insertionSortLessFunc_eq, Exec.print_eq]

set_option maxRecDepth 100000 in
/-- The report `Exec` prints, with `slices.SortFunc`, for the signatures `thirteen`, with
`names = 0` and `threshold = 1`: `g` is printed first. -/
theorem Exec.rank_thirteen : Exec.rank slices.SortFunc 0 1 thirteen
    = some [(1, ['g']), (1, ['b']), (1, ['c']), (1, ['d']), (1, ['e']), (1, ['f']), (1, ['h']),
        (1, ['i']), (1, ['j']), (1, ['k']), (1, ['l']), (1, ['m']), (2, ['a'])] := by
  decide

/-! ## Facts about `classSets` and the scanning loop -/

theorem classSets.attrs_eq : ∀ (attr : List Attribute) (sets : List Str),
    classSets.attrs attr sets = sets ++ ((firstClass attr).map (fun a => classSet a.Val)).toList
  | [], sets => by simp [classSets.attrs, firstClass]
  | a :: rest, sets => by
    by_cases h : a.Key = classKey
    · simp [classSets.attrs, firstClass, h]
    · have ih := classSets.attrs_eq rest sets
      simp only [firstClass] at ih
      simp [classSets.attrs, firstClass, h, ih]

mutual
theorem classSets.f_eq : ∀ (n : Node) (sets : List Str),
    classSets.f n sets = sets ++ (Node.nodes n).filterMap Node.signature
  | Node.mk type attr children, sets => by
    rw [classSets.f, Node.nodes, List.filterMap_cons]
    rw [classSets.siblings_eq children]
    by_cases h : type = NodeType.ElementNode
    · simp only [h, if_true, Node.signature, Node.type, Node.attr, classSets.attrs_eq]
      cases firstClass attr <;> simp
    · simp [h, Node.signature, Node.type]
theorem classSets.siblings_eq : ∀ (l : List Node) (sets : List Str),
    classSets.siblings l sets = sets ++ (Node.nodesOfList l).filterMap Node.signature
  | [], sets => by simp [classSets.siblings, Node.nodesOfList]
  | c :: rest, sets => by
    rw [classSets.siblings, classSets.f_eq c, classSets.siblings_eq rest, Node.nodesOfList,
      List.filterMap_append, List.append_assoc]
end

theorem firstClass_isSome : ∀ attr : List Attribute,
    (firstClass attr).isSome = attr.any (fun a => decide (a.Key = classKey))
  | [] => rfl
  | a :: rest => by
    have ih := firstClass_isSome rest
    unfold firstClass at ih ⊢
    by_cases h : a.Key = classKey
    · simp [h]
    · simp [h, ih]

theorem Node.signature_isSome (n : Node) : (Node.signature n).isSome = Node.hasClass n := by
  unfold Node.signature Node.hasClass
  by_cases h : n.type = NodeType.ElementNode
  · simp [h, firstClass_isSome]
  · simp [h]

theorem length_filterMap_isSome {α β : Type} (f : α → Option β) (l : List α) :
    (l.filterMap f).length = l.countP (fun a => (f a).isSome) := by
  induction l with
  | nil => rfl
  | cons a l ih =>
    rw [List.filterMap_cons, List.countP_cons]
    cases h : f a <;> simp [ih]

/-- The scanning loop stops at the first file `classesInFile` fails on: the files before
it and the file itself have been scanned, and the error is the one of that file. -/
theorem Exec.scan_error {ε : Type} (classesInFile : Str → Except ε (List Str))
    (file : Str) (post : List Str) (err : ε) (hfile : classesInFile file = Except.error err) :
    ∀ (pre allClasses scanned : List Str),
      (∀ f ∈ pre, ∃ classes, classesInFile f = Except.ok classes) →
      Exec.scan classesInFile (pre ++ file :: post) allClasses scanned
        = (scanned ++ pre ++ [file], Except.error err)
  | [], allClasses, scanned, _ => by
    simp [Exec.scan, hfile]
  | f :: pre, allClasses, scanned, hpre => by
    obtain ⟨classes, hf⟩ := hpre f (List.mem_cons_self _ _)
    have ih := Exec.scan_error classesInFile file post err hfile pre (allClasses ++ classes)
      (scanned ++ [f]) (fun g hg => hpre g (List.mem_cons_of_mem _ hg))
    show Exec.scan classesInFile (f :: (pre ++ file :: post)) allClasses scanned = _
    rw [Exec.scan]
    simp only [hf, ih, List.append_assoc, List.singleton_append]

/-! ## Facts about the report and the spaces of a signature -/

/-- The ranking stage gives the same result on a rearrangement of the emitted list,
whatever the sorting routine: the counts and the sorted slice are the same. -/
theorem Exec.rank_perm (sortFunc : SortFuncType) (names threshold : Int) (l₁ l₂ : List Str)
    (h : l₁.Perm l₂) :
    Exec.rank sortFunc names threshold l₁ = Exec.rank sortFunc names threshold l₂ := by
  have hc : Exec.count l₁ (fun _ => 0) = Exec.count l₂ (fun _ => 0) := by
    funext t
    rw [Exec.count_zero, Exec.count_zero]
    exact congrArg _ (h.countP_eq _)
  have hs : slices.SortStrings l₁ = slices.SortStrings l₂ :=
    List.eq_of_perm_of_sorted
      (((slices.SortStrings_perm l₁).trans h).trans (slices.SortStrings_perm l₂).symm)
      (slices.SortStrings_sorted l₁) (slices.SortStrings_sorted l₂)
  unfold Exec.rank
  rw [hc, hs]

/-- Every line the ranking stage prints has passed both tests of the printing loop. -/
theorem Exec.rank_kept (sortFunc : SortFuncType) (names threshold : Int)
    (allClasses : List Str) (lines : List Line)
    (h : Exec.rank sortFunc names threshold allClasses = some lines) :
    ∀ line ∈ lines, names ≤ (strings.Count line.2 ' ' : Int) ∧ threshold ≤ line.1 := by
  unfold Exec.rank at h
  cases hs : sortFunc (slices.Compact (slices.SortStrings allClasses))
      (fun a b => decide (Exec.count allClasses (fun _ => 0) a
        < Exec.count allClasses (fun _ => 0) b)) with
  | none => simp [hs] at h
  | some sorted =>
    simp only [hs, Option.some.injEq] at h
    subst h
    intro line hline
    rw [Exec.print_eq, List.mem_map] at hline
    obtain ⟨cls, hcls, rfl⟩ := hline
    have := (List.mem_filter.1 hcls).2
    simp only [Exec.kept, decide_eq_true_eq, not_lt] at this
    exact this

/-- A token has no ASCII space. -/
theorem strings.Count_token (t : Str) (h : IsToken t) : strings.Count t ' ' = 0 := by
  have h2 := h.2
  clear h
  induction t with
  | nil => rfl
  | cons c t ih =>
    have hc : c ≠ ' ' := by
      intro e
      have := h2 c (List.mem_cons_self _ _)
      rw [e] at this
      exact absurd this (by decide)
    simp only [strings.Count, hc, if_false, Nat.zero_add]
    exact ih (fun d hd => h2 d (List.mem_cons_of_mem _ hd))

theorem strings.Count_append (s t : Str) (c : Char) :
    strings.Count (s ++ t) c = strings.Count s c + strings.Count t c := by
  induction s with
  | nil => simp [strings.Count]
  | cons d s ih =>
    show strings.Count (d :: (s ++ t)) c = _
    rw [strings.Count, strings.Count, ih]; omega

/-- The join of tokens by one space has one space less than there are tokens. -/
theorem strings.Count_Join : ∀ (toks : List Str), (∀ t ∈ toks, IsToken t) →
    strings.Count (strings.Join toks [' ']) ' ' = toks.length - 1
  | [], _ => rfl
  | [a], h => by
    simpa [strings.Join] using strings.Count_token a (h a (List.mem_singleton_self a))
  | a :: b :: rest, h => by
    have ha := strings.Count_token a (h a (List.mem_cons_self _ _))
    have ih := strings.Count_Join (b :: rest) (fun t ht => h t (List.mem_cons_of_mem _ ht))
    rw [strings.Join, strings.Count_append, strings.Count_append, ha, ih]
    simp [strings.Count]
    omega

/-- The join of tokens is empty only for the empty list. -/
theorem strings.Join_eq_nil : ∀ (toks : List Str), (∀ t ∈ toks, IsToken t) →
    (strings.Join toks [' '] = [] ↔ toks = [])
  | [], _ => by simp [strings.Join]
  | [a], h => by
    have := (h a (List.mem_singleton_self a)).1
    simp [strings.Join, this]
  | a :: b :: rest, h => by
    simp [strings.Join]

/-- The tokens `classSet` joins: the fields left after the loop, sorted and compacted. -/
theorem classSet_tokens_isToken (s : Str) :
    ∀ t ∈ slices.Compact (slices.SortStrings (strings.Fields (removeActions s))), IsToken t :=
  fun t ht => strings.Fields_isToken _ t ((mem_sortCompact _ t).1 ht)

/-- The fields of a signature are the sorted, compacted fields left after the loop. -/
theorem strings.Fields_classSet (s : Str) :
    strings.Fields (classSet s)
      = slices.Compact (slices.SortStrings (strings.Fields (removeActions s))) :=
  strings.Fields_Join _ (classSet_tokens_isToken s)

theorem strings.HasPrefix_append (s m rest : Str) (h : strings.HasPrefix s m = true) :
    strings.HasPrefix (s ++ rest) m = true := by
  induction s generalizing m with
  | nil =>
    cases m with
    | nil => simp [strings.HasPrefix]
    | cons d m => simp [strings.HasPrefix] at h
  | cons c s ih =>
    cases m with
    | nil => simp [strings.HasPrefix]
    | cons d m =>
      simp only [strings.HasPrefix, Bool.and_eq_true, decide_eq_true_eq] at h
      show strings.HasPrefix (c :: (s ++ rest)) (d :: m) = true
      simp only [strings.HasPrefix, Bool.and_eq_true, decide_eq_true_eq]
      exact ⟨h.1, ih m h.2⟩

/-- When the first `{{` of `p ++ rest` is at the end of `p`, there is none in `p`. -/
theorem strings.Index_append_none : ∀ (p rest : Str),
    strings.Index (p ++ rest) openMarker = some p.length → strings.Index p openMarker = none
  | [], _, _ => by simp [strings.Index, openMarker]
  | c :: p, rest, h => by
    have h' : strings.Index (c :: (p ++ rest)) openMarker = some (p.length + 1) := h
    rw [strings.Index] at h'
    by_cases hp : strings.HasPrefix (c :: (p ++ rest)) openMarker = true
    · simp [hp] at h'
    · simp only [hp, Bool.false_eq_true, if_false, Option.map_eq_some'] at h'
      obtain ⟨j, hj, hj1⟩ := h'
      have hj' : j = p.length := by omega
      subst hj'
      have ih := strings.Index_append_none p rest hj
      have hp' : ¬ strings.HasPrefix (c :: p) openMarker = true :=
        fun hcon => hp (strings.HasPrefix_append (c :: p) openMarker rest hcon)
      rw [strings.Index]
      simp [hp', ih]

/-- A string without `{{` followed by a space has no `{{`. -/
theorem strings.Index_append_space (p : Str) (h : strings.Index p openMarker = none) :
    strings.Index (p ++ [' ']) openMarker = none := by
  rw [strings.Index_open_none_iff] at h ⊢
  refine List.chain'_append.2 ⟨h, by simp, ?_⟩
  intro x _ y hy hxy
  simp only [List.head?_cons, Option.mem_def, Option.some.injEq] at hy
  subst hy
  exact absurd hxy.2 (by decide)

theorem strings.fieldsFrom_append_space : ∀ (s cur : Str),
    strings.fieldsFrom (s ++ [' ']) cur = strings.fieldsFrom s cur
  | [], cur => by
    have hsp : strings.isSpace ' ' = true := by decide
    show strings.fieldsFrom [' '] cur = strings.fieldsFrom [] cur
    by_cases hc : cur = []
    · simp [strings.fieldsFrom, hsp, hc]
    · simp [strings.fieldsFrom, hsp, hc]
  | c :: s, cur => by
    show strings.fieldsFrom (c :: (s ++ [' '])) cur = strings.fieldsFrom (c :: s) cur
    rw [strings.fieldsFrom, strings.fieldsFrom]
    simp only [strings.fieldsFrom_append_space s]

/-- A space at the end of a string adds no field. -/
theorem strings.Fields_append_space (s : Str) :
    strings.Fields (s ++ [' ']) = strings.Fields s :=
  strings.fieldsFrom_append_space s []

/-- A string of white space has no field. -/
theorem strings.Fields_spaces : ∀ (s : Str), (∀ c ∈ s, strings.isSpace c = true) →
    strings.Fields s = []
  | [], _ => rfl
  | c :: s, h => by
    have hc := h c (List.mem_cons_self _ _)
    have ih := strings.Fields_spaces s (fun d hd => h d (List.mem_cons_of_mem _ hd))
    unfold strings.Fields at ih ⊢
    rw [strings.fieldsFrom]
    simp [hc, ih]

/-- A string of white space has no `{{`. -/
theorem strings.Index_spaces (s : Str) (h : ∀ c ∈ s, strings.isSpace c = true) :
    strings.Index s openMarker = none := by
  rw [strings.Index_open_none_iff]
  induction s with
  | nil => simp
  | cons c s ih =>
    refine List.chain'_cons'.2 ⟨fun y _ hy => ?_, ih (fun d hd => h d (List.mem_cons_of_mem _ hd))⟩
    have hc := h c (List.mem_cons_self _ _)
    rw [hy.1] at hc
    exact absurd hc (by decide)

/-- The pass of the loop on an action that is not closed: the action and all that
follows give way to one space. -/
theorem classSetStep_unclosed (p r : Str)
    (hopen : strings.Index (p ++ openMarker ++ r) openMarker = some p.length)
    (hclose : strings.Index r closeMarker = none) :
    classSetStep (p ++ openMarker ++ r) = some (p ++ [' ']) := by
  have h1 : strings.Cut (p ++ openMarker ++ r) openMarker = (p, r, true) := by
    unfold strings.Cut
    rw [hopen]
    simp only [List.append_assoc, List.take_left, Prod.mk.injEq, and_true, true_and]
    rw [← List.append_assoc p openMarker, ← List.length_append, List.drop_left]
  have h2 : strings.Cut r closeMarker = (r, [], false) := by
    unfold strings.Cut
    rw [hclose]
  unfold classSetStep
  rw [h1]
  simp only [h2, List.append_nil]

/-- The counts of the example: `a` 5 times, `b b` 5 times, `c` twice. -/
theorem exampleCounts_pos (t : Str) :
    0 < exampleCounts t ↔ t = ['a'] ∨ t = ['b', ' ', 'b'] ∨ t = ['c'] := by
  unfold exampleCounts
  by_cases h1 : t = ['a']
  · simp [h1]
  · by_cases h2 : t = ['b', ' ', 'b']
    · simp [h2]
    · by_cases h3 : t = ['c']
      · simp [h3]
      · simp [h1, h2, h3]


/-! ## Facts about `classSets`, continued -/

theorem Node.signature_eq (n : Node) :
    Node.signature n = (Node.classValue n).map classSet := by
  unfold Node.signature Node.classValue
  split
  · cases firstClass n.attr <;> rfl
  · rfl

/-- The signatures `classSets` emits are `classSet` of the values of the attributes
`class` of the element nodes, in document order. -/
theorem classSets_eq_map (doc : Node) :
    classSets doc = (Node.classValues doc).map classSet := by
  rw [classSets, classSets.f_eq, List.nil_append, Node.classValues, List.map_filterMap]
  congr 1
  funext n
  rw [Node.signature_eq]

/-! ## Facts about `getFiles` -/

mutual
/-- Inside a directory whose name begins with `.` every entry is marked as hidden. -/
theorem DirEntry.leaves_hidden (join : Str → Str → Str) : ∀ (path : Str) (d : DirEntry),
    ∀ x ∈ DirEntry.leaves join path true d, x.2.2 = true
  | path, DirEntry.file name => by
    intro x hx
    rw [DirEntry.leaves, List.mem_singleton] at hx
    rw [hx]
  | path, DirEntry.dir name entries => by
    intro x hx
    rw [DirEntry.leaves] at hx
    exact DirEntry.leavesOfList_all_hidden join path entries x hx
theorem DirEntry.leavesOfList_all_hidden (join : Str → Str → Str) : ∀ (path : Str)
    (l : List DirEntry), ∀ x ∈ DirEntry.leavesOfList join path true l, x.2.2 = true
  | path, [] => by
    intro x hx
    simp [DirEntry.leavesOfList] at hx
  | path, d1 :: rest => by
    intro x hx
    rw [DirEntry.leavesOfList, List.mem_append] at hx
    rcases hx with hx | hx
    · exact DirEntry.leaves_hidden join _ d1 x hx
    · exact DirEntry.leavesOfList_all_hidden join path rest x hx
end

/-- No entry inside a directory whose name begins with `.` passes the test. -/
theorem DirEntry.leavesOfList_hidden (join : Str → Str → Str) (path : Str)
    (l : List DirEntry) :
    (DirEntry.leavesOfList join path true l).filter (fun x => !x.2.2 && isMarkup x.2.1)
      = [] := by
  rw [List.filter_eq_nil_iff]
  intro x hx
  simp [DirEntry.leavesOfList_all_hidden join path l x hx]

mutual
/-- The walk adds to `files`, in order, the paths of the entries that are not
directories, have the extension of a page and are not inside a directory whose name
begins with `.`. -/
theorem getFiles.walkDir_eq (join : Str → Str → Str) : ∀ (path : Str) (d : DirEntry)
    (files : List Str),
    getFiles.walkDir join path d files
      = files ++ ((DirEntry.leaves join path false d).filter
          (fun x => !x.2.2 && isMarkup x.2.1)).map (fun x => x.1)
  | path, DirEntry.file name, files => by
    rw [getFiles.walkDir, DirEntry.leaves]
    by_cases h : isMarkup name = true
    · simp [h]
    · simp [h]
  | path, DirEntry.dir name entries, files => by
    rw [getFiles.walkDir, DirEntry.leaves]
    by_cases h : strings.HasPrefix name ['.'] = true
    · simp only [h, if_true, Bool.false_or]
      rw [DirEntry.leavesOfList_hidden join path entries]
      simp
    · simp only [h, Bool.false_eq_true, if_false, Bool.false_or]
      rw [getFiles.walkEntries_eq join path entries files]
theorem getFiles.walkEntries_eq (join : Str → Str → Str) : ∀ (path : Str)
    (l : List DirEntry) (files : List Str),
    getFiles.walkEntries join path l files
      = files ++ ((DirEntry.leavesOfList join path false l).filter
          (fun x => !x.2.2 && isMarkup x.2.1)).map (fun x => x.1)
  | path, [], files => by simp [getFiles.walkEntries, DirEntry.leavesOfList]
  | path, d1 :: rest, files => by
    rw [getFiles.walkEntries, getFiles.walkDir_eq join _ d1 files,
      getFiles.walkEntries_eq join path rest, DirEntry.leavesOfList]
    simp [List.filter_append]
end

/-! # Claims -/

/-! ## The signature normalizer: claims -/

/-- C1: for every string `s`, `classSet (classSet s) = classSet s`: normalizing an already
normalized signature returns it unchanged. -/
theorem classSet_idempotent (s : Str) : classSet (classSet s) = classSet s := by
  have hsorted := sortCompact_sorted (strings.Fields (removeActions s))
  have htok : ∀ t ∈ slices.Compact (slices.SortStrings (strings.Fields (removeActions s))),
      IsToken t := fun t ht =>
    strings.Fields_isToken _ t ((mem_sortCompact _ t).1 ht)
  have hch : ∀ t ∈ slices.Compact (slices.SortStrings (strings.Fields (removeActions s))),
      t.Chain' NotOpen := fun t ht =>
    List.Chain'.infix ((strings.Index_open_none_iff _).1 (removeActions_noOpen s))
      (strings.Fields_piece _ t ((mem_sortCompact _ t).1 ht))
  have hno := (strings.Index_open_none_iff _).2 (strings.Join_chain _ hch)
  show classSet (strings.Join _ [' ']) = strings.Join _ [' ']
  rw [classSet, removeActions_of_noOpen _ hno, strings.Fields_Join _ htok,
    sortCompact_of_sorted _ hsorted]

/-- C2: for every string `s`, `classSet s` is the join by one ASCII space of a list of
tokens (its own fields) that is strictly increasing in the lexicographic order, hence
sorted and free of duplicates, every token being non-empty and free of white space;
and the join of the empty list is the empty string. -/
theorem classSet_sorted_tokens (s : Str) :
    (∃ toks : List Str, classSet s = strings.Join toks [' '] ∧
      toks = strings.Fields (classSet s) ∧
      toks.Sorted (· < ·) ∧ toks.Sorted (· ≤ ·) ∧ toks.Nodup ∧
      ∀ t ∈ toks, t ≠ [] ∧ ∀ c ∈ t, strings.isSpace c = false) ∧
    strings.Join [] [' '] = [] := by
  have hsorted := sortCompact_sorted (strings.Fields (removeActions s))
  have htok : ∀ t ∈ slices.Compact (slices.SortStrings (strings.Fields (removeActions s))),
      IsToken t := fun t ht =>
    strings.Fields_isToken _ t ((mem_sortCompact _ t).1 ht)
  refine ⟨⟨slices.Compact (slices.SortStrings (strings.Fields (removeActions s))), rfl, ?_,
    hsorted, hsorted.le_of_lt, hsorted.nodup, htok⟩, rfl⟩
  show _ = strings.Fields (strings.Join _ [' '])
  rw [strings.Fields_Join _ htok]

/-- C3: for strings `a` and `b` without the marker `{{` that have the same set of fields
(order and repetition ignored), `classSet a = classSet b`. -/
theorem classSet_token_set (a b : Str)
    (ha : strings.Index a openMarker = none) (hb : strings.Index b openMarker = none)
    (hab : ∀ t : Str, t ∈ strings.Fields a ↔ t ∈ strings.Fields b) :
    classSet a = classSet b := by
  unfold classSet
  rw [removeActions_of_noOpen a ha, removeActions_of_noOpen b hb]
  exact congrArg (fun l => strings.Join l [' ']) (sortCompact_congr _ _ hab)

/-- The example of C3: `"b a a"` and `"a b"` have the same fields and both give `"a b"`. -/
theorem classSet_token_set_witness :
    strings.Index "b a a".toList openMarker = none ∧
    strings.Index "a b".toList openMarker = none ∧
    (∀ t : Str, t ∈ strings.Fields "b a a".toList ↔ t ∈ strings.Fields "a b".toList) ∧
    classSet "b a a".toList = classSet "a b".toList ∧
    classSet "a b".toList = "a b".toList := by
  have h1 : strings.Index "b a a".toList openMarker = none := by decide
  have h2 : strings.Index "a b".toList openMarker = none := by decide
  have f1 : strings.Fields "b a a".toList = ["b".toList, "a".toList, "a".toList] := by decide
  have f2 : strings.Fields "a b".toList = ["a".toList, "b".toList] := by decide
  have h3 : ∀ t : Str, t ∈ strings.Fields "b a a".toList ↔ t ∈ strings.Fields "a b".toList := by
    intro t
    rw [f1, f2]
    simp only [List.mem_cons, List.mem_singleton, List.not_mem_nil, or_false]
    tauto
  exact ⟨h1, h2, h3, classSet_token_set _ _ h1 h2 h3, classSet_of_fuel 1 _ _ (by decide)⟩

/-- C4: when the shown `{{` is the first `{{` of `p ++ "{{" ++ i ++ "}}" ++ t` and the shown
`}}` is the first `}}` after it, `classSet` of that string is `classSet (p ++ " " ++ t)`: the
whole action, contents included, gives way to one space.  The three examples of the claim
follow: `"\x7b\x7bx\x7d\x7da b\x7b\x7by\x7d\x7d"` gives `"a b"`, `"a \x7b\x7b if x \x7d\x7db\x7b\x7b end \x7d\x7dc"` gives `"a b c"`, and
`"a\x7b\x7bx\x7d\x7db"` gives `"a b"`. -/
theorem classSet_action (p i t : Str)
    (hopen : strings.Index (p ++ openMarker ++ i ++ closeMarker ++ t) openMarker
      = some p.length)
    (hclose : strings.Index (i ++ closeMarker ++ t) closeMarker = some i.length) :
    classSet (p ++ openMarker ++ i ++ closeMarker ++ t) = classSet (p ++ [' '] ++ t) := by
  have hstep : classSetStep (p ++ openMarker ++ i ++ closeMarker ++ t)
      = some (p ++ [' '] ++ t) := by
    have h1 : strings.Cut (p ++ openMarker ++ i ++ closeMarker ++ t) openMarker
        = (p, i ++ closeMarker ++ t, true) := by
      unfold strings.Cut
      rw [hopen]
      simp only [List.append_assoc, List.take_left, Prod.mk.injEq, and_true, true_and]
      rw [← List.append_assoc p openMarker, ← List.length_append, List.drop_left]
    have h2 : strings.Cut (i ++ closeMarker ++ t) closeMarker = (i, t, true) := by
      unfold strings.Cut
      rw [hclose]
      simp only [List.append_assoc, List.take_left, Prod.mk.injEq, and_true, true_and]
      rw [← List.append_assoc i closeMarker, ← List.length_append, List.drop_left]
    unfold classSetStep
    rw [h1]
    simp only [h2]
  unfold classSet
  rw [removeActions_eq (p ++ openMarker ++ i ++ closeMarker ++ t), hstep]

/-- The examples of C4, the last one through the theorem with `p = "a"`, `i = "x"`, `t = "b"`. -/
theorem classSet_action_witness :
    strings.Index ("a".toList ++ openMarker ++ "x".toList ++ closeMarker ++ "b".toList)
      openMarker = some "a".toList.length ∧
    strings.Index ("x".toList ++ closeMarker ++ "b".toList) closeMarker
      = some "x".toList.length ∧
    classSet ("a".toList ++ openMarker ++ "x".toList ++ closeMarker ++ "b".toList)
      = classSet ("a".toList ++ [' '] ++ "b".toList) ∧
    classSet "a\x7b\x7bx\x7d\x7db".toList = "a b".toList ∧
    classSet "\x7b\x7bx\x7d\x7da b\x7b\x7by\x7d\x7d".toList = "a b".toList ∧
    classSet "a \x7b\x7b if x \x7d\x7db\x7b\x7b end \x7d\x7dc".toList = "a b c".toList :=
  ⟨by decide, by decide, classSet_action _ _ _ (by decide) (by decide),
    classSet_of_fuel 2 _ _ (by decide), classSet_of_fuel 3 _ _ (by decide),
    classSet_of_fuel 3 _ _ (by decide)⟩

/-! ## The ranking stage: claims -/

/-- C5: for every list of emitted signatures and every pair of thresholds, with a sorting
routine that meets the contract of `slices.SortFunc`, the ranking stage of `Exec` prints
its lines in non-decreasing order of count: when `x` is printed before `y`,
`counts[x] ≤ counts[y]`, for the counts of the map and for the counts shown. -/
theorem Exec_rank_ascending (sortFunc : SortFuncType) (hs : SortFuncSpec sortFunc)
    (names threshold : Int) (allClasses : List Str) :
    ∃ lines, Exec.rank sortFunc names threshold allClasses = some lines ∧
      lines.Pairwise (fun x y =>
        Exec.count allClasses (fun _ => 0) x.2 ≤ Exec.count allClasses (fun _ => 0) y.2 ∧
        x.1 ≤ y.1) := by
  obtain ⟨sorted, _, hsorted, hrank⟩ := Exec.rank_eq sortFunc hs names threshold allClasses
  refine ⟨_, hrank, ?_⟩
  rw [List.pairwise_map]
  refine (hsorted.filter _).imp ?_
  intro a b h
  simp only [Exec.count_zero]
  exact ⟨h, h⟩

/-- An instance of C5: the routine `slices.SortFunc` of the library, as embedded here,
meets the contract, and with it `b, a, b` is reported as `a` once, then `b` twice. -/
theorem Exec_rank_ascending_witness :
    SortFuncSpec slices.SortFunc ∧
    Exec.rank slices.SortFunc 0 1 ["b".toList, "a".toList, "b".toList]
      = some [(1, "a".toList), (2, "b".toList)] ∧
    ∃ lines, Exec.rank slices.SortFunc 0 1 ["b".toList, "a".toList, "b".toList]
        = some lines ∧
      lines.Pairwise (fun x y =>
        Exec.count ["b".toList, "a".toList, "b".toList] (fun _ => 0) x.2
          ≤ Exec.count ["b".toList, "a".toList, "b".toList] (fun _ => 0) y.2 ∧
        x.1 ≤ y.1) :=
  ⟨slices.SortFunc_spec, by decide,
    Exec_rank_ascending slices.SortFunc slices.SortFunc_spec 0 1 _⟩

/-- C7: for every list of emitted signatures and all integers `names` (minWords) and
`threshold` (minCount), with a sorting routine that meets the contract of
`slices.SortFunc`, a signature is in the report if and only if it occurs in the emitted
list, has at least `names` ASCII spaces, and has a count of at least `threshold`; and no
signature is reported twice.  So a signature occurring exactly `threshold` times is
reported and one occurring `threshold - 1` times is not, and a signature without a space
is left out when `names = 1` and kept when `names = 0`. -/
theorem Exec_rank_members (sortFunc : SortFuncType) (hs : SortFuncSpec sortFunc)
    (names threshold : Int) (allClasses : List Str) :
    ∃ lines, Exec.rank sortFunc names threshold allClasses = some lines ∧
      (∀ sig : Str, sig ∈ lines.map Prod.snd ↔
        sig ∈ allClasses ∧ names ≤ (strings.Count sig ' ' : Int) ∧
          threshold ≤ Exec.count allClasses (fun _ => 0) sig) ∧
      (lines.map Prod.snd).Nodup ∧
      (∀ sig ∈ allClasses, names ≤ (strings.Count sig ' ' : Int) →
        Exec.count allClasses (fun _ => 0) sig = threshold → sig ∈ lines.map Prod.snd) ∧
      (∀ sig : Str, Exec.count allClasses (fun _ => 0) sig = threshold - 1 →
        sig ∉ lines.map Prod.snd) ∧
      (∀ sig : Str, strings.Count sig ' ' = 0 → names = 1 → sig ∉ lines.map Prod.snd) ∧
      (∀ sig ∈ allClasses, strings.Count sig ' ' = 0 → names = 0 →
        threshold ≤ Exec.count allClasses (fun _ => 0) sig → sig ∈ lines.map Prod.snd) := by
  obtain ⟨sorted, hperm, _, hrank⟩ := Exec.rank_eq sortFunc hs names threshold allClasses
  have hmem : ∀ sig : Str, sig ∈ (List.map (fun cls => ((allClasses.count cls : Int), cls))
      (sorted.filter (Exec.kept names threshold
        (fun t => (allClasses.count t : Int))))).map Prod.snd ↔
      sig ∈ allClasses ∧ names ≤ (strings.Count sig ' ' : Int) ∧
        threshold ≤ Exec.count allClasses (fun _ => 0) sig := by
    intro sig
    rw [List.map_map]
    have hid : (Prod.snd ∘ fun cls : Str => ((allClasses.count cls : Int), cls)) = id := rfl
    rw [hid, List.map_id, List.mem_filter, hperm.mem_iff, mem_sortCompact, Exec.count_zero]
    simp [Exec.kept]
  refine ⟨_, hrank, hmem, ?_, ?_, ?_, ?_, ?_⟩
  · rw [List.map_map]
    have hid : (Prod.snd ∘ fun cls : Str => ((allClasses.count cls : Int), cls)) = id := rfl
    rw [hid, List.map_id]
    exact (hperm.nodup_iff.2 (sortCompact_sorted allClasses).nodup).filter _
  · intro sig hsig hn hc
    exact (hmem sig).2 ⟨hsig, hn, le_of_eq hc.symm⟩
  · intro sig hc h
    have := ((hmem sig).1 h).2.2
    omega
  · intro sig h0 hn h
    have := ((hmem sig).1 h).2.1
    omega
  · intro sig hsig h0 hn hc
    exact (hmem sig).2 ⟨hsig, by omega, hc⟩

/-- An instance of C7, with `slices.SortFunc` as the sorting routine: with `names = 1` and
`threshold = 2`, of `"a b"` seen twice, `"c d"` seen once and `"e"` seen twice only `"a b"`
is reported; with `names = 0` the signature `"e"`, which has no space, is reported too. -/
theorem Exec_rank_members_witness :
    SortFuncSpec slices.SortFunc ∧
    Exec.rank slices.SortFunc 1 2
        ["a b".toList, "e".toList, "c d".toList, "a b".toList, "e".toList]
      = some [(2, "a b".toList)] ∧
    Exec.rank slices.SortFunc 0 2
        ["a b".toList, "e".toList, "c d".toList, "a b".toList, "e".toList]
      = some [(2, "a b".toList), (2, "e".toList)] ∧
    ∃ lines, Exec.rank slices.SortFunc 1 2
        ["a b".toList, "e".toList, "c d".toList, "a b".toList, "e".toList] = some lines ∧
      ∀ sig : Str, sig ∈ lines.map Prod.snd ↔
        sig ∈ ["a b".toList, "e".toList, "c d".toList, "a b".toList, "e".toList] ∧
          (1 : Int) ≤ (strings.Count sig ' ' : Int) ∧
          (2 : Int) ≤ Exec.count
            ["a b".toList, "e".toList, "c d".toList, "a b".toList, "e".toList]
            (fun _ => 0) sig := by
  obtain ⟨lines, h1, h2, _⟩ := Exec_rank_members slices.SortFunc slices.SortFunc_spec 1 2
    ["a b".toList, "e".toList, "c d".toList, "a b".toList, "e".toList]
  exact ⟨slices.SortFunc_spec, by decide, by decide, lines, h1, h2⟩

/-- C8: for every list of emitted signatures, with a sorting routine that meets the
contract of `slices.SortFunc`, the count printed with a signature is the number of
positions of the emitted list that hold the signature, and it is positive. -/
theorem Exec_rank_counts (sortFunc : SortFuncType) (hs : SortFuncSpec sortFunc)
    (names threshold : Int) (allClasses : List Str) :
    ∃ lines, Exec.rank sortFunc names threshold allClasses = some lines ∧
      ∀ line ∈ lines, line.1 = (allClasses.count line.2 : Int) ∧
        line.1 = Exec.count allClasses (fun _ => 0) line.2 ∧ 0 < line.1 := by
  obtain ⟨sorted, hperm, _, hrank⟩ := Exec.rank_eq sortFunc hs names threshold allClasses
  refine ⟨_, hrank, ?_⟩
  intro line hline
  rw [List.mem_map] at hline
  obtain ⟨cls, hcls, rfl⟩ := hline
  have hin : cls ∈ allClasses :=
    (mem_sortCompact allClasses cls).1 (hperm.mem_iff.1 (List.mem_filter.1 hcls).1)
  refine ⟨rfl, (Exec.count_zero allClasses cls).symm, ?_⟩
  have := List.count_pos_iff.2 hin
  simp only [Nat.cast_pos]
  exact this

/-- An instance of C8, with `slices.SortFunc` as the sorting routine: in `b, a, b` the
signature `a` is counted once and `b` twice. -/
theorem Exec_rank_counts_witness :
    SortFuncSpec slices.SortFunc ∧
    ∃ lines, Exec.rank slices.SortFunc 0 1 ["b".toList, "a".toList, "b".toList]
        = some lines ∧
      ∀ line ∈ lines,
        line.1 = (["b".toList, "a".toList, "b".toList].count line.2 : Int) ∧
        line.1 = Exec.count ["b".toList, "a".toList, "b".toList] (fun _ => 0) line.2 ∧
        0 < line.1 :=
  ⟨slices.SortFunc_spec, Exec_rank_counts slices.SortFunc slices.SortFunc_spec 0 1 _⟩

/-- C6, amended: for every list of emitted signatures with at most 12 distinct signatures
and every pair of thresholds, `Exec` with `slices.SortFunc` prints any two lines with the
same count in ascending lexicographic order of their signatures; the lines are in the
order of count, then signature. -/
theorem Exec_rank_ties_short (names threshold : Int) (allClasses : List Str)
    (h : allClasses.dedup.length ≤ 12) :
    ∃ lines, Exec.rank slices.SortFunc names threshold allClasses = some lines ∧
      lines.Pairwise (fun x y => x.1 = y.1 → x.2 < y.2) ∧
      lines.Pairwise (fun x y => x.1 < y.1 ∨ (x.1 = y.1 ∧ x.2 < y.2)) := by
  obtain ⟨sorted, hsorted, hrank⟩ := Exec.rank_short names threshold allClasses h
  have hp : (List.map (fun cls => ((allClasses.count cls : Int), cls))
      (sorted.filter (Exec.kept names threshold (fun t => (allClasses.count t : Int))))).Pairwise
      (fun x y => x.1 < y.1 ∨ (x.1 = y.1 ∧ x.2 < y.2)) := by
    rw [List.pairwise_map]
    exact hsorted.filter _
  refine ⟨_, hrank, hp.imp ?_, hp⟩
  intro x y hxy he
  rcases hxy with hlt | ⟨_, hs⟩
  · exact absurd he (ne_of_lt hlt)
  · exact hs

/-- An instance of C6 as amended: three signatures, two of them with the same count. -/
theorem Exec_rank_ties_short_witness :
    ["b b".toList, "a".toList, "c".toList, "a".toList, "b b".toList].dedup.length ≤ 12 ∧
    Exec.rank slices.SortFunc 0 1 ["b b".toList, "a".toList, "c".toList, "a".toList, "b b".toList]
      = some [(1, "c".toList), (2, "a".toList), (2, "b b".toList)] ∧
    ∃ lines, Exec.rank slices.SortFunc 0 1
        ["b b".toList, "a".toList, "c".toList, "a".toList, "b b".toList] = some lines ∧
      lines.Pairwise (fun x y => x.1 = y.1 → x.2 < y.2) ∧
      lines.Pairwise (fun x y => x.1 < y.1 ∨ (x.1 = y.1 ∧ x.2 < y.2)) :=
  ⟨by decide, by decide, Exec_rank_ties_short 0 1 _ (by decide)⟩

/-- C6 fails as stated: for the thirteen signatures `a` to `m`, `a` emitted twice and the
others once, with `names = 0` and `threshold = 1`, `Exec` with `slices.SortFunc` prints `g`
before `b`, both with the count 1; so lines with the same count are not always in
ascending order of their signatures, and the contract of the sorting routine does not
make them so. -/
theorem Exec_rank_ties_counterexample :
    Exec.rank slices.SortFunc 0 1 thirteen
      = some [(1, ['g']), (1, ['b']), (1, ['c']), (1, ['d']), (1, ['e']), (1, ['f']),
          (1, ['h']), (1, ['i']), (1, ['j']), (1, ['k']), (1, ['l']), (1, ['m']), (2, ['a'])] ∧
    (¬ ∀ (names threshold : Int) (allClasses : List Str) (lines : List Line),
      Exec.rank slices.SortFunc names threshold allClasses = some lines →
        lines.Pairwise (fun x y => x.1 = y.1 → x.2 < y.2)) ∧
    (¬ ∀ (sortFunc : SortFuncType), SortFuncSpec sortFunc →
      ∀ (names threshold : Int) (allClasses : List Str) (lines : List Line),
        Exec.rank sortFunc names threshold allClasses = some lines →
          lines.Pairwise (fun x y => x.1 = y.1 → x.2 < y.2)) := by
  have hno : ¬ ∀ (names threshold : Int) (allClasses : List Str) (lines : List Line),
      Exec.rank slices.SortFunc names threshold allClasses = some lines →
        lines.Pairwise (fun x y => x.1 = y.1 → x.2 < y.2) := by
    intro hall
    have h := hall 0 1 thirteen _ Exec.rank_thirteen
    rw [List.pairwise_cons] at h
    exact absurd (h.1 (1, ['b']) (by simp) rfl) (by decide)
  exact ⟨Exec.rank_thirteen, hno, fun h => hno (h slices.SortFunc slices.SortFunc_spec)⟩

/-! ## Scanning: claims -/

/-- C9: with `classesInFile` giving either an error or a list of signatures for each file,
if `classesInFile` fails on a file and succeeds on the files before it, `Exec` returns the
error of that file, the first failing one, has scanned the files up to it and none after
it, and has printed no line, whatever the sorting routine and the thresholds. -/
theorem Exec_fail_fast {ε : Type} (sortFunc : SortFuncType)
    (classesInFile : Str → Except ε (List Str)) (names threshold : Int)
    (pre : List Str) (file : Str) (post : List Str) (err : ε)
    (hpre : ∀ f ∈ pre, ∃ classes, classesInFile f = Except.ok classes)
    (hfile : classesInFile file = Except.error err) :
    Exec sortFunc (Except.ok (pre ++ file :: post)) classesInFile names threshold
      = some ⟨pre ++ [file], [], some err⟩ := by
  unfold Exec
  simp only [Exec.scan_error classesInFile file post err hfile pre [] [] hpre, List.nil_append]

/-- An instance of C9, the one of the specification: the second of three files fails; the
run scans the first two files, prints nothing and returns the error of the second. -/
theorem Exec_fail_fast_witness :
    (∀ f ∈ [['1']], ∃ classes, threeFiles f = Except.ok classes) ∧
    threeFiles ['2'] = Except.error ['b', 'a', 'd'] ∧
    Exec slices.SortFunc (Except.ok ([['1']] ++ ['2'] :: [['3']])) threeFiles 0 1
      = some ⟨[['1']] ++ [['2']], [], some ['b', 'a', 'd']⟩ := by
  have h1 : ∀ f ∈ [['1']], ∃ classes, threeFiles f = Except.ok classes := by
    intro f hf
    rw [List.mem_singleton] at hf
    subst hf
    exact ⟨[['a'], ['a']], by simp [threeFiles]⟩
  have h2 : threeFiles ['2'] = Except.error ['b', 'a', 'd'] := by simp [threeFiles]
  exact ⟨h1, h2, Exec_fail_fast slices.SortFunc threeFiles 0 1 _ _ _ _ h1 h2⟩

/-! ## The document scanner: claims -/

/-- C10: for every node tree, `classSets` emits, in document order, one signature for
each element node whose attributes include one with the key exactly `class`, namely
`classSet` of the value of the first such attribute, also when that value is empty, the
signature then being empty; it emits nothing for an element node without such an
attribute and nothing for a node that is not an element, and the children of every node
are visited.  So the signatures emitted are as many as the element nodes of the tree that
carry an attribute `class`. -/
theorem classSets_emits (doc : Node) :
    classSets doc = (Node.nodes doc).filterMap Node.signature ∧
    (classSets doc).length = (Node.nodes doc).countP Node.hasClass ∧
    (∀ (attr : List Attribute) (children : List Node) (a : Attribute),
      firstClass attr = some a →
        Node.signature (Node.mk NodeType.ElementNode attr children) = some (classSet a.Val)) ∧
    (∀ n : Node, Node.hasClass n = false → Node.signature n = none) ∧
    classSet [] = [] := by
  have h : classSets doc = (Node.nodes doc).filterMap Node.signature := by
    rw [classSets, classSets.f_eq, List.nil_append]
  refine ⟨h, ?_, ?_, ?_, classSet_of_fuel 1 _ _ (by decide)⟩
  · rw [h, length_filterMap_isSome]
    congr 1
    funext n
    exact Node.signature_isSome n
  · intro attr children a ha
    simp [Node.signature, Node.type, Node.attr, ha]
  · intro n hn
    have := Node.signature_isSome n
    rw [hn] at this
    cases hs : Node.signature n with
    | none => rfl
    | some v => rw [hs] at this; simp at this

/-! ## Order of the emitted list: claims -/

/-- C11: for every list of emitted signatures and every rearrangement of it (any order of
the files or of the traversal), with a sorting routine that meets the contract of
`slices.SortFunc`, the ranking stage of `Exec` produces a report and the same one for
both lists: the same lines, with the same counts, in the same order. -/
theorem Exec_rank_order_independent (sortFunc : SortFuncType) (hs : SortFuncSpec sortFunc)
    (names threshold : Int) (l₁ l₂ : List Str) (h : l₁.Perm l₂) :
    Exec.rank sortFunc names threshold l₁ = Exec.rank sortFunc names threshold l₂ ∧
    ∃ lines, Exec.rank sortFunc names threshold l₁ = some lines ∧
      Exec.rank sortFunc names threshold l₂ = some lines := by
  have he := Exec.rank_perm sortFunc names threshold l₁ l₂ h
  obtain ⟨_, _, _, hrank⟩ := Exec.rank_eq sortFunc hs names threshold l₁
  exact ⟨he, _, hrank, he ▸ hrank⟩

/-- An instance of C11, with `slices.SortFunc` as the sorting routine: `b, a, b` and
`a, b, b` give the same report. -/
theorem Exec_rank_order_independent_witness :
    SortFuncSpec slices.SortFunc ∧ [['b'], ['a'], ['b']].Perm [['a'], ['b'], ['b']] ∧
    Exec.rank slices.SortFunc 0 1 [['b'], ['a'], ['b']]
      = Exec.rank slices.SortFunc 0 1 [['a'], ['b'], ['b']] ∧
    ∃ lines, Exec.rank slices.SortFunc 0 1 [['b'], ['a'], ['b']] = some lines ∧
      Exec.rank slices.SortFunc 0 1 [['a'], ['b'], ['b']] = some lines :=
  ⟨slices.SortFunc_spec, List.Perm.swap _ _ _,
    Exec_rank_order_independent slices.SortFunc slices.SortFunc_spec 0 1 _ _
      (List.Perm.swap _ _ _)⟩

/-! ## The signature normalizer: further claims -/

/-- C12: for every string `s`, with `tokenCount` the number of distinct fields left after
the actions are removed, `classSet s` has `tokenCount - 1` ASCII spaces when it is not
empty and none when it is empty, and it is empty exactly when there is no token; so a
signature of one token, and the empty signature, are in no report when `names ≥ 1`. -/
theorem classSet_spaces (s : Str) :
    (classSet s ≠ [] → strings.Count (classSet s) ' '
      = (strings.Fields (removeActions s)).dedup.length - 1) ∧
    (classSet s = [] → strings.Count (classSet s) ' ' = 0) ∧
    (classSet s = [] ↔ (strings.Fields (removeActions s)).dedup.length = 0) ∧
    (strings.Fields (classSet s)).length = (strings.Fields (removeActions s)).dedup.length ∧
    (∀ (sortFunc : SortFuncType) (names threshold : Int) (allClasses : List Str)
      (lines : List Line), 1 ≤ names →
      Exec.rank sortFunc names threshold allClasses = some lines →
      (strings.Fields (removeActions s)).dedup.length ≤ 1 →
      classSet s ∉ lines.map Prod.snd) := by
  have htok := classSet_tokens_isToken s
  have hcount : strings.Count (classSet s) ' '
      = (strings.Fields (removeActions s)).dedup.length - 1 := by
    rw [← sortCompact_length]
    exact strings.Count_Join _ htok
  have hnil : classSet s = [] ↔ (strings.Fields (removeActions s)).dedup.length = 0 := by
    rw [← sortCompact_length, List.length_eq_zero]
    exact strings.Join_eq_nil _ htok
  refine ⟨fun _ => hcount, fun h => ?_, hnil, ?_, ?_⟩
  · rw [hcount, hnil.1 h]
  · rw [strings.Fields_classSet, sortCompact_length]
  · intro sortFunc names threshold allClasses lines hn hrank hle hmem
    rw [List.mem_map] at hmem
    obtain ⟨line, hline, heq⟩ := hmem
    have := (Exec.rank_kept sortFunc names threshold allClasses lines hrank line hline).1
    rw [heq, hcount] at this
    omega

/-- C13: when the shown `{{` is the first `{{` of `p ++ "{{" ++ r` and `r` has no `}}`,
`classSet` of that string is `classSet p`: an action that is not closed takes all that
follows it, and this is no error. -/
theorem classSet_unclosed (p r : Str)
    (hopen : strings.Index (p ++ openMarker ++ r) openMarker = some p.length)
    (hclose : strings.Index r closeMarker = none) :
    classSet (p ++ openMarker ++ r) = classSet p := by
  have hp : strings.Index p openMarker = none := by
    rw [List.append_assoc] at hopen
    exact strings.Index_append_none p _ hopen
  unfold classSet
  rw [removeActions_eq (p ++ openMarker ++ r), classSetStep_unclosed p r hopen hclose]
  simp only []
  rw [removeActions_of_noOpen _ (strings.Index_append_space p hp),
    removeActions_of_noOpen p hp, strings.Fields_append_space]

/-- An instance of C13: `"a b{{ if x"` gives `"a b"`, as `"a b"` does. -/
theorem classSet_unclosed_witness :
    strings.Index ("b a".toList ++ openMarker ++ " if x".toList) openMarker
      = some "b a".toList.length ∧
    strings.Index " if x".toList closeMarker = none ∧
    classSet ("b a".toList ++ openMarker ++ " if x".toList) = classSet "b a".toList ∧
    classSet "b a\x7b\x7b if x".toList = "a b".toList :=
  ⟨by decide, by decide, classSet_unclosed _ _ (by decide) (by decide),
    classSet_of_fuel 2 _ _ (by decide)⟩

/-- C14: `classSet ""` is `""`, and `classSet s` is `""` for every string `s` of white
space only, such as three spaces. -/
theorem classSet_blank :
    classSet [] = [] ∧
    (∀ s : Str, (∀ c ∈ s, strings.isSpace c = true) → classSet s = []) ∧
    classSet [' ', ' ', ' '] = [] := by
  have h : ∀ s : Str, (∀ c ∈ s, strings.isSpace c = true) → classSet s = [] := by
    intro s hs
    unfold classSet
    rw [removeActions_of_noOpen s (strings.Index_spaces s hs), strings.Fields_spaces s hs]
    rfl
  refine ⟨h [] (by simp), h, h _ ?_⟩
  intro c hc
  simp only [List.mem_cons, List.mem_singleton, List.not_mem_nil, or_false, or_self] at hc
  subst hc
  decide

/-- C17: `classSet` is total.  Every pass of its loop that does not break makes the
string strictly shorter, so the loop breaks within as many passes as the string has
characters, and one more; the string it leaves has no `{{`, and `classSet` returns the
signature made from it.  No input gives an error. -/
theorem classSet_total (cls : Str) :
    (∀ c, classSetStep cls = some c → c.length < cls.length) ∧
    (∀ fuel, cls.length < fuel → removeActionsFuel fuel cls = some (removeActions cls)) ∧
    strings.Index (removeActions cls) openMarker = none ∧
    (∀ fuel, cls.length < fuel → classSetFuel fuel cls = some (classSet cls)) ∧
    ∃ sig, classSet cls = sig ∧ classSetFuel (cls.length + 1) cls = some sig :=
  ⟨fun c h => classSetStep_length_lt cls c h,
    fun fuel h => removeActionsFuel_enough fuel cls h,
    removeActions_noOpen cls,
    fun fuel h => classSetFuel_enough fuel cls h,
    classSet cls, rfl, classSetFuel_enough _ cls (Nat.lt_succ_self _)⟩

/-- C19: for strings `a` and `b` without the marker `{{`, if `classSet a = classSet b` then
`a` and `b` have the same set of fields: the signature determines the set of tokens. -/
theorem classSet_determines_tokens (a b : Str)
    (ha : strings.Index a openMarker = none) (hb : strings.Index b openMarker = none)
    (h : classSet a = classSet b) :
    ∀ t : Str, t ∈ strings.Fields a ↔ t ∈ strings.Fields b := by
  intro t
  have h1 := strings.Fields_classSet a
  have h2 := strings.Fields_classSet b
  rw [removeActions_of_noOpen a ha] at h1
  rw [removeActions_of_noOpen b hb] at h2
  rw [← mem_sortCompact (strings.Fields a), ← mem_sortCompact (strings.Fields b), ← h1, ← h2, h]

/-- An instance of C19: `"y x y"` and `"x  y"` have the same signature and the same
fields, `x` and `y`. -/
theorem classSet_determines_tokens_witness :
    strings.Index "y x y".toList openMarker = none ∧
    strings.Index "x  y".toList openMarker = none ∧
    classSet "y x y".toList = classSet "x  y".toList ∧
    ∀ t : Str, t ∈ strings.Fields "y x y".toList ↔ t ∈ strings.Fields "x  y".toList := by
  have h1 : strings.Index "y x y".toList openMarker = none := by decide
  have h2 : strings.Index "x  y".toList openMarker = none := by decide
  have h3 : classSet "y x y".toList = classSet "x  y".toList := by
    rw [classSet_of_fuel 1 "y x y".toList "x y".toList (by decide),
      classSet_of_fuel 1 "x  y".toList "x y".toList (by decide)]
  exact ⟨h1, h2, h3, classSet_determines_tokens _ _ h1 h2 h3⟩

/-! ## Examples of the specification: claims -/

/-- C15: for every emitted list whose counts are exactly `a`: 5, `b b`: 5, `c`: 2, with
`names = 0` and `threshold = 2`, `Exec` with `slices.SortFunc` prints exactly the three
lines `(2, c)`, `(5, a)`, `(5, b b)`, in that order. -/
theorem Exec_rank_example (allClasses : List Str)
    (h : ∀ t : Str, Exec.count allClasses (fun _ => 0) t = exampleCounts t) :
    Exec.rank slices.SortFunc 0 2 allClasses
      = some [(2, ['c']), (5, ['a']), (5, ['b', ' ', 'b'])] := by
  have hc : Exec.count allClasses (fun _ => 0) = exampleCounts := funext h
  have hmem : ∀ t : Str, t ∈ allClasses ↔ t ∈ [['a'], ['b', ' ', 'b'], ['c']] := by
    intro t
    have h1 : 0 < (allClasses.count t : Int) ↔ t ∈ allClasses := by
      rw [Nat.cast_pos]; exact List.count_pos_iff
    rw [← h1, ← Exec.count_zero, h t, exampleCounts_pos]
    simp
  have hs : slices.Compact (slices.SortStrings allClasses) = [['a'], ['b', ' ', 'b'], ['c']] := by
    rw [sortCompact_congr allClasses [['a'], ['b', ' ', 'b'], ['c']] hmem]
    decide
  unfold Exec.rank
  simp only [hc, hs]
  decide

/-- An instance of C15: the list of five `a`, five `b b` and two `c`, in mixed order. -/
theorem Exec_rank_example_witness :
    (∀ t : Str, Exec.count
      [['c'], ['a'], ['b', ' ', 'b'], ['a'], ['a'], ['b', ' ', 'b'], ['c'], ['b', ' ', 'b'],
        ['a'], ['b', ' ', 'b'], ['a'], ['b', ' ', 'b']] (fun _ => 0) t = exampleCounts t) ∧
    Exec.rank slices.SortFunc 0 2
      [['c'], ['a'], ['b', ' ', 'b'], ['a'], ['a'], ['b', ' ', 'b'], ['c'], ['b', ' ', 'b'],
        ['a'], ['b', ' ', 'b'], ['a'], ['b', ' ', 'b']]
      = some [(2, ['c']), (5, ['a']), (5, ['b', ' ', 'b'])] := by
  have h : ∀ t : Str, Exec.count
      [['c'], ['a'], ['b', ' ', 'b'], ['a'], ['a'], ['b', ' ', 'b'], ['c'], ['b', ' ', 'b'],
        ['a'], ['b', ' ', 'b'], ['a'], ['b', ' ', 'b']] (fun _ => 0) t = exampleCounts t := by
    intro t
    rw [Exec.count_zero]
    unfold exampleCounts
    by_cases h1 : t = ['a']
    · subst h1; decide
    · by_cases h2 : t = ['b', ' ', 'b']
      · subst h2; decide
      · by_cases h3 : t = ['c']
        · subst h3; decide
        · have e1 : ¬ ['a'] = t := fun e => h1 e.symm
          have e2 : ¬ ['b', ' ', 'b'] = t := fun e => h2 e.symm
          have e3 : ¬ ['c'] = t := fun e => h3 e.symm
          simp [h1, h2, h3, e1, e2, e3, List.count_cons]
  exact ⟨h, Exec_rank_example _ h⟩

/-- C16: for two files, the first with one element carrying `class="foo bar"`, the second
with one element carrying `class="bar foo"` and another carrying `class="foo bar baz"`,
in either order, with `names = 1` and `threshold = 1`, `Exec` with `slices.SortFunc` scans
both files, returns no error and prints exactly the two lines `(1, "bar baz foo")`, then
`(2, "bar foo")`: one line for `bar foo`, with the count 2, after the line of
`bar baz foo`, which has the count 1. -/
theorem Exec_end_to_end {ε : Type} (parse : Str → Except ε Node) (file1 file2 : Str)
    (doc1 doc2 : Node)
    (h1 : parse file1 = Except.ok doc1) (h2 : parse file2 = Except.ok doc2)
    (hv1 : Node.classValues doc1 = ["foo bar".toList])
    (hv2 : (Node.classValues doc2).Perm ["bar foo".toList, "foo bar baz".toList]) :
    Exec slices.SortFunc (Except.ok [file1, file2]) (classesInFile parse) 1 1
      = some ⟨[file1, file2], [(1, "bar baz foo".toList), (2, "bar foo".toList)], none⟩ := by
  have e1 : classSet "foo bar".toList = "bar foo".toList :=
    classSet_of_fuel 1 _ _ (by decide)
  have e2 : classSet "bar foo".toList = "bar foo".toList :=
    classSet_of_fuel 1 _ _ (by decide)
  have e3 : classSet "foo bar baz".toList = "bar baz foo".toList :=
    classSet_of_fuel 1 _ _ (by decide)
  have c1 : classesInFile parse file1 = Except.ok ["bar foo".toList] := by
    rw [classesInFile, h1]
    simp only [classSets_eq_map, hv1, List.map_cons, List.map_nil, e1]
  have hp2 : (classSets doc2).Perm ["bar foo".toList, "bar baz foo".toList] := by
    rw [classSets_eq_map]
    have := hv2.map classSet
    simpa only [List.map_cons, List.map_nil, e2, e3] using this
  have c2 : classesInFile parse file2 = Except.ok (classSets doc2) := by
    rw [classesInFile, h2]
  have hscan : Exec.scan (classesInFile parse) [file1, file2] [] []
      = ([file1, file2], Except.ok ("bar foo".toList :: classSets doc2)) := by
    simp [Exec.scan, c1, c2]
  have hrank : Exec.rank slices.SortFunc 1 1 ("bar foo".toList :: classSets doc2)
      = some [(1, "bar baz foo".toList), (2, "bar foo".toList)] := by
    rw [Exec.rank_perm slices.SortFunc 1 1 _ _ (hp2.cons "bar foo".toList)]
    decide
  unfold Exec
  simp only [hscan, hrank]

/-- An instance of C16: two documents as the claim describes them, in the files `1`
and `2`. -/
theorem Exec_end_to_end_witness :
    exampleParse ['1'] = Except.ok exampleDoc1 ∧ exampleParse ['2'] = Except.ok exampleDoc2 ∧
    Node.classValues exampleDoc1 = ["foo bar".toList] ∧
    (Node.classValues exampleDoc2).Perm ["bar foo".toList, "foo bar baz".toList] ∧
    Exec slices.SortFunc (Except.ok [['1'], ['2']]) (classesInFile exampleParse) 1 1
      = some ⟨[['1'], ['2']], [(1, "bar baz foo".toList), (2, "bar foo".toList)], none⟩ := by
  have h1 : exampleParse ['1'] = Except.ok exampleDoc1 := by simp [exampleParse]
  have h2 : exampleParse ['2'] = Except.ok exampleDoc2 := by simp [exampleParse]
  have hv1 : Node.classValues exampleDoc1 = ["foo bar".toList] := by decide
  have hv2 : Node.classValues exampleDoc2 = ["bar foo".toList, "foo bar baz".toList] := by
    decide
  exact ⟨h1, h2, hv1, hv2 ▸ List.Perm.refl _,
    Exec_end_to_end exampleParse _ _ _ _ h1 h2 hv1 (hv2 ▸ List.Perm.refl _)⟩

/-! ## The files scanned: claims -/

/-- C18: on a directory tree of named entries, `getFiles` returns, in the order of the
walk, exactly the paths of the entries that are not directories, whose name has the
extension `.html` or `.htm`, and that do not lie inside a directory whose name begins
with `.`; a directory whose name begins with `.` adds nothing, whatever it holds, and
the test applies to the name of the root directory as well, so that such a root gives no
files at all. -/
theorem getFiles_spec (join : Str → Str → Str) (srcDir : Str) (root : DirEntry) :
    getFiles join srcDir root
      = ((DirEntry.leaves join srcDir false root).filter
          (fun x => !x.2.2 && isMarkup x.2.1)).map (fun x => x.1) ∧
    (∀ name : Str, isMarkup name = true ↔
      (filepath.Ext name = ".html".toList ∨ filepath.Ext name = ".htm".toList)) ∧
    (∀ (path name : Str) (entries : List DirEntry) (files : List Str),
      strings.HasPrefix name ['.'] = true →
        getFiles.walkDir join path (DirEntry.dir name entries) files = files) ∧
    (∀ (name : Str) (entries : List DirEntry), strings.HasPrefix name ['.'] = true →
      getFiles join srcDir (DirEntry.dir name entries) = []) ∧
    getFiles exampleJoin "site".toList exampleTree
      = ["site/a.htm".toList, "site/index.html".toList, "site/sub/c.html".toList] ∧
    getFiles exampleJoin ['.'] (DirEntry.dir ['.'] [DirEntry.file "index.html".toList])
      = [] := by
  refine ⟨?_, ?_, ?_, ?_, by decide, by decide⟩
  · rw [getFiles, getFiles.walkDir_eq, List.nil_append]
  · intro name
    simp [isMarkup]
  · intro path name entries files h
    rw [getFiles.walkDir, if_pos h]
  · intro name entries h
    rw [getFiles, getFiles.walkDir, if_pos h]

end Classy
